import Mathlib

/-!
# Verification of the coreLox hash table, value equality, compiler checks, and GC

A shallow embedding, in Lean 4, of the parts of the coreLox interpreter that
the specification's claims are about:

* the open-addressing hash table of `table.c` (`findEntry`, `adjustCapacity`,
  `tableGet`, `tableSet`, `tableDelete`, `tableFindString`, `tableRemoveWhite`),
* the value representations and `valuesEqual` of `value.c` / `value.h`
  (both the tagged-union and the NaN-boxing variant),
* the string interning of `object.c` (`hashString`, `takeString`, `copyString`),
* the mark-sweep collector of `memory.c` (`markObject`, `markRoots`,
  `traceReferences`, `sweep`, `collectGarbage`, `reallocate`),
* the compiler's local-variable and `return` handling of `compiler.c`
  (`addLocal`, `declareVariable`, `markInitialized`, `resolveLocal`,
  `emitReturn`, `returnStatement`).

Machine integers are modelled as `Nat` with explicit `% 2 ^ w` where overflow
matters; C pointers are modelled as `Nat` identities; fallible or possibly
diverging code returns `Option` (a `for (;;)` probe loop is given explicit
fuel, and `none` models non-termination, which the theorems rule out on
reachable states).
-/

namespace CoreLox

/-!
## Values (`value.h`, tagged-union representation)

The tagged union `Value`: `VAL_BOOL`, `VAL_NIL`, `VAL_NUMBER`, `VAL_OBJECT`.
A number carries the 64 bits of its IEEE-754 double (`as.number`); an object
carries the pointer identity (`as.object`).  `NIL_VAL` is `.nil`,
`BOOL_VAL b` is `.boolean b`.
-/

inductive LoxValue : Type where
  | nil : LoxValue
  | boolean (b : Bool) : LoxValue
  | number (bits : Nat) : LoxValue
  | object (ptr : Nat) : LoxValue
deriving DecidableEq, Repr

/-!
## Hash table (`table.c`)

An `Entry` is `(key: ObjectString* | NULL, value: Value)`; the key pointer is
modelled as `Option Nat`.  A `Table` stores `count`, the capacity *mask*
(`capacity` is the C field, which holds `actual size - 1` and is `-1` for an
unallocated table, hence `Int`), and the entry array (a `List` of length
`capacity + 1`).

The string hash stored in each `ObjectString` (`key->hash`) is a function of
the pointer identity, passed around as the parameter `hashFn`; interned
strings are immutable, so the hash a pointer carries never changes.
-/

structure Entry : Type where
  key : Option Nat
  value : LoxValue
deriving DecidableEq, Repr

/-- The all-`NULL`, `nil`-valued entry that `adjustCapacity` fills fresh
arrays with; also used as the out-of-range default for indexing. -/
def emptyEntry : Entry := { key := none, value := LoxValue.nil }

/-- `entries[i]` (out-of-range reads, which never happen on reachable states,
yield the empty entry). -/
def slot (es : List Entry) (i : Nat) : Entry := es.getD i emptyEntry

structure Table : Type where
  count : Nat
  capacity : Int
  entries : List Entry
deriving DecidableEq, Repr

/-- `initTable`: `count = 0`, `capacity = -1`, `entries = NULL`. -/
def initTable : Table := { count := 0, capacity := -1, entries := [] }

/-- `GROW_CAPACITY` from `memory.h`: `capacity < 8 ? 8 : capacity * 2`. -/
def GROW_CAPACITY (capacity : Nat) : Nat :=
  if capacity < 8 then 8 else capacity * 2

/-- The body of `findEntry`'s `for (;;)` probe loop.  `capacity` is the probe
mask (`actual size - 1`), `index` the current probe position, `tombstone` the
first tombstone seen (C's `Entry* tombstone`).  The loop is given explicit
`fuel`; `none` models non-termination of the C loop.  On success it returns
the *index* of the entry the C function returns a pointer to. -/
def findEntryLoop (entries : List Entry) (capacity : Nat)
    (key : Nat) (index : Nat) (tombstone : Option Nat) (fuel : Nat) :
    Option Nat :=
  match fuel with
  | 0 => none
  | fuel + 1 =>
    let entry := slot entries index
    match entry.key with
    | none =>
      if entry.value = LoxValue.nil then
        -- empty entry: reuse a tombstone if one was passed
        some (tombstone.getD index)
      else
        -- tombstone: remember the first one, keep probing
        findEntryLoop entries capacity key ((index + 1) &&& capacity)
          (match tombstone with | none => some index | some t => some t) fuel
    | some k =>
      if k = key then some index
      else
        findEntryLoop entries capacity key ((index + 1) &&& capacity)
          tombstone fuel

/-- `findEntry(entries, capacity, key)`: probe from `key->hash & capacity`.
The fuel `entries.length + 1` is enough whenever the array has a truly empty
slot (proved below); `hashFn key` is the `key->hash` field. -/
def findEntry (hashFn : Nat → Nat) (entries : List Entry) (capacity : Nat)
    (key : Nat) : Option Nat :=
  findEntryLoop entries capacity key (hashFn key &&& capacity)
    none (entries.length + 1)

/-- One step of `adjustCapacity`'s reinsertion loop: skip `NULL` keys, find
the destination slot in the new array, copy the entry, bump the recomputed
count. -/
def reinsertStep (hashFn : Nat → Nat) (capacity : Nat)
    (acc : Option (List Entry × Nat)) (entry : Entry) :
    Option (List Entry × Nat) :=
  match acc with
  | none => none
  | some (es, cnt) =>
    match entry.key with
    | none => some (es, cnt)
    | some k =>
      match findEntry hashFn es capacity k with
      | none => none
      | some i => some (es.set i { key := some k, value := entry.value }, cnt + 1)

/-- `adjustCapacity(table, capacity)`: allocate a fresh zeroed array of
`capacity + 1` entries, reset `count`, reinsert every non-`NULL`-key entry of
the old array (dropping tombstones), recomputing `count` from scratch. -/
def adjustCapacity (hashFn : Nat → Nat) (t : Table) (capacity : Nat) :
    Option Table :=
  let fresh := List.replicate (capacity + 1) emptyEntry
  match t.entries.foldl (reinsertStep hashFn capacity) (some (fresh, 0)) with
  | none => none
  | some (es, cnt) =>
    some { count := cnt, capacity := (capacity : Int), entries := es }

/-- `tableGet(table, key, value)`: `false` when `count == 0`, otherwise probe;
`true` plus the value exactly when the found entry's key is not `NULL`.
Modelled as `Option LoxValue` (`none` = returned `false`). -/
def tableGet (hashFn : Nat → Nat) (t : Table) (key : Nat) : Option LoxValue :=
  if t.count = 0 then none
  else
    match findEntry hashFn t.entries t.capacity.toNat key with
    | none => none
    | some i =>
      let entry := slot t.entries i
      match entry.key with
      | none => none
      | some _ => some entry.value

/-- The second half of `tableSet(table, key, value)` (everything after the
growth check): probe, bump `count` only when the found slot was truly empty
(not a tombstone), store the entry, return `isNewKey = (entry->key == NULL)`. -/
def tableSetStore (hashFn : Nat → Nat) (t : Table) (key : Nat)
    (value : LoxValue) : Option (Table × Bool) :=
  match findEntry hashFn t.entries t.capacity.toNat key with
  | none => none
  | some i =>
    let entry := slot t.entries i
    let isNewKey := entry.key.isNone
    let count := if entry.key = none ∧ entry.value = LoxValue.nil
      then t.count + 1 else t.count
    some ({ t with
              count := count,
              entries := t.entries.set i { key := some key, value := value } },
          isNewKey)

/-- `tableSet(table, key, value)`: grow (before probing) when
`count + 1 > (capacity + 1) * TABLE_MAX_LOAD`, then probe and store via
`tableSetStore`.  The C comparison is in IEEE double arithmetic with
`TABLE_MAX_LOAD = 0.75`; it is exact here because `capacity + 1` is always
`0` or a power of two `≥ 8`, so it is rendered by the equivalent integer
comparison `4 * (count + 1) > 3 * (capacity + 1)`. -/
def tableSet (hashFn : Nat → Nat) (t : Table) (key : Nat) (value : LoxValue) :
    Option (Table × Bool) :=
  let grown : Option Table :=
    if 4 * ((t.count : Int) + 1) > 3 * (t.capacity + 1) then
      adjustCapacity hashFn t (GROW_CAPACITY (t.capacity + 1).toNat - 1)
    else some t
  match grown with
  | none => none
  | some t => tableSetStore hashFn t key value

/-- `tableDelete(table, key)`: `false` when `count == 0`; otherwise probe, and
on a hit overwrite the entry with the tombstone `key = NULL, value = true`
(`count` is *not* decremented). -/
def tableDelete (hashFn : Nat → Nat) (t : Table) (key : Nat) :
    Option (Table × Bool) :=
  if t.count = 0 then some (t, false)
  else
    match findEntry hashFn t.entries t.capacity.toNat key with
    | none => none
    | some i =>
      let entry := slot t.entries i
      match entry.key with
      | none => some (t, false)
      | some _ =>
        some ({ t with
                  entries := t.entries.set i
                    { key := none, value := LoxValue.boolean true } },
              true)

/-- The body of `tableFindString`'s probe loop.  `strChars k` is the byte
content `key->chars` of string object `k`, `hashFn k` its `key->hash` field.
The comparison is `key->length == length && key->hash == hash &&
memcmp(key->chars, chars, length) == 0`.  Returns `some (some k)` on a hit,
`some none` at an empty non-tombstone entry, `none` on fuel exhaustion
(modelling non-termination). -/
def tableFindStringLoop (hashFn : Nat → Nat) (strChars : Nat → List Nat)
    (entries : List Entry) (capacity : Nat) (chars : List Nat) (length : Nat)
    (hash : Nat) (index : Nat) (fuel : Nat) : Option (Option Nat) :=
  match fuel with
  | 0 => none
  | fuel + 1 =>
    let entry := slot entries index
    match entry.key with
    | none =>
      if entry.value = LoxValue.nil then some none
      else
        tableFindStringLoop hashFn strChars entries capacity chars length hash
          ((index + 1) &&& capacity) fuel
    | some k =>
      if (strChars k).length = length ∧ hashFn k = hash ∧
          (strChars k).take length = chars.take length then
        some (some k)
      else
        tableFindStringLoop hashFn strChars entries capacity chars length hash
          ((index + 1) &&& capacity) fuel

/-- `tableFindString(table, chars, length, hash)`: `NULL` when `count == 0`,
else probe from `hash & capacity`. -/
def tableFindString (hashFn : Nat → Nat) (strChars : Nat → List Nat)
    (t : Table) (chars : List Nat) (length : Nat) (hash : Nat) :
    Option (Option Nat) :=
  if t.count = 0 then some none
  else
    tableFindStringLoop hashFn strChars t.entries t.capacity.toNat chars length
      hash (hash &&& t.capacity.toNat) (t.entries.length + 1)

/-!
## Semantic layer for the hash table

`probe len s d` is the linear-probe position `d` steps after `s`, `home` is
the hash-determined start slot, and `absTable` is the abstraction function:
the finite map a table represents.
-/

/-- A truly empty slot: `key == NULL && IS_NIL(value)`. -/
def isEmptySlot (e : Entry) : Prop := e.key = none ∧ e.value = LoxValue.nil

instance (e : Entry) : Decidable (isEmptySlot e) := by
  unfold isEmptySlot; infer_instance

/-- Number of occupied (non-empty: live or tombstone) slots. -/
def countOccupied (es : List Entry) : Nat :=
  (es.filter (fun e => !(decide (isEmptySlot e)))).length

/-- Linear probing: the slot reached `d` steps after `s`, wrapping at `len`. -/
def probe (len s d : Nat) : Nat := (s + d) % len

/-- The probe start slot of a key: `key->hash % size` (the C `hash & mask`). -/
def home (hashFn : Nat → Nat) (len k : Nat) : Nat := hashFn k % len

/-- The finite map a table's entry array represents: the value stored with a
non-`NULL` key.  (With distinct keys, which the invariant guarantees, the
first match is the only match.) -/
def absTable (es : List Entry) (k : Nat) : Option LoxValue :=
  (es.find? (fun e => e.key == some k)).map (·.value)

/-- Entry arrays produced by `adjustCapacity` contain no tombstones: a `NULL`
key means a `nil` value. -/
def NoTomb (es : List Entry) : Prop :=
  ∀ e ∈ es, e.key = none → e.value = LoxValue.nil

/-- The probe-chain and key-uniqueness invariant of an entry array:
* `chain`: a stored key is reachable from its home slot without crossing a
  truly empty slot (tombstones are allowed on the way);
* `uniq`: no key occupies two slots.
-/
structure EntriesInv (hashFn : Nat → Nat) (es : List Entry) : Prop where
  chain : ∀ k d, d < es.length →
    (slot es (probe es.length (home hashFn es.length k) d)).key = some k →
    ∀ e < d, ¬ isEmptySlot (slot es (probe es.length (home hashFn es.length k) e))
  uniq : ∀ i j k, i < es.length → j < es.length →
    (slot es i).key = some k → (slot es j).key = some k → i = j

/-- The full invariant of an allocated table (one that has been through
`adjustCapacity` at least once). -/
structure TableInvA (hashFn : Nat → Nat) (t : Table) : Prop where
  pow : ∃ K, 3 ≤ K ∧ t.entries.length = 2 ^ K
  cap : t.capacity = (t.entries.length : Int) - 1
  cnt : t.count = countOccupied t.entries
  load : 4 * t.count ≤ 3 * t.entries.length
  inv : EntriesInv hashFn t.entries

/-- A reachable table: still in its `initTable` state, or allocated and
satisfying `TableInvA`. -/
def TableOk (hashFn : Nat → Nat) (t : Table) : Prop :=
  t = initTable ∨ TableInvA hashFn t

/-!
### Elementary slot / probe / counting lemmas
-/

theorem slot_eq_get (es : List Entry) (i : Nat) (h : i < es.length) :
    slot es i = es.get ⟨i, h⟩ := by
  simp [slot, List.getD_eq_getElem?_getD, List.getElem?_eq_getElem h]

theorem slot_eq_getElem (es : List Entry) (i : Nat) (h : i < es.length) :
    slot es i = es[i] := by
  simp [slot, List.getD_eq_getElem?_getD, List.getElem?_eq_getElem h]

theorem slot_mem (es : List Entry) (i : Nat) (h : i < es.length) :
    slot es i ∈ es := by
  rw [slot_eq_get es i h]; exact List.get_mem es i h

/-- `NoTomb` from a slot-level description. -/
theorem noTomb_of_slot (es : List Entry)
    (h : ∀ i < es.length, (slot es i).key = none →
      (slot es i).value = LoxValue.nil) : NoTomb es := by
  intro e he hk
  obtain ⟨i, hi, rfl⟩ := List.getElem_of_mem he
  rw [← slot_eq_getElem es i hi] at hk ⊢
  exact h i hi hk

theorem slot_set_eq (es : List Entry) (i : Nat) (e : Entry)
    (h : i < es.length) : slot (es.set i e) i = e := by
  have h2 : i < (es.set i e).length := by simpa using h
  rw [slot_eq_get _ i h2]
  simp [List.get_eq_getElem, List.getElem_set_self]

theorem slot_set_ne (es : List Entry) (i j : Nat) (e : Entry)
    (h : i ≠ j) : slot (es.set i e) j = slot es j := by
  unfold slot
  by_cases hj : j < es.length
  · have h2 : j < (es.set i e).length := by simpa using hj
    rw [List.getD_eq_getElem?_getD, List.getD_eq_getElem?_getD,
      List.getElem?_eq_getElem hj, List.getElem?_eq_getElem h2]
    simp [List.getElem_set_ne h]
  · have hj2 : ¬ j < (es.set i e).length := by simpa using hj
    rw [List.getD_eq_getElem?_getD, List.getD_eq_getElem?_getD,
      List.getElem?_eq_none (by omega), List.getElem?_eq_none (by omega)]

theorem slot_replicate (n i : Nat) :
    slot (List.replicate n emptyEntry) i = emptyEntry := by
  unfold slot
  by_cases h : i < n
  · rw [List.getD_eq_getElem?_getD, List.getElem?_eq_getElem (by simpa using h)]
    simp [List.getElem_replicate]
  · rw [List.getD_eq_getElem?_getD, List.getElem?_eq_none (by simpa using h)]
    rfl

theorem probe_lt (len s d : Nat) (h : 0 < len) : probe len s d < len :=
  Nat.mod_lt _ h

theorem probe_zero (len s : Nat) (h : s < len) : probe len s 0 = s := by
  simp [probe, Nat.mod_eq_of_lt h]

theorem probe_step (len s m : Nat) :
    (probe len s m + 1) % len = probe len s (m + 1) := by
  unfold probe
  rw [Nat.mod_add_mod, Nat.add_assoc]

theorem probe_inj (len s d1 d2 : Nat) (h1 : d1 < len) (h2 : d2 < len)
    (h : probe len s d1 = probe len s d2) : d1 = d2 := by
  have hmod : (s + d1) % len = (s + d2) % len := h
  have : d1 % len = d2 % len := by
    have := Nat.ModEq.add_left_cancel' s hmod
    exact this
  rwa [Nat.mod_eq_of_lt h1, Nat.mod_eq_of_lt h2] at this

theorem probe_surj (len s j : Nat) (hj : j < len) (hs : s < len) :
    ∃ d < len, probe len s d = j := by
  refine ⟨(len + j - s) % len, Nat.mod_lt _ (by omega), ?_⟩
  unfold probe
  rw [Nat.add_mod_mod]
  have hsub : s + (len + j - s) = len + j := by omega
  rw [hsub, Nat.add_mod_left, Nat.mod_eq_of_lt hj]

theorem countOccupied_le (es : List Entry) : countOccupied es ≤ es.length :=
  List.length_filter_le _ es

theorem countOccupied_set (es : List Entry) (i : Nat) (e : Entry)
    (h : i < es.length) :
    countOccupied (es.set i e) + (if isEmptySlot (slot es i) then 0 else 1) =
      countOccupied es + (if isEmptySlot e then 0 else 1) := by
  induction es generalizing i with
  | nil => simp at h
  | cons a es ih =>
    cases i with
    | zero =>
      simp only [List.set_cons_zero, countOccupied, List.filter_cons]
      have hs : slot (a :: es) 0 = a := rfl
      rw [hs]
      by_cases ha : isEmptySlot a <;> by_cases he : isEmptySlot e <;>
        simp [ha, he] <;> omega
    | succ i =>
      have hi : i < es.length := by simpa using h
      have ih2 := ih i hi
      simp only [countOccupied, List.filter_cons] at ih2 ⊢
      simp only [List.set_cons_succ, List.filter_cons]
      have hs : slot (a :: es) (i + 1) = slot es i := rfl
      rw [hs]
      by_cases ha : isEmptySlot a <;> by_cases hb : isEmptySlot (slot es i) <;>
        by_cases he : isEmptySlot e <;>
        simp [ha, hb, he] at ih2 ⊢ <;> omega

/-- If not every slot is occupied, some slot is truly empty. -/
theorem exists_empty_of_countOccupied_lt (es : List Entry)
    (h : countOccupied es < es.length) :
    ∃ i < es.length, isEmptySlot (slot es i) := by
  by_contra hno
  push_neg at hno
  have hfl : (es.filter (fun e => !(decide (isEmptySlot e)))).length
      = es.length := by
    rw [List.filter_length_eq_length]
    intro e he
    obtain ⟨i, hi, rfl⟩ := List.getElem_of_mem he
    have h2 := hno i hi
    rw [slot_eq_get es i hi] at h2
    simp only [List.get_eq_getElem] at h2
    simp [h2]
  unfold countOccupied at h
  omega

/-- Setting a slot to a non-empty entry never empties any slot. -/
theorem not_empty_preserved (es : List Entry) (i : Nat) (e : Entry)
    (he : ¬ isEmptySlot e) (j : Nat) (hj : ¬ isEmptySlot (slot es j)) :
    ¬ isEmptySlot (slot (es.set i e) j) := by
  by_cases hij : i = j
  · subst hij
    by_cases hi : i < es.length
    · rwa [slot_set_eq es i e hi]
    · rw [List.set_eq_of_length_le (by omega)]
      exact hj
  · rwa [slot_set_ne es i j e hij]

theorem home_lt (hashFn : Nat → Nat) (len k : Nat) (h : 0 < len) :
    home hashFn len k < len := Nat.mod_lt _ h

/-- `hash & (capacity - 1)` is `hash % capacity` for power-of-two sizes (the
optimization `findEntry` relies on). -/
theorem and_mask (K x : Nat) : x &&& (2 ^ K - 1) = x % 2 ^ K :=
  Nat.and_pow_two_sub_one_eq_mod x K

/-!
### The probe loop: termination and dichotomy

`findEntryLoop_present`: probing from the home slot of a stored key reaches
that key (the chain invariant keeps the path free of truly empty slots).
`findEntryLoop_absent`: probing for an absent key stops at a `NULL`-key slot
(the first tombstone of the path, or its first empty slot), provided some
empty slot exists on the probe cycle.
-/

/-- One-step unfolding of the probe loop (`fuel + 1`). -/
theorem findEntryLoop_succ (es : List Entry) (capacity key index : Nat)
    (ts : Option Nat) (fuel : Nat) :
    findEntryLoop es capacity key index ts (fuel + 1) =
      match (slot es index).key with
      | none =>
        if (slot es index).value = LoxValue.nil then some (ts.getD index)
        else findEntryLoop es capacity key ((index + 1) &&& capacity)
          (match ts with | none => some index | some t => some t) fuel
      | some k =>
        if k = key then some index
        else findEntryLoop es capacity key ((index + 1) &&& capacity) ts fuel
    := rfl

/-- One-step unfolding of the `tableFindString` probe loop (`fuel + 1`). -/
theorem tableFindStringLoop_succ (hashFn : Nat → Nat)
    (strChars : Nat → List Nat) (es : List Entry)
    (capacity : Nat) (chars : List Nat) (length hash index fuel : Nat) :
    tableFindStringLoop hashFn strChars es capacity chars length hash index
        (fuel + 1) =
      match (slot es index).key with
      | none =>
        if (slot es index).value = LoxValue.nil then some none
        else tableFindStringLoop hashFn strChars es capacity chars length hash
          ((index + 1) &&& capacity) fuel
      | some k =>
        if (strChars k).length = length ∧ hashFn k = hash ∧
            (strChars k).take length = chars.take length then some (some k)
        else tableFindStringLoop hashFn strChars es capacity chars length hash
          ((index + 1) &&& capacity) fuel
    := rfl

/-- Advancing the probe index: `(index + 1) & mask` is the next probe slot. -/
theorem step_mask (es : List Entry) (K : Nat) (hpow : es.length = 2 ^ K)
    (s0 m : Nat) :
    (probe es.length s0 m + 1) &&& (2 ^ K - 1) = probe es.length s0 (m + 1) := by
  rw [and_mask, ← hpow, probe_step]

theorem findEntryLoop_present (es : List Entry) (K : Nat)
    (hpow : es.length = 2 ^ K) (key : Nat)
    (s0 j D : Nat) (hD : D < es.length)
    (hj : probe es.length s0 D = j)
    (hkey : (slot es j).key = some key)
    (hpath : ∀ d < D, ¬ isEmptySlot (slot es (probe es.length s0 d)) ∧
      (slot es (probe es.length s0 d)).key ≠ some key) :
    ∀ fuel m ts, m ≤ D → D - m < fuel →
      findEntryLoop es (2 ^ K - 1) key (probe es.length s0 m) ts fuel
        = some j := by
  intro fuel
  induction fuel with
  | zero => intro m ts hm hf; omega
  | succ fuel ih =>
    intro m ts hm hf
    rcases Nat.lt_or_ge m D with hlt | hge
    · obtain ⟨hne, hnk⟩ := hpath m hlt
      rw [findEntryLoop_succ]
      cases hk : (slot es (probe es.length s0 m)).key with
      | none =>
        have hvne : ¬ (slot es (probe es.length s0 m)).value = LoxValue.nil := by
          intro hv; exact hne ⟨hk, hv⟩
        simp only [hk, hvne, if_false]
        rw [step_mask es K hpow s0 m]
        exact ih (m + 1) _ (by omega) (by omega)
      | some k2 =>
        have hk2 : ¬ k2 = key := by
          intro hkk; rw [hkk] at hk; exact hnk hk
        simp only [hk, hk2, if_false]
        rw [step_mask es K hpow s0 m]
        exact ih (m + 1) _ (by omega) (by omega)
    · have hmD : m = D := le_antisymm hm hge
      subst hmD
      rw [hj, findEntryLoop_succ]
      simp [hkey]

theorem findEntryLoop_absent (es : List Entry) (K : Nat)
    (hpow : es.length = 2 ^ K) (key : Nat)
    (hnokey : ∀ e ∈ es, e.key ≠ some key)
    (s0 n : Nat) (hn : n < es.length)
    (hempty : isEmptySlot (slot es (probe es.length s0 n)))
    (hpath : ∀ d < n, ¬ isEmptySlot (slot es (probe es.length s0 d))) :
    ∀ fuel m ts, m ≤ n → n - m < fuel →
      (ts = none ∨ ∃ q ≤ n, ts = some (probe es.length s0 q) ∧
        (slot es (probe es.length s0 q)).key = none) →
      ∃ r ≤ n,
        findEntryLoop es (2 ^ K - 1) key (probe es.length s0 m) ts fuel
          = some (probe es.length s0 r) ∧
        (slot es (probe es.length s0 r)).key = none := by
  intro fuel
  induction fuel with
  | zero => intro m ts hm hf; omega
  | succ fuel ih =>
    intro m ts hm hf hts
    rcases Nat.lt_or_ge m n with hlt | hge
    · have hne := hpath m hlt
      rw [findEntryLoop_succ]
      cases hk : (slot es (probe es.length s0 m)).key with
      | none =>
        have hvne : ¬ (slot es (probe es.length s0 m)).value = LoxValue.nil := by
          intro hv; exact hne ⟨hk, hv⟩
        simp only [hk, hvne, if_false]
        rw [step_mask es K hpow s0 m]
        refine ih (m + 1) _ (by omega) (by omega) ?_
        cases ts with
        | none =>
          right
          exact ⟨m, by omega, rfl, hk⟩
        | some t => simpa using hts
      | some k2 =>
        have hk2 : ¬ k2 = key := by
          intro hkk
          have hmem := slot_mem es (probe es.length s0 m)
            (probe_lt _ _ _ (by rw [hpow]; positivity))
          exact hnokey _ hmem (by rw [hk, hkk])
        simp only [hk, hk2, if_false]
        rw [step_mask es K hpow s0 m]
        exact ih (m + 1) _ (by omega) (by omega) (by simpa using hts)
    · have hmn : m = n := le_antisymm hm hge
      subst hmn
      rw [findEntryLoop_succ]
      obtain ⟨hkn, hvn⟩ := hempty
      simp only [hkn, hvn, if_true]
      rcases hts with rfl | ⟨q, hq, rfl, hqk⟩
      · exact ⟨m, le_refl m, rfl, hkn⟩
      · exact ⟨q, hq, rfl, hqk⟩

/-- The `tableFindString` probe loop returns (does not exhaust its fuel)
whenever the probe cycle contains a truly empty slot. -/
theorem tableFindStringLoop_terminates (hashFn : Nat → Nat)
    (strChars : Nat → List Nat) (es : List Entry) (K : Nat)
    (hpow : es.length = 2 ^ K) (chars : List Nat) (length hash : Nat)
    (s0 n : Nat) (hn : n < es.length)
    (hempty : isEmptySlot (slot es (probe es.length s0 n))) :
    ∀ fuel m, m ≤ n → n - m < fuel →
      (tableFindStringLoop hashFn strChars es (2 ^ K - 1) chars length hash
        (probe es.length s0 m) fuel).isSome := by
  intro fuel
  induction fuel with
  | zero => intro m hm hf; omega
  | succ fuel ih =>
    intro m hm hf
    rw [tableFindStringLoop_succ]
    rcases Nat.lt_or_ge m n with hlt | hge
    · cases hk : (slot es (probe es.length s0 m)).key with
      | none =>
        by_cases hv : (slot es (probe es.length s0 m)).value = LoxValue.nil
        · simp [hk, hv]
        · simp only [hk, hv, if_false]
          rw [step_mask es K hpow s0 m]
          exact ih (m + 1) (by omega) (by omega)
      | some k2 =>
        by_cases hc : (strChars k2).length = length ∧ hashFn k2 = hash ∧
            (strChars k2).take length = chars.take length
        · simp [hk, hc]
        · simp only [hk, hc, if_false]
          rw [step_mask es K hpow s0 m]
          exact ih (m + 1) (by omega) (by omega)
    · have hmn : m = n := le_antisymm hm hge
      subst hmn
      obtain ⟨hkn, hvn⟩ := hempty
      simp [hkn, hvn]

/-!
### `findEntry` at the function level
-/

/-- A stored key is found: `findEntry` returns exactly the slot holding it. -/
theorem findEntry_present (hashFn : Nat → Nat) (es : List Entry) (K : Nat)
    (hpow : es.length = 2 ^ K) (hEI : EntriesInv hashFn es) (k j : Nat)
    (hj : j < es.length) (hkey : (slot es j).key = some k) :
    findEntry hashFn es (2 ^ K - 1) k = some j := by
  have hlen : 0 < es.length := by rw [hpow]; positivity
  have hhome : home hashFn es.length k < es.length := home_lt _ _ _ hlen
  obtain ⟨D, hD, hprobe⟩ := probe_surj es.length (home hashFn es.length k) j hj hhome
  have hkeyD : (slot es (probe es.length (home hashFn es.length k) D)).key
      = some k := by rw [hprobe]; exact hkey
  have hpath : ∀ d < D,
      ¬ isEmptySlot (slot es (probe es.length (home hashFn es.length k) d)) ∧
      (slot es (probe es.length (home hashFn es.length k) d)).key ≠ some k := by
    intro d hd
    refine ⟨hEI.chain k D hD hkeyD d hd, ?_⟩
    intro hk2
    have heq := hEI.uniq _ _ k (probe_lt _ _ _ hlen) hj hk2 hkey
    rw [← hprobe] at heq
    have := probe_inj es.length (home hashFn es.length k) d D
      (lt_trans hd hD) hD heq
    omega
  have hstart : hashFn k &&& (2 ^ K - 1)
      = probe es.length (home hashFn es.length k) 0 := by
    rw [and_mask, probe_zero _ _ hhome, home, hpow]
  unfold findEntry
  rw [hstart]
  exact findEntryLoop_present es K hpow k _ j D hD hprobe hkey hpath
    (es.length + 1) 0 none (by omega) (by omega)

/-- An absent key: `findEntry` returns a `NULL`-key slot on the probe path
from the key's home slot, with no truly empty slot strictly before it. -/
theorem findEntry_absent (hashFn : Nat → Nat) (es : List Entry) (K : Nat)
    (hpow : es.length = 2 ^ K) (k : Nat)
    (hnokey : ∀ e ∈ es, e.key ≠ some k)
    (hroom : countOccupied es < es.length) :
    ∃ r < es.length,
      findEntry hashFn es (2 ^ K - 1) k
        = some (probe es.length (home hashFn es.length k) r) ∧
      (slot es (probe es.length (home hashFn es.length k) r)).key = none ∧
      ∀ d < r, ¬ isEmptySlot (slot es (probe es.length (home hashFn es.length k) d)) := by
  have hlen : 0 < es.length := by rw [hpow]; positivity
  have hhome : home hashFn es.length k < es.length := home_lt _ _ _ hlen
  obtain ⟨i, hi, hie⟩ := exists_empty_of_countOccupied_lt es hroom
  obtain ⟨de, hde, hdeprobe⟩ := probe_surj es.length (home hashFn es.length k) i hi hhome
  have hex : ∃ d, isEmptySlot (slot es (probe es.length (home hashFn es.length k) d)) :=
    ⟨de, by rw [hdeprobe]; exact hie⟩
  set n := Nat.find hex with hn
  have hnempty := Nat.find_spec hex
  have hnpath : ∀ d < n,
      ¬ isEmptySlot (slot es (probe es.length (home hashFn es.length k) d)) :=
    fun d hd => Nat.find_min hex hd
  have hnlt : n < es.length := lt_of_le_of_lt (Nat.find_min' hex
    (by rw [hdeprobe]; exact hie)) hde
  have hstart : hashFn k &&& (2 ^ K - 1)
      = probe es.length (home hashFn es.length k) 0 := by
    rw [and_mask, probe_zero _ _ hhome, home, hpow]
  obtain ⟨r, hr, hres, hrk⟩ := findEntryLoop_absent es K hpow k hnokey
    (home hashFn es.length k) n hnlt hnempty hnpath
    (es.length + 1) 0 none (by omega) (by omega) (Or.inl rfl)
  refine ⟨r, lt_of_le_of_lt hr hnlt, ?_, hrk, ?_⟩
  · unfold findEntry
    rw [hstart]
    exact hres
  · intro d hd
    exact hnpath d (lt_of_lt_of_le hd hr)

/-- Under the invariant, with at least one empty slot, every probe
terminates: `findEntry` never exhausts its fuel. -/
theorem findEntry_isSome (hashFn : Nat → Nat) (es : List Entry) (K : Nat)
    (hpow : es.length = 2 ^ K) (hEI : EntriesInv hashFn es) (k : Nat)
    (hroom : countOccupied es < es.length) :
    (findEntry hashFn es (2 ^ K - 1) k).isSome := by
  by_cases hk : ∃ j < es.length, (slot es j).key = some k
  · obtain ⟨j, hj, hkey⟩ := hk
    rw [findEntry_present hashFn es K hpow hEI k j hj hkey]
    rfl
  · push_neg at hk
    have hnokey : ∀ e ∈ es, e.key ≠ some k := by
      intro e he
      obtain ⟨i, hi, rfl⟩ := List.getElem_of_mem he
      have := hk i hi
      rwa [slot_eq_get es i hi] at this
    obtain ⟨r, _, hres, _, _⟩ := findEntry_absent hashFn es K hpow k hnokey hroom
    rw [hres]
    rfl

/-!
### The abstraction function `absTable`
-/

theorem absTable_eq_none_iff (es : List Entry) (k : Nat) :
    absTable es k = none ↔ ∀ i < es.length, (slot es i).key ≠ some k := by
  unfold absTable
  rw [Option.map_eq_none']
  rw [List.find?_eq_none]
  constructor
  · intro h i hi hk
    have := h (slot es i) (slot_mem es i hi)
    rw [hk] at this
    simp at this
  · intro h e he hbeq
    obtain ⟨i, hi, rfl⟩ := List.getElem_of_mem he
    have hsl := h i hi
    rw [slot_eq_get es i hi] at hsl
    simp only [List.get_eq_getElem] at hsl
    exact hsl (by simpa using hbeq)

theorem absTable_some_elim (es : List Entry) (k : Nat) (v : LoxValue)
    (h : absTable es k = some v) :
    ∃ i < es.length, slot es i = { key := some k, value := v } := by
  unfold absTable at h
  obtain ⟨e, he, hv⟩ := Option.map_eq_some'.1 h
  have hkey : e.key = some k := by simpa using List.find?_some he
  have hmem := List.mem_of_find?_eq_some he
  obtain ⟨i, hi, rfl⟩ := List.getElem_of_mem hmem
  refine ⟨i, hi, ?_⟩
  have hsk : (slot es i).key = some k := by
    rw [slot_eq_get es i hi]; simpa using hkey
  have hsv : (slot es i).value = v := by
    rw [slot_eq_get es i hi]; simpa using hv
  cases hslot : slot es i with
  | mk key value =>
    rw [hslot] at hsk hsv
    simp_all

theorem absTable_some_of (es : List Entry)
    (huniq : ∀ i j k2, i < es.length → j < es.length →
      (slot es i).key = some k2 → (slot es j).key = some k2 → i = j)
    (i k : Nat) (v : LoxValue) (hi : i < es.length)
    (hslot : slot es i = { key := some k, value := v }) :
    absTable es k = some v := by
  have hsome : (es.find? (fun e => e.key == some k)).isSome := by
    rw [List.find?_isSome]
    exact ⟨slot es i, slot_mem es i hi, by rw [hslot]; simp⟩
  obtain ⟨e, he⟩ := Option.isSome_iff_exists.1 hsome
  have hkey : e.key = some k := by simpa using List.find?_some he
  have hmem := List.mem_of_find?_eq_some he
  obtain ⟨j, hj, hje⟩ := List.getElem_of_mem hmem
  have hjk : (slot es j).key = some k := by
    rw [slot_eq_get es j hj]
    simp only [List.get_eq_getElem]
    rw [hje, hkey]
  have hik : (slot es i).key = some k := by rw [hslot]
  have hij := huniq j i k hj hi hjk hik
  subst hij
  have hes : e = slot es j := by
    rw [slot_eq_get es j hj]
    simp only [List.get_eq_getElem]
    rw [hje]
  have hval : e.value = v := by rw [hes, hslot]
  unfold absTable
  rw [he]
  simp [hval]

theorem absTable_set_other (es : List Entry) (i : Nat) (e : Entry) (k : Nat)
    (hik : (slot es i).key ≠ some k) (hek : e.key ≠ some k) :
    absTable (es.set i e) k = absTable es k := by
  induction es generalizing i with
  | nil => simp [List.set]
  | cons a es ih =>
    cases i with
    | zero =>
      have hak : a.key ≠ some k := hik
      unfold absTable
      rw [List.set_cons_zero]
      rw [List.find?_cons_of_neg _ (by simpa using hek),
        List.find?_cons_of_neg _ (by simpa using hak)]
    | succ i =>
      rw [List.set_cons_succ]
      by_cases pa : a.key = some k
      · unfold absTable
        rw [List.find?_cons_of_pos _ (by simpa using pa),
          List.find?_cons_of_pos _ (by simpa using pa)]
      · unfold absTable
        rw [List.find?_cons_of_neg _ (by simpa using pa),
          List.find?_cons_of_neg _ (by simpa using pa)]
        exact ih i hik

/-!
### Writes preserve the invariant
-/

/-- Overwriting the value of a stored key preserves the invariant. -/
theorem entriesInv_write_overwrite (hashFn : Nat → Nat) (es : List Entry)
    (hEI : EntriesInv hashFn es) (i k : Nat) (v : LoxValue)
    (hi : i < es.length) (hkey : (slot es i).key = some k) :
    EntriesInv hashFn (es.set i { key := some k, value := v }) := by
  have hlen : (es.set i { key := some k, value := v }).length = es.length :=
    List.length_set es i _
  have hkeys : ∀ j, (slot (es.set i { key := some k, value := v }) j).key
      = (slot es j).key := by
    intro j
    by_cases hij : i = j
    · subst hij
      rw [slot_set_eq es i _ hi, hkey]
    · rw [slot_set_ne es i j _ hij]
  have hne : ¬ isEmptySlot { key := some k, value := v } := by
    intro h; exact Option.noConfusion h.1
  constructor
  · intro k2 d hd hkd e he
    rw [hlen] at hd
    rw [hlen, hkeys] at hkd
    rw [hlen]
    exact not_empty_preserved es i _ hne _ (hEI.chain k2 d hd hkd e he)
  · intro i1 j1 k2 hi1 hj1 hk1 hk2
    rw [hlen] at hi1 hj1
    rw [hkeys] at hk1 hk2
    exact hEI.uniq i1 j1 k2 hi1 hj1 hk1 hk2

/-- Writing a key absent from the table into a `NULL`-key slot found by
`findEntry` preserves the invariant. -/
theorem entriesInv_write_new (hashFn : Nat → Nat) (es : List Entry)
    (hEI : EntriesInv hashFn es) (k : Nat) (v : LoxValue)
    (r : Nat) (hr : r < es.length)
    (hpath : ∀ d < r,
      ¬ isEmptySlot (slot es (probe es.length (home hashFn es.length k) d)))
    (hnokey : ∀ j < es.length, (slot es j).key ≠ some k) :
    EntriesInv hashFn
      (es.set (probe es.length (home hashFn es.length k) r)
        { key := some k, value := v }) := by
  have hlen0 : 0 < es.length := by omega
  set i := probe es.length (home hashFn es.length k) r with hidef
  have hi : i < es.length := probe_lt _ _ _ hlen0
  set es2 := es.set i { key := some k, value := v } with hes2
  have hlen : es2.length = es.length := List.length_set es i _
  have hne : ¬ isEmptySlot ({ key := some k, value := v } : Entry) := by
    intro h; exact Option.noConfusion h.1
  have hkeys : ∀ j, j ≠ i →
      (slot es2 j).key = (slot es j).key := by
    intro j hj
    rw [hes2, slot_set_ne es i j _ (fun h => hj h.symm)]
  have hkeyi : (slot es2 i).key = some k := by
    rw [hes2, slot_set_eq es i _ hi]
  constructor
  · intro k2 d hd hkd e he
    rw [hlen] at hd
    rw [hlen] at hkd ⊢
    by_cases hpi : probe es.length (home hashFn es.length k2) d = i
    · -- the written slot: its key is `k`, at offset `r` from `k`-home
      rw [hpi, hkeyi] at hkd
      have hk2 : k = k2 := by injection hkd
      subst hk2
      have hdr : d = r := probe_inj es.length _ d r hd hr (by rw [hpi, hidef])
      subst hdr
      exact not_empty_preserved es i _ hne _ (hpath e he)
    · rw [hkeys _ hpi] at hkd
      exact not_empty_preserved es i _ hne _ (hEI.chain k2 d hd hkd e he)
  · intro i1 j1 k2 hi1 hj1 hk1 hk2
    rw [hlen] at hi1 hj1
    by_cases h1 : i1 = i <;> by_cases h2 : j1 = i
    · rw [h1, h2]
    · rw [h1, hkeyi] at hk1
      rw [hkeys _ h2] at hk2
      have hkk : k = k2 := by injection hk1
      subst hkk
      exact absurd hk2 (hnokey j1 hj1)
    · rw [h2, hkeyi] at hk2
      rw [hkeys _ h1] at hk1
      have hkk : k = k2 := by injection hk2
      subst hkk
      exact absurd hk1 (hnokey i1 hi1)
    · rw [hkeys _ h1] at hk1
      rw [hkeys _ h2] at hk2
      exact hEI.uniq i1 j1 k2 hi1 hj1 hk1 hk2

/-- Tombstoning a stored key (`tableDelete`) preserves the invariant. -/
theorem entriesInv_write_tombstone (hashFn : Nat → Nat) (es : List Entry)
    (hEI : EntriesInv hashFn es) (i : Nat) (hi : i < es.length) :
    EntriesInv hashFn
      (es.set i { key := none, value := LoxValue.boolean true }) := by
  set es2 := es.set i { key := none, value := LoxValue.boolean true } with hes2
  have hlen : es2.length = es.length := List.length_set es i _
  have hne : ¬ isEmptySlot ({ key := none, value := LoxValue.boolean true } : Entry) := by
    intro h; exact LoxValue.noConfusion h.2
  have hkeyi : (slot es2 i).key = none := by
    rw [hes2, slot_set_eq es i _ hi]
  have hkeys : ∀ j, j ≠ i → (slot es2 j).key = (slot es j).key := by
    intro j hj
    rw [hes2, slot_set_ne es i j _ (fun h => hj h.symm)]
  constructor
  · intro k2 d hd hkd e he
    rw [hlen] at hd
    rw [hlen] at hkd ⊢
    by_cases hpi : probe es.length (home hashFn es.length k2) d = i
    · rw [hpi, hkeyi] at hkd
      exact Option.noConfusion hkd
    · rw [hkeys _ hpi] at hkd
      exact not_empty_preserved es i _ hne _ (hEI.chain k2 d hd hkd e he)
  · intro i1 j1 k2 hi1 hj1 hk1 hk2
    rw [hlen] at hi1 hj1
    have h1 : i1 ≠ i := by
      intro h; rw [h, hkeyi] at hk1; exact Option.noConfusion hk1
    have h2 : j1 ≠ i := by
      intro h; rw [h, hkeyi] at hk2; exact Option.noConfusion hk2
    rw [hkeys _ h1] at hk1
    rw [hkeys _ h2] at hk2
    exact hEI.uniq i1 j1 k2 hi1 hj1 hk1 hk2

/-!
### Further `absTable` helpers
-/

theorem absTable_eq_none_of (es : List Entry) (k : Nat)
    (h : ∀ e ∈ es, e.key ≠ some k) : absTable es k = none := by
  unfold absTable
  rw [Option.map_eq_none', List.find?_eq_none]
  intro x hx
  simpa using h x hx

theorem nokey_mem_of_abs_none (es : List Entry) (k : Nat)
    (h : absTable es k = none) : ∀ e ∈ es, e.key ≠ some k := by
  unfold absTable at h
  rw [Option.map_eq_none', List.find?_eq_none] at h
  intro e he hk
  have := h e he
  rw [hk] at this
  simp at this

theorem nokey_slot_of_abs_none (es : List Entry) (k : Nat)
    (h : absTable es k = none) : ∀ i < es.length, (slot es i).key ≠ some k := by
  intro i hi
  have := nokey_mem_of_abs_none es k h (slot es i) (slot_mem es i hi)
  exact this

theorem absTable_cons_pos (e : Entry) (l : List Entry) (k : Nat)
    (h : e.key = some k) : absTable (e :: l) k = some e.value := by
  unfold absTable
  rw [List.find?_cons_of_pos _ (by simpa using h)]
  rfl

theorem absTable_cons_neg (e : Entry) (l : List Entry) (k : Nat)
    (h : e.key ≠ some k) : absTable (e :: l) k = absTable l k := by
  unfold absTable
  rw [List.find?_cons_of_neg _ (by simpa using h)]

/-- Key uniqueness at slot level, list-relation form. -/
theorem pairwise_of_uniq (es : List Entry)
    (huniq : ∀ i j k2, i < es.length → j < es.length →
      (slot es i).key = some k2 → (slot es j).key = some k2 → i = j) :
    List.Pairwise (fun e1 e2 => ∀ k2, e1.key = some k2 → e2.key ≠ some k2) es := by
  rw [List.pairwise_iff_getElem]
  intro i j hi hj hij k2 hik hjk
  have h1 : (slot es i).key = some k2 := by
    rw [slot_eq_get es i hi]; simpa using hik
  have h2 : (slot es j).key = some k2 := by
    rw [slot_eq_get es j hj]; simpa using hjk
  have := huniq i j k2 hi hj h1 h2
  omega

theorem noTomb_replicate (n : Nat) : NoTomb (List.replicate n emptyEntry) := by
  intro e he _
  have := List.eq_of_mem_replicate he
  rw [this]
  rfl

theorem countOccupied_replicate (n : Nat) :
    countOccupied (List.replicate n emptyEntry) = 0 := by
  unfold countOccupied
  induction n with
  | zero => rfl
  | succ n ih =>
    rw [List.replicate_succ, List.filter_cons]
    have : isEmptySlot emptyEntry := ⟨rfl, rfl⟩
    simp only [this, decide_eq_true_eq]
    simpa using ih

theorem entriesInv_replicate (hashFn : Nat → Nat) (n : Nat) :
    EntriesInv hashFn (List.replicate n emptyEntry) := by
  constructor
  · intro k d hd hkd
    rw [slot_replicate] at hkd
    exact absurd hkd (by simp [emptyEntry])
  · intro i j k hi hj hk1
    rw [slot_replicate] at hk1
    exact absurd hk1 (by simp [emptyEntry])

/-!
### `adjustCapacity`: reinserting the live entries
-/

theorem reinsert_foldl (hashFn : Nat → Nat) (K : Nat) :
    ∀ (olds es : List Entry) (cnt : Nat),
      es.length = 2 ^ K →
      EntriesInv hashFn es →
      NoTomb es →
      cnt = countOccupied es →
      countOccupied es + olds.countP (fun e => e.key.isSome) < es.length →
      List.Pairwise (fun e1 e2 => ∀ k2, e1.key = some k2 → e2.key ≠ some k2) olds →
      (∀ e ∈ olds, ∀ k2, e.key = some k2 → absTable es k2 = none) →
      ∃ es2 cnt2,
        olds.foldl (reinsertStep hashFn (2 ^ K - 1)) (some (es, cnt))
          = some (es2, cnt2) ∧
        es2.length = 2 ^ K ∧ EntriesInv hashFn es2 ∧ NoTomb es2 ∧
        cnt2 = countOccupied es2 ∧
        countOccupied es2
          = countOccupied es + olds.countP (fun e => e.key.isSome) ∧
        (∀ k2, absTable es2 k2 =
          match absTable olds k2 with
          | some v => some v
          | none => absTable es k2) := by
  intro olds
  induction olds with
  | nil =>
    intro es cnt hpow hEI hNT hcnt _ _ _
    refine ⟨es, cnt, rfl, hpow, hEI, hNT, hcnt, by simp, ?_⟩
    intro k2
    have : absTable ([] : List Entry) k2 = none := rfl
    rw [this]
  | cons e olds ih =>
    intro es cnt hpow hEI hNT hcnt hroom hpair habs
    obtain ⟨hhead, htail⟩ := List.pairwise_cons.1 hpair
    cases he : e.key with
    | none =>
      have hstep : reinsertStep hashFn (2 ^ K - 1) (some (es, cnt)) e
          = some (es, cnt) := by
        simp only [reinsertStep, he]
      rw [List.foldl_cons, hstep]
      have hcp : (e :: olds).countP (fun e => e.key.isSome)
          = olds.countP (fun e => e.key.isSome) := by
        rw [List.countP_cons]
        simp [he]
      rw [hcp] at hroom
      obtain ⟨es2, cnt2, hfold, h1, h2, h3, h4, h5, h6⟩ :=
        ih es cnt hpow hEI hNT hcnt hroom htail
          (fun e2 he2 k2 hk2 => habs e2 (List.mem_cons_of_mem e he2) k2 hk2)
      refine ⟨es2, cnt2, hfold, h1, h2, h3, h4, by rw [hcp]; exact h5, ?_⟩
      intro k2
      rw [absTable_cons_neg e olds k2 (by rw [he]; exact fun h => Option.noConfusion h)]
      exact h6 k2
    | some k =>
      have habsk : absTable es k = none := habs e (List.mem_cons_self e olds) k he
      have hnokey := nokey_mem_of_abs_none es k habsk
      have hcp : (e :: olds).countP (fun e => e.key.isSome)
          = olds.countP (fun e => e.key.isSome) + 1 := by
        rw [List.countP_cons]
        simp [he]
      have hroomes : countOccupied es < es.length := by
        rw [hcp] at hroom
        omega
      obtain ⟨r, hr, hfe, hrk, hrpath⟩ :=
        findEntry_absent hashFn es K hpow k hnokey hroomes
      set i := probe es.length (home hashFn es.length k) r with hidef
      have hi : i < es.length := probe_lt _ _ _ (by omega)
      have hiempty : isEmptySlot (slot es i) :=
        ⟨hrk, hNT _ (slot_mem es i hi) hrk⟩
      set es1 := es.set i { key := some k, value := e.value } with hes1
      have hstep : reinsertStep hashFn (2 ^ K - 1) (some (es, cnt)) e
          = some (es1, cnt + 1) := by
        simp only [reinsertStep, he, hfe]
      have hlen1 : es1.length = 2 ^ K := by
        rw [hes1, List.length_set, hpow]
      have hEI1 : EntriesInv hashFn es1 :=
        entriesInv_write_new hashFn es hEI k e.value r hr hrpath
          (nokey_slot_of_abs_none es k habsk)
      have hNT1 : NoTomb es1 := by
        refine noTomb_of_slot es1 ?_
        intro j hj hk2
        have hj2 : j < es.length := by
          rw [hes1, List.length_set] at hj; exact hj
        by_cases hji : j = i
        · subst hji
          rw [hes1, slot_set_eq es i _ hi] at hk2
          exact Option.noConfusion hk2
        · rw [hes1, slot_set_ne es i j _ (fun h => hji h.symm)] at hk2 ⊢
          exact hNT _ (slot_mem es j hj2) hk2
      have hcnt1 : cnt + 1 = countOccupied es1 := by
        have hset := countOccupied_set es i { key := some k, value := e.value } hi
        have hfull : ¬ isEmptySlot ({ key := some k, value := e.value } : Entry) := by
          intro h; exact Option.noConfusion h.1
        rw [if_pos hiempty, if_neg hfull, ← hes1] at hset
        omega
      have habs1k : absTable es1 k = some e.value := by
        refine absTable_some_of es1 hEI1.uniq i k e.value (by rw [hlen1, ← hpow]; exact hi) ?_
        rw [hes1, slot_set_eq es i _ hi]
      have habs1other : ∀ k2, k2 ≠ k → absTable es1 k2 = absTable es k2 := by
        intro k2 hk2
        rw [hes1]
        refine absTable_set_other es i _ k2 ?_ ?_
        · rw [hrk]; exact fun h => Option.noConfusion h
        · simp only []
          intro h
          have : k = k2 := by injection h
          exact hk2 this.symm
      have hroom1 : countOccupied es1 + olds.countP (fun e => e.key.isSome)
          < es1.length := by
        rw [hlen1, ← hpow]
        rw [← hcnt1, hcnt]
        rw [hcp] at hroom
        omega
      have habstail : ∀ e2 ∈ olds, ∀ k2, e2.key = some k2 →
          absTable es1 k2 = none := by
        intro e2 he2 k2 hk2
        have hk2ne : k2 ≠ k := by
          intro hkk
          rw [hkk] at hk2
          exact (hhead e2 he2 k he) hk2
        rw [habs1other k2 hk2ne]
        exact habs e2 (List.mem_cons_of_mem e he2) k2 hk2
      obtain ⟨es2, cnt2, hfold, h1, h2, h3, h4, h5, h6⟩ :=
        ih es1 (cnt + 1) hlen1 hEI1 hNT1 hcnt1 hroom1 htail habstail
      rw [List.foldl_cons, hstep]
      refine ⟨es2, cnt2, hfold, h1, h2, h3, h4, ?_, ?_⟩
      · rw [h5, ← hcnt1, hcnt, hcp]
        omega
      · intro k2
        by_cases hkk : k2 = k
        · subst hkk
          rw [absTable_cons_pos e olds k2 he]
          have holds : absTable olds k2 = none := by
            refine absTable_eq_none_of olds k2 ?_
            intro e2 he2
            exact hhead e2 he2 k2 he
          rw [h6 k2, holds]
          exact habs1k
        · rw [absTable_cons_neg e olds k2 (by rw [he]; intro h; exact hkk (by injection h; omega))]
          rw [h6 k2]
          cases holds : absTable olds k2 with
          | none => rw [habs1other k2 hkk]
          | some v => rfl

/-- Unfolding `adjustCapacity` (its `let` and `match` spelled out). -/
theorem adjustCapacity_eq (hashFn : Nat → Nat) (t : Table) (capacity : Nat) :
    adjustCapacity hashFn t capacity =
      match t.entries.foldl (reinsertStep hashFn capacity)
        (some (List.replicate (capacity + 1) emptyEntry, 0)) with
      | none => none
      | some (es, cnt) =>
        some { count := cnt, capacity := (capacity : Int), entries := es }
    := rfl

/-- `adjustCapacity` to a power-of-two size: succeeds, produces a
tombstone-free table with the same abstract map, with `count` recomputed as
the number of live keys. -/
theorem adjustCapacity_spec (hashFn : Nat → Nat) (t : Table) (Knew : Nat)
    (hEIold : EntriesInv hashFn t.entries)
    (hroom : t.entries.countP (fun e => e.key.isSome) < 2 ^ Knew) :
    ∃ t2, adjustCapacity hashFn t (2 ^ Knew - 1) = some t2 ∧
      t2.capacity = ((2 ^ Knew - 1 : Nat) : Int) ∧
      t2.entries.length = 2 ^ Knew ∧
      EntriesInv hashFn t2.entries ∧ NoTomb t2.entries ∧
      t2.count = countOccupied t2.entries ∧
      t2.count = t.entries.countP (fun e => e.key.isSome) ∧
      (∀ k, absTable t2.entries k = absTable t.entries k) := by
  have hpos : 0 < 2 ^ Knew := Nat.pos_pow_of_pos Knew (by omega)
  set fresh := List.replicate (2 ^ Knew - 1 + 1) emptyEntry with hfresh
  have hflen : fresh.length = 2 ^ Knew := by
    rw [hfresh, List.length_replicate]
    omega
  have hfrepl : fresh = List.replicate (2 ^ Knew) emptyEntry := by
    rw [hfresh]
    congr 1
    omega
  have hEIf : EntriesInv hashFn fresh := by
    rw [hfrepl]; exact entriesInv_replicate hashFn _
  have hNTf : NoTomb fresh := by
    rw [hfrepl]; exact noTomb_replicate _
  have hcntf : countOccupied fresh = 0 := by
    rw [hfrepl]; exact countOccupied_replicate _
  have habsf : ∀ k, absTable fresh k = none := by
    intro k
    refine absTable_eq_none_of fresh k ?_
    intro e he
    rw [hfrepl] at he
    rw [List.eq_of_mem_replicate he]
    exact fun h => Option.noConfusion h
  have hpair := pairwise_of_uniq t.entries hEIold.uniq
  obtain ⟨es2, cnt2, hfold, h1, h2, h3, h4, h5, h6⟩ :=
    reinsert_foldl hashFn Knew t.entries fresh 0 hflen hEIf hNTf
      hcntf.symm (by rw [hflen, hcntf]; omega) hpair
      (fun e _ k _ => habsf k)
  refine ⟨{ count := cnt2, capacity := ((2 ^ Knew - 1 : Nat) : Int),
            entries := es2 }, ?_, rfl, h1, h2, h3, h4, ?_, ?_⟩
  · rw [adjustCapacity_eq, ← hfresh, hfold]
  · show cnt2 = t.entries.countP (fun e => e.key.isSome)
    rw [h4, h5, hcntf]
    omega
  · intro k
    show absTable es2 k = absTable t.entries k
    rw [h6 k]
    cases holds : absTable t.entries k with
    | none => rw [habsf k]
    | some v => rfl

/-!
### The table operations preserve `TableOk` and refine the finite map
-/

/-- `countP isSome` (live keys) is at most `countOccupied`. -/
theorem countP_isSome_le (es : List Entry) :
    es.countP (fun e => e.key.isSome) ≤ countOccupied es := by
  unfold countOccupied
  rw [← List.countP_eq_length_filter]
  refine List.countP_mono_left ?_
  intro e _ h
  simp only [Bool.not_eq_true', decide_eq_false_iff_not]
  intro hemp
  rw [hemp.1] at h
  simp at h

/-- A table with no occupied slot stores nothing. -/
theorem abs_none_of_countOccupied_zero (es : List Entry)
    (h : countOccupied es = 0) (k : Nat) : absTable es k = none := by
  refine absTable_eq_none_of es k ?_
  intro e he hk
  have hnil : es.filter (fun e => !(decide (isEmptySlot e))) = [] :=
    List.length_eq_zero.1 h
  have hmem : e ∈ es.filter (fun e => !(decide (isEmptySlot e))) := by
    rw [List.mem_filter]
    refine ⟨he, ?_⟩
    simp only [Bool.not_eq_true', decide_eq_false_iff_not]
    intro hemp
    rw [hemp.1] at hk
    exact Option.noConfusion hk
  rw [hnil] at hmem
  exact absurd hmem (List.not_mem_nil e)

theorem nokey_mem_of_nokey_slot (es : List Entry) (k : Nat)
    (h : ∀ j < es.length, (slot es j).key ≠ some k) :
    ∀ e ∈ es, e.key ≠ some k := by
  intro e he
  obtain ⟨i, hi, rfl⟩ := List.getElem_of_mem he
  rw [← slot_eq_getElem es i hi]
  exact h i hi

/-- Under the invariant there is always a truly empty slot. -/
theorem room_of_invA (hashFn : Nat → Nat) (t : Table)
    (hInv : TableInvA hashFn t) : countOccupied t.entries < t.entries.length := by
  obtain ⟨K, _, hpow⟩ := hInv.pow
  have hlen0 : 0 < t.entries.length := by rw [hpow]; positivity
  have := hInv.load
  rw [hInv.cnt] at this
  omega

/-- `tableGet` computes the abstract map. -/
theorem tableGet_spec (hashFn : Nat → Nat) (t : Table)
    (hOk : TableOk hashFn t) (k : Nat) :
    tableGet hashFn t k = absTable t.entries k := by
  rcases hOk with rfl | hInv
  · rfl
  · obtain ⟨K, hK, hpow⟩ := hInv.pow
    have hlen0 : 0 < t.entries.length := by rw [hpow]; positivity
    have hcap : t.capacity.toNat = 2 ^ K - 1 := by
      rw [hInv.cap, hpow]
      omega
    by_cases hc : t.count = 0
    · have hocc : countOccupied t.entries = 0 := by rw [← hInv.cnt]; exact hc
      rw [tableGet, if_pos hc, abs_none_of_countOccupied_zero _ hocc]
    · rw [tableGet, if_neg hc, hcap]
      by_cases hk : ∃ j < t.entries.length, (slot t.entries j).key = some k
      · obtain ⟨j, hj, hkey⟩ := hk
        rw [findEntry_present hashFn t.entries K hpow hInv.inv k j hj hkey]
        simp only [hkey]
        symm
        refine absTable_some_of t.entries hInv.inv.uniq j k
          (slot t.entries j).value hj ?_
        cases hsl : slot t.entries j with
        | mk key value =>
          rw [hsl] at hkey
          simp only at hkey
          rw [hkey]
      · push_neg at hk
        have hnokey := nokey_mem_of_nokey_slot t.entries k
          (fun j hj => hk j hj)
        obtain ⟨r, hr, hres, hrk, _⟩ := findEntry_absent hashFn t.entries K
          hpow k hnokey (room_of_invA hashFn t hInv)
        rw [hres]
        simp only [hrk]
        rw [absTable_eq_none_of t.entries k hnokey]


/-- Unfolding `tableSetStore`'s `match` and `let`s. -/
theorem tableSetStore_eq (hashFn : Nat → Nat) (t : Table) (k : Nat)
    (v : LoxValue) :
    tableSetStore hashFn t k v =
      match findEntry hashFn t.entries t.capacity.toNat k with
      | none => none
      | some i =>
        some ({ t with
                  count := if (slot t.entries i).key = none ∧
                      (slot t.entries i).value = LoxValue.nil
                    then t.count + 1 else t.count,
                  entries := t.entries.set i { key := some k, value := v } },
              (slot t.entries i).key.isNone)
    := rfl

/-- `tableSetStore` when the probe found slot `i`. -/
theorem tableSetStore_found (hashFn : Nat → Nat) (t : Table) (k : Nat)
    (v : LoxValue) (i : Nat)
    (hfe : findEntry hashFn t.entries t.capacity.toNat k = some i) :
    tableSetStore hashFn t k v =
      some ({ t with
                count := if (slot t.entries i).key = none ∧
                    (slot t.entries i).value = LoxValue.nil
                  then t.count + 1 else t.count,
                entries := t.entries.set i { key := some k, value := v } },
            (slot t.entries i).key.isNone) := by
  rw [tableSetStore_eq, hfe]

/-- The probe-and-store half of `tableSet`: succeeds given the invariant,
updates the abstract map at `k`, keeps `count` consistent. -/
theorem tableSetStore_spec (hashFn : Nat → Nat) (t : Table) (k : Nat)
    (v : LoxValue) (hInv : TableInvA hashFn t) :
    ∃ t2 isNew, tableSetStore hashFn t k v = some (t2, isNew) ∧
      t2.entries.length = t.entries.length ∧
      t2.capacity = t.capacity ∧
      EntriesInv hashFn t2.entries ∧
      t2.count = countOccupied t2.entries ∧
      t2.count ≤ t.count + 1 ∧
      absTable t2.entries k = some v ∧
      (∀ k2, k2 ≠ k → absTable t2.entries k2 = absTable t.entries k2) := by
  obtain ⟨K, hK, hpow⟩ := hInv.pow
  have hlen0 : 0 < t.entries.length := by rw [hpow]; positivity
  have hcap : t.capacity.toNat = 2 ^ K - 1 := by
    rw [hInv.cap, hpow]
    omega
  have hfullv : ¬ isEmptySlot ({ key := some k, value := v } : Entry) := by
    intro h; exact Option.noConfusion h.1
  by_cases hk : ∃ j < t.entries.length, (slot t.entries j).key = some k
  · -- overwrite of a stored key
    obtain ⟨j, hj, hkey⟩ := hk
    have hfe : findEntry hashFn t.entries t.capacity.toNat k = some j := by
      rw [hcap]
      exact findEntry_present hashFn t.entries K hpow hInv.inv k j hj hkey
    have hcond : ¬ ((slot t.entries j).key = none ∧
        (slot t.entries j).value = LoxValue.nil) := by
      intro h; rw [hkey] at h; exact Option.noConfusion h.1
    have hEI2 := entriesInv_write_overwrite hashFn t.entries hInv.inv j k v hj hkey
    rw [tableSetStore_found hashFn t k v j hfe, if_neg hcond]
    refine ⟨_, _, rfl, List.length_set t.entries j _, rfl, hEI2, ?_, ?_, ?_, ?_⟩
    · show t.count = countOccupied (t.entries.set j { key := some k, value := v })
      have hset := countOccupied_set t.entries j { key := some k, value := v } hj
      have hnotempty : ¬ isEmptySlot (slot t.entries j) := fun h => hcond h
      rw [if_neg hnotempty, if_neg hfullv] at hset
      rw [hInv.cnt]
      omega
    · show t.count ≤ t.count + 1
      omega
    · show absTable (t.entries.set j { key := some k, value := v }) k = some v
      refine absTable_some_of _ hEI2.uniq j k v
        (by rw [List.length_set]; exact hj) ?_
      exact slot_set_eq t.entries j _ hj
    · intro k2 hk2
      show absTable (t.entries.set j { key := some k, value := v }) k2
        = absTable t.entries k2
      refine absTable_set_other t.entries j _ k2 ?_ ?_
      · rw [hkey]
        intro h
        have : k = k2 := by injection h
        exact hk2 this.symm
      · intro h
        have : k = k2 := by injection h
        exact hk2 this.symm
  · -- fresh key: the found slot has a NULL key
    push_neg at hk
    have hnokey := nokey_mem_of_nokey_slot t.entries k (fun j hj => hk j hj)
    obtain ⟨r, hr, hres, hrk, hrpath⟩ := findEntry_absent hashFn t.entries K
      hpow k hnokey (room_of_invA hashFn t hInv)
    set i := probe t.entries.length (home hashFn t.entries.length k) r with hidef
    have hi : i < t.entries.length := probe_lt _ _ _ hlen0
    have hfe : findEntry hashFn t.entries t.capacity.toNat k = some i := by
      rw [hcap]
      exact hres
    have hEI2 : EntriesInv hashFn
        (t.entries.set i { key := some k, value := v }) :=
      entriesInv_write_new hashFn t.entries hInv.inv k v r hr hrpath
        (fun j hj => hk j hj)
    have habs2 : absTable (t.entries.set i { key := some k, value := v }) k
        = some v := by
      refine absTable_some_of _ hEI2.uniq i k v
        (by rw [List.length_set]; exact hi) ?_
      exact slot_set_eq t.entries i _ hi
    have habsother : ∀ k2, k2 ≠ k →
        absTable (t.entries.set i { key := some k, value := v }) k2
          = absTable t.entries k2 := by
      intro k2 hk2
      refine absTable_set_other t.entries i _ k2 ?_ ?_
      · rw [hrk]
        exact fun h => Option.noConfusion h
      · intro h
        have : k = k2 := by injection h
        exact hk2 this.symm
    rw [tableSetStore_found hashFn t k v i hfe]
    by_cases hemp : isEmptySlot (slot t.entries i)
    · -- truly empty slot: count is bumped
      have hcond : (slot t.entries i).key = none ∧
          (slot t.entries i).value = LoxValue.nil := hemp
      rw [if_pos hcond]
      refine ⟨_, _, rfl, List.length_set t.entries i _, rfl, hEI2, ?_,
        le_refl (t.count + 1), habs2, habsother⟩
      show t.count + 1
        = countOccupied (t.entries.set i { key := some k, value := v })
      have hset := countOccupied_set t.entries i { key := some k, value := v } hi
      rw [if_pos hemp, if_neg hfullv] at hset
      rw [hInv.cnt]
      omega
    · -- tombstone reuse: count unchanged
      have hcond : ¬ ((slot t.entries i).key = none ∧
          (slot t.entries i).value = LoxValue.nil) := hemp
      rw [if_neg hcond]
      refine ⟨_, _, rfl, List.length_set t.entries i _, rfl, hEI2, ?_,
        Nat.le_succ t.count, habs2, habsother⟩
      show t.count
        = countOccupied (t.entries.set i { key := some k, value := v })
      have hset := countOccupied_set t.entries i { key := some k, value := v } hi
      rw [if_neg hemp, if_neg hfullv] at hset
      rw [hInv.cnt]
      omega

/-- Unfolding `tableSet`'s growth guard. -/
theorem tableSet_eq (hashFn : Nat → Nat) (t : Table) (k : Nat) (v : LoxValue) :
    tableSet hashFn t k v =
      match (if 4 * ((t.count : Int) + 1) > 3 * (t.capacity + 1) then
          adjustCapacity hashFn t (GROW_CAPACITY (t.capacity + 1).toNat - 1)
        else some t) with
      | none => none
      | some t => tableSetStore hashFn t k v
    := rfl

/-- Packaging: a store into a table with load headroom yields `TableInvA`. -/
theorem tableSet_assemble (hashFn : Nat → Nat) (t1 : Table) (k : Nat)
    (v : LoxValue) (hInv1 : TableInvA hashFn t1)
    (hload1 : 4 * (t1.count + 1) ≤ 3 * t1.entries.length) :
    ∃ t2 isNew, tableSetStore hashFn t1 k v = some (t2, isNew) ∧
      TableInvA hashFn t2 ∧
      absTable t2.entries k = some v ∧
      (∀ k2, k2 ≠ k → absTable t2.entries k2 = absTable t1.entries k2) := by
  obtain ⟨t2, isNew, hst, hlen, hcap, hEI, hcnt, hle, habs, habso⟩ :=
    tableSetStore_spec hashFn t1 k v hInv1
  obtain ⟨K, hK, hpow⟩ := hInv1.pow
  refine ⟨t2, isNew, hst, ?_, habs, habso⟩
  exact
    { pow := ⟨K, hK, by rw [hlen, hpow]⟩
      cap := by rw [hcap, hlen]; exact hInv1.cap
      cnt := hcnt
      load := by rw [hlen]; omega
      inv := hEI }

/-- `tableSet`: always succeeds on a reachable table, establishes the
allocated invariant, and updates the abstract map at `k` only. -/
theorem tableSet_spec (hashFn : Nat → Nat) (t : Table) (k : Nat)
    (v : LoxValue) (hOk : TableOk hashFn t) :
    ∃ t2 isNew, tableSet hashFn t k v = some (t2, isNew) ∧
      TableInvA hashFn t2 ∧
      absTable t2.entries k = some v ∧
      (∀ k2, k2 ≠ k → absTable t2.entries k2 = absTable t.entries k2) := by
  rcases hOk with rfl | hInv
  · -- first insertion: grow from the unallocated state to size 8
    have hEInil : EntriesInv hashFn initTable.entries := by
      constructor
      · intro k2 d hd
        simp [initTable] at hd
      · intro i j k2 hi
        simp [initTable] at hi
    have hcntP0 : initTable.entries.countP (fun e => e.key.isSome) = 0 := rfl
    obtain ⟨t1, hadjeq, hcap1, hlen1, hEI1, hNT1, hcnt1, hcntP1, habs1⟩ :=
      adjustCapacity_spec hashFn initTable 3 hEInil (by rw [hcntP0]; positivity)
    have hcount1 : t1.count = 0 := by rw [hcntP1, hcntP0]
    have hInv1 : TableInvA hashFn t1 :=
      { pow := ⟨3, le_refl 3, hlen1⟩
        cap := by rw [hcap1, hlen1]; norm_num
        cnt := hcnt1
        load := by rw [hcount1]; omega
        inv := hEI1 }
    have hload1 : 4 * (t1.count + 1) ≤ 3 * t1.entries.length := by
      rw [hcount1, hlen1]
      norm_num
    obtain ⟨t2, isNew, hst, hInv2, habs2, habso2⟩ :=
      tableSet_assemble hashFn t1 k v hInv1 hload1
    refine ⟨t2, isNew, ?_, hInv2, habs2, ?_⟩
    · rw [tableSet_eq]
      have hguard : 4 * ((initTable.count : Int) + 1)
          > 3 * (initTable.capacity + 1) := by norm_num [initTable]
      rw [if_pos hguard]
      have hgrow : GROW_CAPACITY (initTable.capacity + 1).toNat - 1
          = 2 ^ 3 - 1 := rfl
      rw [hgrow, hadjeq]
      exact hst
    · intro k2 hk2
      rw [habso2 k2 hk2, habs1 k2]
  · obtain ⟨K, hK, hpow⟩ := hInv.pow
    have h2K : (8 : Nat) ≤ 2 ^ K := by
      calc (8 : Nat) = 2 ^ 3 := rfl
      _ ≤ 2 ^ K := Nat.pow_le_pow_right (by norm_num) hK
    by_cases hguard : 4 * ((t.count : Int) + 1) > 3 * (t.capacity + 1)
    · -- growth to the doubled power of two
      have hcountlt : t.count < 2 ^ K := by
        have := hInv.load
        rw [hpow] at this
        omega
      have hP2 : (2 : Nat) ^ (K + 1) = 2 ^ K * 2 := by ring
      have hgrow : GROW_CAPACITY (t.capacity + 1).toNat - 1
          = 2 ^ (K + 1) - 1 := by
        rw [hInv.cap, hpow]
        have htn : (((2 ^ K : Nat) : Int) - 1 + 1).toNat = 2 ^ K := by
          omega
        rw [htn]
        unfold GROW_CAPACITY
        rw [if_neg (by omega), hP2]
      have hroomP : t.entries.countP (fun e => e.key.isSome) < 2 ^ (K + 1) := by
        have h1 := countP_isSome_le t.entries
        rw [← hInv.cnt] at h1
        omega
      obtain ⟨t1, hadjeq, hcap1, hlen1, hEI1, hNT1, hcnt1, hcntP1, habs1⟩ :=
        adjustCapacity_spec hashFn t (K + 1) hInv.inv hroomP
      have hcount1 : t1.count ≤ t.count := by
        rw [hcntP1]
        have h1 := countP_isSome_le t.entries
        rw [← hInv.cnt] at h1
        exact h1
      have hInv1 : TableInvA hashFn t1 :=
        { pow := ⟨K + 1, by omega, hlen1⟩
          cap := by
            rw [hcap1, hlen1]
            have : (1 : Nat) ≤ 2 ^ (K + 1) := Nat.one_le_two_pow
            push_cast [this]
            ring
          cnt := hcnt1
          load := by
            rw [hlen1]
            omega
          inv := hEI1 }
      have hload1 : 4 * (t1.count + 1) ≤ 3 * t1.entries.length := by
        rw [hlen1]
        omega
      obtain ⟨t2, isNew, hst, hInv2, habs2, habso2⟩ :=
        tableSet_assemble hashFn t1 k v hInv1 hload1
      refine ⟨t2, isNew, ?_, hInv2, habs2, ?_⟩
      · rw [tableSet_eq, if_pos hguard, hgrow, hadjeq]
        exact hst
      · intro k2 hk2
        rw [habso2 k2 hk2, habs1 k2]
    · -- no growth: the load guard gives headroom directly
      have hload1 : 4 * (t.count + 1) ≤ 3 * t.entries.length := by
        rw [not_lt] at hguard
        rw [hInv.cap] at hguard
        have hlen1 : (1 : Nat) ≤ t.entries.length := by
          rw [hpow]
          exact Nat.one_le_two_pow
        omega
      obtain ⟨t2, isNew, hst, hInv2, habs2, habso2⟩ :=
        tableSet_assemble hashFn t k v hInv hload1
      refine ⟨t2, isNew, ?_, hInv2, habs2, habso2⟩
      rw [tableSet_eq, if_neg hguard]
      exact hst

/-- The tombstone entry `tableDelete` writes: `key = NULL, value = true`. -/
def tombstoneEntry : Entry := { key := none, value := LoxValue.boolean true }

/-- Unfolding `tableDelete`'s `match` and guard. -/
theorem tableDelete_eq (hashFn : Nat → Nat) (t : Table) (k : Nat) :
    tableDelete hashFn t k =
      if t.count = 0 then some (t, false)
      else
        match findEntry hashFn t.entries t.capacity.toNat k with
        | none => none
        | some i =>
          match (slot t.entries i).key with
          | none => some (t, false)
          | some _ =>
            some ({ t with entries := t.entries.set i tombstoneEntry }, true)
    := rfl

/-- `tableDelete` when the probe found slot `i`. -/
theorem tableDelete_found (hashFn : Nat → Nat) (t : Table) (k i : Nat)
    (hc : ¬ t.count = 0)
    (hfe : findEntry hashFn t.entries t.capacity.toNat k = some i) :
    tableDelete hashFn t k =
      match (slot t.entries i).key with
      | none => some (t, false)
      | some _ =>
        some ({ t with entries := t.entries.set i tombstoneEntry }, true) := by
  rw [tableDelete_eq, if_neg hc, hfe]

/-- `tableDelete`: succeeds on reachable tables, removes `k` from the
abstract map (tombstoning), leaves every other key and `count` unchanged. -/
theorem tableDelete_spec (hashFn : Nat → Nat) (t : Table) (k : Nat)
    (hOk : TableOk hashFn t) :
    ∃ t2 r, tableDelete hashFn t k = some (t2, r) ∧ TableOk hashFn t2 ∧
      t2.count = t.count ∧
      absTable t2.entries k = none ∧
      (∀ k2, k2 ≠ k → absTable t2.entries k2 = absTable t.entries k2) := by
  by_cases hc : t.count = 0
  · refine ⟨t, false, ?_, hOk, rfl, ?_, fun k2 _ => rfl⟩
    · rw [tableDelete_eq, if_pos hc]
    · rcases hOk with rfl | hInv
      · rfl
      · refine abs_none_of_countOccupied_zero _ ?_ k
        rw [← hInv.cnt]
        exact hc
  · rcases hOk with rfl | hInv
    · exact absurd rfl hc
    · obtain ⟨K, hK, hpow⟩ := hInv.pow
      have hlen0 : 0 < t.entries.length := by rw [hpow]; positivity
      have hcap : t.capacity.toNat = 2 ^ K - 1 := by
        rw [hInv.cap, hpow]
        omega
      by_cases hk : ∃ j < t.entries.length, (slot t.entries j).key = some k
      · -- stored key: the slot is tombstoned
        obtain ⟨j, hj, hkey⟩ := hk
        have hfe : findEntry hashFn t.entries t.capacity.toNat k = some j := by
          rw [hcap]
          exact findEntry_present hashFn t.entries K hpow hInv.inv k j hj hkey
        have htombne : ¬ isEmptySlot tombstoneEntry := by
          intro h
          exact LoxValue.noConfusion h.2
        have hEItomb : EntriesInv hashFn (t.entries.set j tombstoneEntry) :=
          entriesInv_write_tombstone hashFn t.entries hInv.inv j hj
        have hcnt2 : countOccupied (t.entries.set j tombstoneEntry)
            = countOccupied t.entries := by
          have hset := countOccupied_set t.entries j tombstoneEntry hj
          have h1 : ¬ isEmptySlot (slot t.entries j) := by
            intro h
            obtain ⟨hk1, _⟩ := h
            rw [hkey] at hk1
            exact Option.noConfusion hk1
          rw [if_neg h1, if_neg htombne] at hset
          omega
        refine ⟨{ t with entries := t.entries.set j tombstoneEntry },
          true, ?_, ?_, rfl, ?_, ?_⟩
        · rw [tableDelete_found hashFn t k j hc hfe, hkey]
        · refine Or.inr
            { pow := ⟨K, hK, ?_⟩
              cap := ?_
              cnt := ?_
              load := ?_
              inv := hEItomb }
          · show (t.entries.set j tombstoneEntry).length = 2 ^ K
            rw [List.length_set]
            exact hpow
          · show t.capacity = ((t.entries.set j tombstoneEntry).length : Int) - 1
            rw [List.length_set]
            exact hInv.cap
          · show t.count = countOccupied (t.entries.set j tombstoneEntry)
            rw [hcnt2]
            exact hInv.cnt
          · show 4 * t.count ≤ 3 * (t.entries.set j tombstoneEntry).length
            rw [List.length_set]
            exact hInv.load
        · show absTable (t.entries.set j tombstoneEntry) k = none
          refine absTable_eq_none_of _ k ?_
          refine nokey_mem_of_nokey_slot _ k ?_
          intro i hi
          rw [List.length_set] at hi
          by_cases hij : i = j
          · subst hij
            rw [slot_set_eq t.entries i _ hi]
            exact fun h => Option.noConfusion h
          · rw [slot_set_ne t.entries j i _ (fun h => hij h.symm)]
            intro hik
            exact hij (hInv.inv.uniq i j k hi hj hik hkey)
        · intro k2 hk2
          show absTable (t.entries.set j tombstoneEntry) k2
            = absTable t.entries k2
          refine absTable_set_other t.entries j _ k2 ?_ ?_
          · rw [hkey]
            intro h
            have : k = k2 := by injection h
            exact hk2 this.symm
          · exact fun h => Option.noConfusion h
      · -- absent key: the probe stops at a NULL-key slot, nothing changes
        push_neg at hk
        have hnokey := nokey_mem_of_nokey_slot t.entries k
          (fun j hj => hk j hj)
        obtain ⟨r, hr, hres, hrk, _⟩ := findEntry_absent hashFn t.entries K
          hpow k hnokey (room_of_invA hashFn t hInv)
        have hfe : findEntry hashFn t.entries t.capacity.toNat k
            = some (probe t.entries.length (home hashFn t.entries.length k) r) := by
          rw [hcap]
          exact hres
        refine ⟨t, false, ?_, Or.inr hInv, rfl, ?_, fun k2 _ => rfl⟩
        · rw [tableDelete_found hashFn t k _ hc hfe, hrk]
        · exact absTable_eq_none_of t.entries k hnokey

/-!
## The public-API operation sequences and the reference model (claims C1, C9, C10)
-/

inductive TableOp : Type where
  | set (key : Nat) (value : LoxValue) : TableOp
  | del (key : Nat) : TableOp
deriving DecidableEq, Repr

/-- Run one public operation, keeping the table (`tableSet`/`tableDelete`
also return a `bool` the sequence semantics ignores). -/
def applyOp (hashFn : Nat → Nat) (t : Table) : TableOp → Option Table
  | .set k v => (tableSet hashFn t k v).map Prod.fst
  | .del k => (tableDelete hashFn t k).map Prod.fst

/-- Run a finite sequence of `set`/`delete` operations on an initially empty
(`initTable`) hash table; `none` would mean some probe loop diverged. -/
def runOps (hashFn : Nat → Nat) (ops : List TableOp) : Option Table :=
  ops.foldl (fun acc op => acc.bind (fun t => applyOp hashFn t op))
    (some initTable)

/-- The reference finite-map model: the most recent `set` for a key wins and
a deleted key is absent. -/
def modelApply (m : Nat → Option LoxValue) : TableOp → (Nat → Option LoxValue)
  | .set k v => fun k2 => if k2 = k then some v else m k2
  | .del k => fun k2 => if k2 = k then none else m k2

def modelRun (ops : List TableOp) : Nat → Option LoxValue :=
  ops.foldl modelApply (fun _ => none)

/-- Main induction: running any suffix of operations from a reachable table
whose abstraction is `m` succeeds and tracks the model. -/
theorem runOps_go (hashFn : Nat → Nat) :
    ∀ (ops : List TableOp) (t : Table) (m : Nat → Option LoxValue),
      TableOk hashFn t → (∀ k, absTable t.entries k = m k) →
      ∃ t2, ops.foldl (fun acc op => acc.bind (fun t => applyOp hashFn t op))
          (some t) = some t2 ∧
        TableOk hashFn t2 ∧
        (∀ k, absTable t2.entries k = ops.foldl modelApply m k) := by
  intro ops
  induction ops with
  | nil =>
    intro t m hOk habs
    exact ⟨t, rfl, hOk, habs⟩
  | cons op ops ih =>
    intro t m hOk habs
    cases op with
    | set k v =>
      obtain ⟨t1, isNew, heq, hInv1, habs1, habso1⟩ :=
        tableSet_spec hashFn t k v hOk
      have hstep : (some t).bind (fun t => applyOp hashFn t (TableOp.set k v))
          = some t1 := by
        show (tableSet hashFn t k v).map Prod.fst = some t1
        rw [heq]
        rfl
      have habs2 : ∀ k2, absTable t1.entries k2
          = modelApply m (TableOp.set k v) k2 := by
        intro k2
        show absTable t1.entries k2 = if k2 = k then some v else m k2
        by_cases hkk : k2 = k
        · subst hkk
          rw [if_pos rfl]
          exact habs1
        · rw [if_neg hkk, habso1 k2 hkk, habs k2]
      obtain ⟨t2, hfold, hOk2, habsF⟩ := ih t1 (modelApply m (TableOp.set k v))
        (Or.inr hInv1) habs2
      exact ⟨t2, by rw [List.foldl_cons, hstep]; exact hfold, hOk2,
        fun k2 => by rw [habsF k2, List.foldl_cons]⟩
    | del k =>
      obtain ⟨t1, r, heq, hOk1, _, habs1, habso1⟩ :=
        tableDelete_spec hashFn t k hOk
      have hstep : (some t).bind (fun t => applyOp hashFn t (TableOp.del k))
          = some t1 := by
        show (tableDelete hashFn t k).map Prod.fst = some t1
        rw [heq]
        rfl
      have habs2 : ∀ k2, absTable t1.entries k2
          = modelApply m (TableOp.del k) k2 := by
        intro k2
        show absTable t1.entries k2 = if k2 = k then none else m k2
        by_cases hkk : k2 = k
        · subst hkk
          rw [if_pos rfl]
          exact habs1
        · rw [if_neg hkk, habso1 k2 hkk, habs k2]
      obtain ⟨t2, hfold, hOk2, habsF⟩ := ih t1 (modelApply m (TableOp.del k))
        hOk1 habs2
      exact ⟨t2, by rw [List.foldl_cons, hstep]; exact hfold, hOk2,
        fun k2 => by rw [habsF k2, List.foldl_cons]⟩

/-- Every table reachable from `initTable` through the public API is either
still unallocated or satisfies the full allocated invariant. -/
theorem runOps_ok (hashFn : Nat → Nat) (ops : List TableOp) (t : Table)
    (hrun : runOps hashFn ops = some t) : TableOk hashFn t := by
  obtain ⟨t2, hrun2, hOk2, _⟩ := runOps_go hashFn ops initTable
    (fun _ => none) (Or.inl rfl) (fun k => rfl)
  unfold runOps at hrun
  rw [hrun] at hrun2
  injection hrun2 with h
  rw [h]
  exact hOk2

/-- C1: for every finite sequence of `tableSet`/`tableDelete` operations
applied to an initially empty hash table, execution terminates and the final
observable mapping through `tableGet` equals the reference finite-map model:
the most recent `tableSet` for a key wins, and a key whose most recent
operation was `tableDelete` is absent (`tableGet` returns false for it),
regardless of intervening resizes and tombstone reuses. -/
theorem C1_table_refines_model (hashFn : Nat → Nat) (ops : List TableOp) :
    ∃ t, runOps hashFn ops = some t ∧
      ∀ k, tableGet hashFn t k = modelRun ops k := by
  obtain ⟨t2, hrun, hOk, habs⟩ := runOps_go hashFn ops initTable
    (fun _ => none) (Or.inl rfl) (fun k => rfl)
  refine ⟨t2, hrun, fun k => ?_⟩
  rw [tableGet_spec hashFn t2 hOk k, habs k]
  rfl

/-- `tableFindString` terminates on any table satisfying the allocated
invariant (there is always a truly empty slot for the probe to stop at). -/
theorem tableFindString_isSome (hashFn : Nat → Nat) (strChars : Nat → List Nat)
    (t : Table) (hInv : TableInvA hashFn t)
    (chars : List Nat) (length hash : Nat) :
    (tableFindString hashFn strChars t chars length hash).isSome := by
  unfold tableFindString
  by_cases hc : t.count = 0
  · rw [if_pos hc]
    rfl
  · rw [if_neg hc]
    obtain ⟨K, hK, hpow⟩ := hInv.pow
    have hlen0 : 0 < t.entries.length := by rw [hpow]; positivity
    have hcap : t.capacity.toNat = 2 ^ K - 1 := by
      rw [hInv.cap, hpow]
      omega
    obtain ⟨i, hi, hie⟩ := exists_empty_of_countOccupied_lt t.entries
      (room_of_invA hashFn t hInv)
    have hs0 : hash % t.entries.length < t.entries.length := Nat.mod_lt _ hlen0
    obtain ⟨n, hn, hnp⟩ := probe_surj t.entries.length (hash % t.entries.length)
      i hi hs0
    have hstart : hash &&& t.capacity.toNat
        = probe t.entries.length (hash % t.entries.length) 0 := by
      rw [hcap, and_mask, probe_zero _ _ hs0, hpow]
    rw [hcap] at hstart ⊢
    rw [hstart]
    exact tableFindStringLoop_terminates hashFn strChars t.entries K hpow
      chars length hash (hash % t.entries.length) n hn (by rw [hnp]; exact hie)
      (t.entries.length + 1) 0 (by omega) (by omega)

/-- C9: on every table state reachable through the public API, the probe
loops of `findEntry` and `tableFindString` terminate.  The reachable state
keeps `count` equal to the number of occupied slots (live entries plus
tombstones), the load guard and `adjustCapacity`'s recount keep
`4 * count ≤ 3 * size`, so the probed array always contains a truly empty
slot at which a linear probe stops. -/
theorem C9_probe_loops_terminate (hashFn : Nat → Nat)
    (strChars : Nat → List Nat) (ops : List TableOp) (t : Table)
    (hrun : runOps hashFn ops = some t) :
    t.count = countOccupied t.entries ∧
    (t.count ≠ 0 →
      ∀ k, (findEntry hashFn t.entries t.capacity.toNat k).isSome) ∧
    (∀ chars length hash,
      (tableFindString hashFn strChars t chars length hash).isSome) := by
  have hOk := runOps_ok hashFn ops t hrun
  rcases hOk with rfl | hInv
  · refine ⟨rfl, fun hc => absurd rfl hc, fun chars length hash => rfl⟩
  · obtain ⟨K, hK, hpow⟩ := hInv.pow
    have hcap : t.capacity.toNat = 2 ^ K - 1 := by
      rw [hInv.cap, hpow]
      omega
    refine ⟨hInv.cnt, fun _ k => ?_, fun chars length hash => ?_⟩
    · rw [hcap]
      exact findEntry_isSome hashFn t.entries K hpow hInv.inv k
        (room_of_invA hashFn t hInv)
    · exact tableFindString_isSome hashFn strChars t hInv chars length hash

/-- C10: `tableGet`, `tableDelete` and `tableFindString` on a table whose
`count` is 0 — in particular a freshly initialized table with `entries =
NULL` and `capacity = -1` — return false/`NULL` immediately without reading
the entries array (the embedding returns before indexing `entries`, which
for `initTable` is the empty list), so lookup and delete on an empty table
are well-defined even though no backing storage was allocated. -/
theorem C10_empty_table_ops (hashFn : Nat → Nat) (strChars : Nat → List Nat)
    (t : Table) (hc : t.count = 0) (k : Nat) (chars : List Nat)
    (length hash : Nat) :
    tableGet hashFn t k = none ∧
    tableDelete hashFn t k = some (t, false) ∧
    tableFindString hashFn strChars t chars length hash = some none := by
  refine ⟨?_, ?_, ?_⟩
  · rw [tableGet, if_pos hc]
  · rw [tableDelete_eq, if_pos hc]
  · rw [tableFindString, if_pos hc]

/-- Witness for C10 at the freshly initialized table (`count = 0`,
`capacity = -1`, `entries = NULL`) and concrete query arguments. -/
theorem C10_empty_table_ops_witness :
    initTable.count = 0 ∧
    (tableGet (fun k => k) initTable 5 = none ∧
      tableDelete (fun k => k) initTable 5 = some (initTable, false) ∧
      tableFindString (fun k => k) (fun _ => []) initTable [7] 1 3
        = some none) :=
  ⟨rfl, C10_empty_table_ops (fun k => k) (fun _ => []) initTable rfl 5 [7] 1 3⟩

/-- The table that one concrete insertion produces (used by the C9 witness). -/
def c9WitnessTable : Table where
  count := 1
  capacity := 7
  entries := [emptyEntry, { key := some 1, value := LoxValue.number 5 },
    emptyEntry, emptyEntry, emptyEntry, emptyEntry, emptyEntry, emptyEntry]

/-- Witness for C9: one concrete insertion, with the count/occupancy
conclusion evaluated on the resulting table. -/
theorem C9_probe_loops_terminate_witness :
    runOps (fun k => k) [TableOp.set 1 (LoxValue.number 5)]
        = some c9WitnessTable ∧
    c9WitnessTable.count = countOccupied c9WitnessTable.entries :=
  ⟨by decide,
    (C9_probe_loops_terminate (fun k => k) (fun _ => [])
      [TableOp.set 1 (LoxValue.number 5)] c9WitnessTable (by decide)).1⟩

/-!
## Value equality (`value.c` / `value.h`) — claim C3

Both representations are embedded.  The tagged union reuses `LoxValue`; the
NaN-boxing representation is the 64-bit pattern (`Nat < 2^64`), with the
macros from `value.h` spelled out.  IEEE-754 `==` on doubles is modelled at
the bit level by `doubleEqBits` (false when either pattern is a NaN,
otherwise equal values: identical bits, or both zeros since `+0.0 == -0.0`);
`AS_NUMBER` is a bit-for-bit `memcpy`, so comparing `AS_NUMBER(a) ==
AS_NUMBER(b)` is exactly `doubleEqBits a b`.
-/

/-- A 64-bit pattern is an IEEE-754 NaN: exponent bits 62..52 all ones,
mantissa bits 51..0 not all zero. -/
def isNaNBits (x : Nat) : Bool :=
  x &&& 0x7FF0000000000000 == 0x7FF0000000000000 &&
    x &&& 0xFFFFFFFFFFFFF != 0

/-- Both patterns are `±0.0`: all bits but the sign are zero. -/
def isZeroBits (x : Nat) : Bool := x &&& 0x7FFFFFFFFFFFFFFF == 0

/-- IEEE-754 `==` on 64-bit double bit patterns. -/
def doubleEqBits (a b : Nat) : Bool :=
  !(isNaNBits a) && !(isNaNBits b) && (a == b || (isZeroBits a && isZeroBits b))

/-- `ValueType` order of the tagged union: `VAL_BOOL`, `VAL_NIL`,
`VAL_NUMBER`, `VAL_OBJECT`. -/
def valType : LoxValue → Nat
  | .boolean _ => 0
  | .nil => 1
  | .number _ => 2
  | .object _ => 3

/-- `valuesEqual`, tagged-union branch: `if (a.type != b.type) return false;`
then a `switch` on the type; the `default: return false` arm is unreachable
under the guard and is kept as the catch-all. -/
def valuesEqualTagged (a b : LoxValue) : Bool :=
  if valType a ≠ valType b then false
  else
    match a, b with
    | .boolean x, .boolean y => x == y
    | .nil, .nil => true
    | .number x, .number y => doubleEqBits x y
    | .object x, .object y => x == y
    | _, _ => false

/-!
### NaN boxing (`value.h`, `NAN_BOXING` branch)
-/

def SIGN_BIT : Nat := 0x8000000000000000

def QNAN : Nat := 0x7ffc000000000000

def TAG_NIL : Nat := 1

def TAG_FALSE : Nat := 2

def TAG_TRUE : Nat := 3

def NIL_VAL : Nat := QNAN ||| TAG_NIL

def FALSE_VAL : Nat := QNAN ||| TAG_FALSE

def TRUE_VAL : Nat := QNAN ||| TAG_TRUE

def BOOL_VAL (b : Bool) : Nat := if b then TRUE_VAL else FALSE_VAL

def OBJECT_VAL (p : Nat) : Nat := SIGN_BIT ||| QNAN ||| p

/-- `IS_NUMBER(value)`: `(value & QNAN) != QNAN`. -/
def IS_NUMBER (v : Nat) : Bool := v &&& QNAN != QNAN

/-- `valuesEqual`, `NAN_BOXING` branch.  The source tests `IS_NUMBER(a)`
twice — `IS_NUMBER(a) && IS_NUMBER(a)` is a typo for `IS_NUMBER(b)`,
acknowledged by the spec — and the embedding keeps it verbatim.
`AS_NUMBER(a) == AS_NUMBER(b)` is IEEE `==` on the raw bits; the
fall-through `a == b` compares the 64-bit patterns. -/
def valuesEqualNanBoxing (a b : Nat) : Bool :=
  if IS_NUMBER a && IS_NUMBER a then doubleEqBits a b else a == b

/-- The NaN-boxed encoding of an abstract value (`NUMBER_VAL` is `memcpy`,
so a number's pattern is its own bits). -/
def toNanBoxed : LoxValue → Nat
  | .nil => NIL_VAL
  | .boolean b => BOOL_VAL b
  | .number bits => bits
  | .object p => OBJECT_VAL p

/-- Representable values: a number's pattern is a genuine double outside the
quiet-NaN tag space (hardware NaNs do not set both tag bits 50 and 51, which
is what NaN boxing relies on); an object pointer fits in 48 bits. -/
def WFValue : LoxValue → Prop
  | .number bits => bits < 2 ^ 64 ∧ IS_NUMBER bits = true
  | .object p => p < 2 ^ 48
  | _ => True

/-- Modelled from the spec, §4.A: "numbers by IEEE-754 `==` (so NaN ≠ NaN);
booleans by truth; nil equal to nil; objects by reference identity.
Cross-type comparison yields `false`."  (The reference definition the code
is compared against.) -/
def specValuesEqual : LoxValue → LoxValue → Bool
  | .number x, .number y => doubleEqBits x y
  | .nil, .nil => true
  | .boolean x, .boolean y => x == y
  | .object x, .object y => x == y
  | _, _ => false

/-!
### Bit-level helper lemmas
-/

theorem lor_eq_add_of_disjoint (a b k : Nat) (ha : a % 2 ^ k = 0)
    (hb : b < 2 ^ k) : a ||| b = a + b := by
  have h0 : (0 : Nat) < 2 ^ k := by positivity
  obtain ⟨q, rfl⟩ : ∃ q, a = 2 ^ k * q :=
    ⟨a / 2 ^ k, (Nat.mul_div_cancel' (Nat.dvd_of_mod_eq_zero ha)).symm⟩
  apply Nat.eq_of_testBit_eq
  intro j
  rw [Nat.testBit_or, Nat.testBit_mul_pow_two_add q hb j]
  have hz := Nat.testBit_mul_pow_two_add q h0 j
  rw [Nat.add_zero] at hz
  rw [hz]
  by_cases hj : j < k
  · simp [hj]
  · have hbj : Nat.testBit b j = false :=
      Nat.testBit_lt_two_pow
        (lt_of_lt_of_le hb (Nat.pow_le_pow_right (by omega) (by omega)))
    simp [hj, hbj]

theorem and_eq_zero_of_disjoint (a b k : Nat) (ha : a < 2 ^ k)
    (hb : b % 2 ^ k = 0) : a &&& b = 0 := by
  have h0 : (0 : Nat) < 2 ^ k := by positivity
  apply Nat.eq_of_testBit_eq
  intro j
  rw [Nat.testBit_and, Nat.zero_testBit]
  by_cases hj : j < k
  · obtain ⟨q, hq⟩ : ∃ q, b = 2 ^ k * q :=
      ⟨b / 2 ^ k, (Nat.mul_div_cancel' (Nat.dvd_of_mod_eq_zero hb)).symm⟩
    have hz := Nat.testBit_mul_pow_two_add q h0 j
    rw [Nat.add_zero] at hz
    rw [hq, hz, if_pos hj]
    simp
  · have haj : Nat.testBit a j = false :=
      Nat.testBit_lt_two_pow
        (lt_of_lt_of_le ha (Nat.pow_le_pow_right (by omega) (by omega)))
    simp [haj]

/-- The object encoding, as plain addition (pointers fit under the tag). -/
theorem objectVal_eq_add (p : Nat) (hp : p < 2 ^ 48) :
    OBJECT_VAL p = 0xfffc000000000000 + p := by
  unfold OBJECT_VAL SIGN_BIT QNAN
  rw [show (0x8000000000000000 : Nat) ||| 0x7ffc000000000000
    = 0xfffc000000000000 from by decide]
  exact lor_eq_add_of_disjoint _ p 48 (by decide) hp

/-- Every non-number NaN-boxed value reinterprets as a NaN double (this is
what makes the typo in `valuesEqual` harmless). -/
theorem isNaNBits_objectVal (p : Nat) (hp : p < 2 ^ 48) :
    isNaNBits (OBJECT_VAL p) = true := by
  unfold OBJECT_VAL SIGN_BIT QNAN
  rw [show (0x8000000000000000 : Nat) ||| 0x7ffc000000000000
    = 0xfffc000000000000 from by decide]
  unfold isNaNBits
  rw [Nat.and_distrib_right, Nat.and_distrib_right]
  rw [show (0xfffc000000000000 : Nat) &&& 0x7FF0000000000000
    = 0x7FF0000000000000 from by decide]
  rw [show (0xfffc000000000000 : Nat) &&& 0xFFFFFFFFFFFFF
    = 0xC000000000000 from by decide]
  rw [and_eq_zero_of_disjoint p 0x7FF0000000000000 52
    (lt_trans hp (by norm_num)) (by decide)]
  rw [Nat.and_pow_two_sub_one_of_lt_two_pow
    (lt_trans hp (by norm_num : (2:Nat) ^ 48 < 2 ^ 52))]
  simp only [Nat.or_zero]
  simp only [Bool.and_eq_true]
  refine ⟨by decide, ?_⟩
  have : (0xC000000000000 : Nat) ||| p ≠ 0 := by
    intro h
    have ht := congrArg (fun x => Nat.testBit x 50) h
    simp only [Nat.testBit_or] at ht
    rw [show Nat.testBit 0xC000000000000 50 = true from by decide] at ht
    simp at ht
  simpa using this

/-- `IS_NUMBER` is false on object encodings. -/
theorem isNumber_objectVal (p : Nat) (hp : p < 2 ^ 48) :
    IS_NUMBER (OBJECT_VAL p) = false := by
  unfold OBJECT_VAL IS_NUMBER SIGN_BIT QNAN
  rw [show (0x8000000000000000 : Nat) ||| 0x7ffc000000000000
    = 0xfffc000000000000 from by decide]
  rw [Nat.and_distrib_right]
  rw [show (0xfffc000000000000 : Nat) &&& 0x7ffc000000000000
    = 0x7ffc000000000000 from by decide]
  rw [and_eq_zero_of_disjoint p 0x7ffc000000000000 50
    (lt_trans hp (by norm_num)) (by decide)]
  simp

/-- Object encodings are reference-injective. -/
theorem objectVal_inj (p q : Nat) (hp : p < 2 ^ 48) (hq : q < 2 ^ 48)
    (h : OBJECT_VAL p = OBJECT_VAL q) : p = q := by
  rw [objectVal_eq_add p hp, objectVal_eq_add q hq] at h
  omega

theorem valuesEqualNB_of_number (a b : Nat) (h : IS_NUMBER a = true) :
    valuesEqualNanBoxing a b = doubleEqBits a b := by
  simp [valuesEqualNanBoxing, h]

theorem valuesEqualNB_of_not_number (a b : Nat) (h : IS_NUMBER a = false) :
    valuesEqualNanBoxing a b = (a == b) := by
  simp [valuesEqualNanBoxing, h]

theorem doubleEqBits_nan_left (a b : Nat) (h : isNaNBits a = true) :
    doubleEqBits a b = false := by
  simp [doubleEqBits, h]

theorem doubleEqBits_nan_right (a b : Nat) (h : isNaNBits b = true) :
    doubleEqBits a b = false := by
  simp [doubleEqBits, h]

/-- The NaN-boxing `valuesEqual` agrees with the spec equality on all
representable values (despite the `IS_NUMBER(a) && IS_NUMBER(a)` typo:
every non-number encoding reinterprets as a NaN double, so the number
branch still rejects cross-type comparisons). -/
theorem valuesEqualNB_correct (a b : LoxValue) (ha : WFValue a)
    (hb : WFValue b) :
    valuesEqualNanBoxing (toNanBoxed a) (toNanBoxed b) = specValuesEqual a b := by
  have hobj_large : ∀ p, p < 2 ^ 48 → 2 ^ 63 ≤ OBJECT_VAL p := by
    intro p hp
    rw [objectVal_eq_add p hp]
    omega
  cases a with
  | nil =>
    cases b with
    | nil => decide
    | boolean y => cases y <;> decide
    | number y =>
      obtain ⟨hy64, hyn⟩ := hb
      show valuesEqualNanBoxing NIL_VAL y = false
      rw [valuesEqualNB_of_not_number _ _ (by decide)]
      rw [beq_eq_false_iff_ne]
      intro h
      rw [← h] at hyn
      exact absurd hyn (by decide)
    | object q =>
      show valuesEqualNanBoxing NIL_VAL (OBJECT_VAL q) = false
      rw [valuesEqualNB_of_not_number _ _ (by decide)]
      rw [beq_eq_false_iff_ne]
      intro h
      have h1 := hobj_large q hb
      rw [← h] at h1
      have h2 : NIL_VAL < 2 ^ 63 := by decide
      omega
  | boolean x =>
    cases b with
    | nil => cases x <;> decide
    | boolean y => cases x <;> cases y <;> decide
    | number y =>
      obtain ⟨hy64, hyn⟩ := hb
      show valuesEqualNanBoxing (BOOL_VAL x) y = false
      rw [valuesEqualNB_of_not_number _ _ (by cases x <;> decide)]
      rw [beq_eq_false_iff_ne]
      intro h
      rw [← h] at hyn
      revert hyn
      cases x <;> decide
    | object q =>
      show valuesEqualNanBoxing (BOOL_VAL x) (OBJECT_VAL q) = false
      rw [valuesEqualNB_of_not_number _ _ (by cases x <;> decide)]
      rw [beq_eq_false_iff_ne]
      intro h
      have h1 := hobj_large q hb
      rw [← h] at h1
      have h2 : BOOL_VAL x < 2 ^ 63 := by cases x <;> decide
      omega
  | number x =>
    obtain ⟨hx64, hxn⟩ := ha
    cases b with
    | nil =>
      show valuesEqualNanBoxing x NIL_VAL = false
      rw [valuesEqualNB_of_number _ _ hxn]
      exact doubleEqBits_nan_right _ _ (by decide)
    | boolean y =>
      show valuesEqualNanBoxing x (BOOL_VAL y) = false
      rw [valuesEqualNB_of_number _ _ hxn]
      exact doubleEqBits_nan_right _ _ (by cases y <;> decide)
    | number y =>
      show valuesEqualNanBoxing x y = doubleEqBits x y
      exact valuesEqualNB_of_number _ _ hxn
    | object q =>
      show valuesEqualNanBoxing x (OBJECT_VAL q) = false
      rw [valuesEqualNB_of_number _ _ hxn]
      exact doubleEqBits_nan_right _ _ (isNaNBits_objectVal q hb)
  | object p =>
    cases b with
    | nil =>
      show valuesEqualNanBoxing (OBJECT_VAL p) NIL_VAL = false
      rw [valuesEqualNB_of_not_number _ _ (isNumber_objectVal p ha)]
      rw [beq_eq_false_iff_ne]
      intro h
      have h1 := hobj_large p ha
      rw [h] at h1
      have h2 : NIL_VAL < 2 ^ 63 := by decide
      omega
    | boolean y =>
      show valuesEqualNanBoxing (OBJECT_VAL p) (BOOL_VAL y) = false
      rw [valuesEqualNB_of_not_number _ _ (isNumber_objectVal p ha)]
      rw [beq_eq_false_iff_ne]
      intro h
      have h1 := hobj_large p ha
      rw [h] at h1
      have h2 : BOOL_VAL y < 2 ^ 63 := by cases y <;> decide
      omega
    | number y =>
      obtain ⟨hy64, hyn⟩ := hb
      show valuesEqualNanBoxing (OBJECT_VAL p) y = false
      rw [valuesEqualNB_of_not_number _ _ (isNumber_objectVal p ha)]
      rw [beq_eq_false_iff_ne]
      intro h
      rw [← h] at hyn
      rw [isNumber_objectVal p ha] at hyn
      exact Bool.noConfusion hyn
    | object q =>
      show valuesEqualNanBoxing (OBJECT_VAL p) (OBJECT_VAL q) = (p == q)
      rw [valuesEqualNB_of_not_number _ _ (isNumber_objectVal p ha)]
      by_cases hpq : p = q
      · subst hpq
        simp
      · have hne : OBJECT_VAL p ≠ OBJECT_VAL q := by
          intro h
          exact hpq (objectVal_inj p q ha hb h)
        rw [beq_eq_false_iff_ne.2 hne, beq_eq_false_iff_ne.2 hpq]

/-- C3: `valuesEqual` implements the spec equality in both value
representations (tagged union and `NAN_BOXING`): when both arguments are
numbers it is IEEE-754 `==` — so in particular `valuesEqual(NaN, NaN)` is
false — `nil` equals `nil`, booleans compare by truth value, objects compare
by reference identity, and every pair of values of different types compares
as false. -/
theorem C3_valuesEqual_implements_spec (a b : LoxValue)
    (ha : WFValue a) (hb : WFValue b) :
    valuesEqualTagged a b = specValuesEqual a b ∧
    valuesEqualNanBoxing (toNanBoxed a) (toNanBoxed b) = specValuesEqual a b ∧
    (∀ x, isNaNBits x = true →
      specValuesEqual (LoxValue.number x) (LoxValue.number x) = false) := by
  refine ⟨?_, valuesEqualNB_correct a b ha hb, ?_⟩
  · cases a <;> cases b <;>
      simp [valuesEqualTagged, specValuesEqual, valType]
  · intro x hx
    show doubleEqBits x x = false
    exact doubleEqBits_nan_left _ _ hx

/-- Witness for C3: both arguments the quiet-NaN pattern
`0x7ff8000000000000` (a representable number whose equality with itself is
false in both representations). -/
theorem C3_valuesEqual_implements_spec_witness :
    WFValue (LoxValue.number 0x7ff8000000000000) ∧
    (valuesEqualTagged (LoxValue.number 0x7ff8000000000000)
        (LoxValue.number 0x7ff8000000000000)
      = specValuesEqual (LoxValue.number 0x7ff8000000000000)
        (LoxValue.number 0x7ff8000000000000) ∧
    valuesEqualNanBoxing (toNanBoxed (LoxValue.number 0x7ff8000000000000))
        (toNanBoxed (LoxValue.number 0x7ff8000000000000))
      = specValuesEqual (LoxValue.number 0x7ff8000000000000)
        (LoxValue.number 0x7ff8000000000000) ∧
    (∀ x, isNaNBits x = true →
      specValuesEqual (LoxValue.number x) (LoxValue.number x) = false)) :=
  ⟨⟨by decide, by decide⟩,
    C3_valuesEqual_implements_spec (LoxValue.number 0x7ff8000000000000)
      (LoxValue.number 0x7ff8000000000000)
      ⟨by decide, by decide⟩ ⟨by decide, by decide⟩⟩

/-!
## Compiler: `return` statements and local-variable initialization
(`compiler.c`, claims C7 and C8)

`FunctionType` and the opcode numbers follow `vm.h` / `chunk.h` (positions in
the `OpCode` enum).  The compiler state is reduced to what the two claims
exercise: the current function type, the emitted byte stream, the locals
array, the scope depth, and the list of reported compile errors.
-/

inductive FunctionType : Type where
  | TYPE_FUNCTION : FunctionType
  | TYPE_INITIALIZER : FunctionType
  | TYPE_METHOD : FunctionType
  | TYPE_SCRIPT : FunctionType
deriving DecidableEq, Repr

def OP_NIL : Nat := 1

def OP_GET_LOCAL : Nat := 5

def OP_RETURN : Nat := 33

/-- The slice of compiler/parser state `returnStatement` touches. -/
structure ReturnCompState : Type where
  ftype : FunctionType
  code : List Nat
  errors : List String
deriving DecidableEq, Repr

/-- `emitByte`: append one byte to the current chunk. -/
def emitByte (st : ReturnCompState) (b : Nat) : ReturnCompState :=
  { st with code := st.code ++ [b] }

/-- `emitBytes`: two `emitByte`s. -/
def emitBytes (st : ReturnCompState) (b1 b2 : Nat) : ReturnCompState :=
  emitByte (emitByte st b1) b2

/-- `error(msg)`: record a compile error. -/
def reportError (st : ReturnCompState) (msg : String) : ReturnCompState :=
  { st with errors := st.errors ++ [msg] }

/-- `emitReturn()`: for initializers `OP_GET_LOCAL 0` (slot 0 holds the
receiver), else `OP_NIL`; then `OP_RETURN`. -/
def emitReturn (st : ReturnCompState) : ReturnCompState :=
  let st :=
    if st.ftype = FunctionType.TYPE_INITIALIZER then
      emitBytes st OP_GET_LOCAL 0
    else
      emitByte st OP_NIL
  emitByte st OP_RETURN

/-- `returnStatement()`.  `bare` is `match(TOKEN_SEMICOLON)` (a bare
`return;`); `exprBytes` stands for the bytecode `expression()` emits for the
returned value in the non-bare case. -/
def returnStatement (st : ReturnCompState) (bare : Bool)
    (exprBytes : List Nat) : ReturnCompState :=
  let st :=
    if st.ftype = FunctionType.TYPE_SCRIPT then
      reportError st "Can't return from top-level code."
    else st
  if bare then
    emitReturn st
  else
    let st :=
      if st.ftype = FunctionType.TYPE_INITIALIZER then
        reportError st "Can't return a value from an initializer."
      else st
    let st := { st with code := st.code ++ exprBytes }
    emitByte st OP_RETURN

/-- C7: a `return` in top-level code (`TYPE_SCRIPT`) is a compile error; a
`return` with a value inside an initializer is a compile error; and a bare
`return;` inside an initializer is accepted and compiles to
`OP_GET_LOCAL 0; OP_RETURN`, so an initializer yields the receiver instance
rather than `nil`. -/
theorem C7_return_statement (st : ReturnCompState) (bare : Bool)
    (exprBytes : List Nat) :
    (st.ftype = FunctionType.TYPE_SCRIPT →
      "Can't return from top-level code."
        ∈ (returnStatement st bare exprBytes).errors) ∧
    (st.ftype = FunctionType.TYPE_INITIALIZER → bare = false →
      "Can't return a value from an initializer."
        ∈ (returnStatement st bare exprBytes).errors) ∧
    (st.ftype = FunctionType.TYPE_INITIALIZER → bare = true →
      (returnStatement st bare exprBytes).errors = st.errors ∧
      (returnStatement st bare exprBytes).code
        = st.code ++ [OP_GET_LOCAL, 0, OP_RETURN]) := by
  refine ⟨?_, ?_, ?_⟩
  · intro hscript
    cases bare <;>
      simp [returnStatement, emitReturn, emitByte, emitBytes, reportError,
        hscript]
  · intro hinit hbare
    subst hbare
    simp [returnStatement, emitReturn, emitByte, emitBytes, reportError, hinit]
  · intro hinit hbare
    subst hbare
    refine ⟨?_, ?_⟩ <;>
      simp [returnStatement, emitReturn, emitByte, emitBytes, reportError,
        hinit]

/-- The compiler state the C7 witness starts from: inside an initializer,
empty chunk, no errors yet. -/
def c7WitnessState : ReturnCompState where
  ftype := FunctionType.TYPE_INITIALIZER
  code := []
  errors := []

/-- Witness for C7: a bare `return;` inside an initializer, starting from an
empty chunk. -/
theorem C7_return_statement_witness :
    c7WitnessState.ftype = FunctionType.TYPE_INITIALIZER ∧
    ((returnStatement c7WitnessState true []).errors = c7WitnessState.errors ∧
      (returnStatement c7WitnessState true []).code
        = c7WitnessState.code ++ [OP_GET_LOCAL, 0, OP_RETURN]) :=
  ⟨rfl, (C7_return_statement c7WitnessState true []).2.2 rfl rfl⟩

/-!
## Compiler: locals, `declareVariable` / `markInitialized` / `resolveLocal`
(claim C8)

The per-compiler locals array, most recent local first (the C array
`locals[0..localCount-1]` read backwards, which is the order every loop in
the source walks it).  Identifiers are interned as `Nat` (`identifiersEqual`
is byte equality of lexemes).
-/

structure Local : Type where
  name : Nat
  depth : Int
  isCaptured : Bool
deriving DecidableEq, Repr

structure LocalsComp : Type where
  locals : List Local
  scopeDepth : Int
  errors : List String
deriving DecidableEq, Repr

def UINT8_COUNT : Nat := 256

def addError (c : LocalsComp) (msg : String) : LocalsComp :=
  { c with errors := c.errors ++ [msg] }

/-- `addLocal(name)`: append a local with `depth = -1` (the
declared-not-yet-initialized sentinel); error when the array is full. -/
def addLocal (c : LocalsComp) (name : Nat) : LocalsComp :=
  if c.locals.length = UINT8_COUNT then
    addError c "Too many local variables in function."
  else
    { c with locals := { name := name, depth := -1, isCaptured := false }
        :: c.locals }

/-- The redeclaration scan of `declareVariable` (walks from the top local,
stops at an initialized local of an enclosing scope, errors on a same-name
local in the current scope, then continues scanning as the source does). -/
def declareScan (scopeDepth : Int) (name : Nat) :
    List Local → LocalsComp → LocalsComp
  | [], c => c
  | l :: rest, c =>
    if l.depth ≠ -1 ∧ l.depth < scopeDepth then c
    else
      let c := if l.name = name then
          addError c "Already variable with this name in this scope."
        else c
      declareScan scopeDepth name rest c

/-- `declareVariable()`: a no-op at global scope; otherwise scan for a
same-scope redeclaration and `addLocal`. -/
def declareVariable (c : LocalsComp) (name : Nat) : LocalsComp :=
  if c.scopeDepth = 0 then c
  else addLocal (declareScan c.scopeDepth name c.locals c) name

/-- `markInitialized()`: a no-op at global scope; otherwise set the topmost
local's depth to the current scope depth.  (The C code indexes
`locals[localCount - 1]`; the empty case never occurs on its call paths.) -/
def markInitialized (c : LocalsComp) : LocalsComp :=
  if c.scopeDepth = 0 then c
  else
    match c.locals with
    | [] => c
    | l :: rest =>
      { c with locals := { l with depth := c.scopeDepth } :: rest }

/-- The scan of `resolveLocal`: from the top local downwards, the first
name match wins; reports whether that local still has the `-1` sentinel.
Returns the match offset from the top. -/
def resolveScan (name : Nat) : List Local → Nat → Option (Nat × Bool)
  | [], _ => none
  | l :: rest, fromTop =>
    if l.name = name then some (fromTop, l.depth = -1)
    else resolveScan name rest (fromTop + 1)

/-- `resolveLocal(compiler, name)`: the stack slot of the local (`-1` when
not found, resolved as a global instead); reading a local whose depth is
still `-1` — inside its own initializer — is the compile error
"Can't read local variable in its own initializer." (the slot is still
returned). -/
def resolveLocal (c : LocalsComp) (name : Nat) : Int × LocalsComp :=
  match resolveScan name c.locals 0 with
  | none => (-1, c)
  | some (fromTop, sentinel) =>
    (((c.locals.length - 1 - fromTop : Nat) : Int),
      if sentinel then
        addError c "Can't read local variable in its own initializer."
      else c)

/-- `var a = a;` in a local scope: `variableDeclaration` declares the name
(`parseVariable` → `declareVariable`), compiles the initializer — which
reads the name through `resolveLocal` — and only then marks it initialized
(`defineVariable` → `markInitialized`). -/
def varDeclSelfRead (c : LocalsComp) (name : Nat) : LocalsComp :=
  (resolveLocal (declareVariable c name) name).2

/-- A local `fun f() { ... f() ... }`: `functionDeclaration` declares the
name and calls `markInitialized` *before* compiling the body, so the body's
reference to `f` (reaching this compiler's local through `resolveUpvalue`'s
call to `resolveLocal`) sees an initialized local. -/
def funDeclSelfRead (c : LocalsComp) (name : Nat) : Int × LocalsComp :=
  resolveLocal (markInitialized (declareVariable c name)) name

/-- C8: in a local scope, a variable declaration marks its local initialized
only after the initializer is compiled, so `var a = a;` reports "Can't read
local variable in its own initializer." (from the `-1` depth sentinel); a
function declaration marks its name initialized before the body, so a local
function that calls itself resolves without error (and to the just-declared
slot). -/
theorem C8_markInitialized_timing (c : LocalsComp) (name : Nat)
    (hscope : 0 < c.scopeDepth)
    (hroom : (declareScan c.scopeDepth name c.locals c).locals.length
      ≠ UINT8_COUNT) :
    "Can't read local variable in its own initializer."
        ∈ (varDeclSelfRead c name).errors ∧
    (funDeclSelfRead c name).2 = markInitialized (declareVariable c name) ∧
    (funDeclSelfRead c name).1
      = (((declareVariable c name).locals.length - 1 : Nat) : Int) := by
  have hscan_locals : ∀ ls c2,
      (declareScan c.scopeDepth name ls c2).locals = c2.locals := by
    intro ls
    induction ls with
    | nil => intro c2; rfl
    | cons l rest ih =>
      intro c2
      unfold declareScan
      by_cases hbreak : l.depth ≠ -1 ∧ l.depth < c.scopeDepth
      · rw [if_pos hbreak]
      · rw [if_neg hbreak]
        by_cases hname : l.name = name
        · rw [if_pos hname]
          rw [ih]
          rfl
        · rw [if_neg hname]
          exact ih _
  have hscan_scope : ∀ ls c2, c2.scopeDepth = c.scopeDepth →
      (declareScan c.scopeDepth name ls c2).scopeDepth = c.scopeDepth := by
    intro ls
    induction ls with
    | nil => intro c2 h; exact h
    | cons l rest ih =>
      intro c2 h
      unfold declareScan
      by_cases hbreak : l.depth ≠ -1 ∧ l.depth < c.scopeDepth
      · rw [if_pos hbreak]; exact h
      · rw [if_neg hbreak]
        by_cases hname : l.name = name
        · rw [if_pos hname]
          exact ih _ h
        · rw [if_neg hname]
          exact ih _ h
  set cs := declareScan c.scopeDepth name c.locals c with hcs
  have hlocs : cs.locals = c.locals := hscan_locals c.locals c
  have hsc : cs.scopeDepth = c.scopeDepth := hscan_scope c.locals c rfl
  have hdecl : declareVariable c name
      = { cs with locals := { name := name, depth := -1, isCaptured := false }
          :: cs.locals } := by
    unfold declareVariable
    rw [if_neg (by omega)]
    unfold addLocal
    rw [← hcs, if_neg hroom]
  refine ⟨?_, ?_, ?_⟩
  · unfold varDeclSelfRead
    rw [hdecl]
    unfold resolveLocal
    unfold resolveScan
    simp [addError]
  · unfold funDeclSelfRead
    rw [hdecl]
    unfold markInitialized
    rw [if_neg (by rw [hsc]; omega)]
    unfold resolveLocal
    unfold resolveScan
    have hneg : ¬ cs.scopeDepth = -1 := by rw [hsc]; omega
    simp [hneg]
  · unfold funDeclSelfRead
    rw [hdecl]
    unfold markInitialized
    rw [if_neg (by rw [hsc]; omega)]
    unfold resolveLocal
    unfold resolveScan
    have hneg : ¬ cs.scopeDepth = -1 := by rw [hsc]; omega
    simp [hneg]

/-- The compiler state the C8 witness starts from: inside one block scope,
no locals yet. -/
def c8WitnessComp : LocalsComp where
  locals := []
  scopeDepth := 1
  errors := []

/-- Witness for C8 at a concrete local scope and identifier. -/
theorem C8_markInitialized_timing_witness :
    (0 < c8WitnessComp.scopeDepth ∧
      (declareScan c8WitnessComp.scopeDepth 7 c8WitnessComp.locals
        c8WitnessComp).locals.length ≠ UINT8_COUNT) ∧
    ("Can't read local variable in its own initializer."
        ∈ (varDeclSelfRead c8WitnessComp 7).errors ∧
      (funDeclSelfRead c8WitnessComp 7).2
        = markInitialized (declareVariable c8WitnessComp 7) ∧
      (funDeclSelfRead c8WitnessComp 7).1
        = (((declareVariable c8WitnessComp 7).locals.length - 1 : Nat) : Int)) :=
  ⟨⟨by decide, by decide⟩,
    C8_markInitialized_timing c8WitnessComp 7 (by decide) (by decide)⟩

/-!
## Garbage collector (`memory.c`) — claims C2, C4 and C5

Objects are pointer identities (`Nat`).  The per-object `isMarked` bits are
the list `marked` (membership = bit set); the gray worklist is a list with
the top of `grayStack` first.  `refs o` abstracts `blackenObject`'s type
switch: the outgoing references of object `o` (receiver/method of a bound
method, class/fields of an instance, name/methods of a class, function and
upvalues of a closure, `closed` of an upvalue, name/constants of a function,
nothing for natives and strings), as the list of `Value`s it marks.
-/

structure MarkState : Type where
  marked : List Nat
  gray : List Nat
deriving DecidableEq, Repr

/-- `markObject`: `NULL` and already-marked objects are ignored; otherwise
set the mark bit and push onto the gray worklist. -/
def markObject (ms : MarkState) (o : Option Nat) : MarkState :=
  match o with
  | none => ms
  | some x =>
    if x ∈ ms.marked then ms
    else { marked := x :: ms.marked, gray := x :: ms.gray }

/-- `markValue`: mark only object values. -/
def markValue (ms : MarkState) (v : LoxValue) : MarkState :=
  match v with
  | .object p => markObject ms (some p)
  | _ => ms

def markValues (ms : MarkState) (vs : List LoxValue) : MarkState :=
  vs.foldl markValue ms

/-- An `Object*` that may be `NULL`, as the value `markObject` treats it as
(`markObject ms o = markValue ms (optValue o)`). -/
def optValue : Option Nat → LoxValue
  | some p => .object p
  | none => .nil

/-- `markTable`: `markObject(entry->key); markValue(entry->value)` for every
entry. -/
def markTable (ms : MarkState) (t : Table) : MarkState :=
  t.entries.foldl (fun ms e => markValue (markObject ms e.key) e.value) ms

/-- The GC roots in `markRoots` order: the value stack up to `stackTop`, the
active frames' closures, the open-upvalue list, the globals table, the
compiler chain's functions (`markCompilerRoots`), and the cached `init`
string. -/
structure VMRoots : Type where
  stack : List LoxValue
  frameClosures : List Nat
  openUpvalues : List Nat
  globals : Table
  compilerFunctions : List (Option Nat)
  initString : Option Nat

/-- `markRoots()`, in source order. -/
def markRoots (ms : MarkState) (r : VMRoots) : MarkState :=
  let ms := markValues ms r.stack
  let ms := r.frameClosures.foldl (fun ms c => markObject ms (some c)) ms
  let ms := r.openUpvalues.foldl (fun ms u => markObject ms (some u)) ms
  let ms := markTable ms r.globals
  let ms := r.compilerFunctions.foldl markObject ms
  markObject ms r.initString

/-- `blackenObject`: mark the object's outgoing references. -/
def blackenObject (refs : Nat → List LoxValue) (ms : MarkState) (o : Nat) :
    MarkState :=
  markValues ms (refs o)

/-- `traceReferences()`: pop gray objects and blacken them until the
worklist is empty (fuel models the unbounded `while`). -/
def traceReferences (refs : Nat → List LoxValue) (ms : MarkState) :
    Nat → MarkState
  | 0 => ms
  | fuel + 1 =>
    match ms.gray with
    | [] => ms
    | o :: rest =>
      traceReferences refs
        (blackenObject refs { marked := ms.marked, gray := rest } o) fuel

/-- `sweep()`: walk the all-objects list; marked objects are kept (mark
cleared), unmarked ones are unlinked and freed.  Returns (kept, freed). -/
def sweep (marked : List Nat) : List Nat → List Nat × List Nat
  | [] => ([], [])
  | o :: rest =>
    let (kept, freed) := sweep marked rest
    if o ∈ marked then (o :: kept, freed) else (kept, o :: freed)

/-- `tableRemoveWhite()`'s loop over the intern table's slots: delete every
entry whose key object is unmarked (`!entry->key->object.isMarked`). -/
def tableRemoveWhiteLoop (hashFn : Nat → Nat) (marked : List Nat) :
    Nat → Nat → Table → Option Table
  | _, 0, t => some t
  | i, fuel + 1, t =>
    match (slot t.entries i).key with
    | some k =>
      if k ∈ marked then tableRemoveWhiteLoop hashFn marked (i + 1) fuel t
      else
        match tableDelete hashFn t k with
        | none => none
        | some (t2, _) => tableRemoveWhiteLoop hashFn marked (i + 1) fuel t2
    | none => tableRemoveWhiteLoop hashFn marked (i + 1) fuel t

def tableRemoveWhite (hashFn : Nat → Nat) (marked : List Nat) (t : Table) :
    Option Table :=
  tableRemoveWhiteLoop hashFn marked 0 t.entries.length t

/-- The VM state the collector touches.  `strHash` is the hash field of the
interned strings (keys of `vm.strings`); `objSize` the bytes `freeObject`
releases for an object; `freed` logs every `freeObject` call. -/
structure GCHeap : Type where
  roots : VMRoots
  strings : Table
  strHash : Nat → Nat
  objects : List Nat
  refs : Nat → List LoxValue
  objSize : Nat → Nat
  marks : List Nat
  bytesAllocated : Nat
  nextGC : Nat
  freed : List Nat

/-- The running `bytesAllocated` total across the `freeObject` calls of a
sweep: each free is `reallocate(p, size, 0)`, i.e. `bytesAllocated +=
0 - size` in `size_t` arithmetic. -/
def freeBytes (size : Nat → Nat) (bytes : Nat) (os : List Nat) : Nat :=
  os.foldl (fun b o => (b + (2 ^ 64 - size o % 2 ^ 64)) % 2 ^ 64) bytes

/-- `collectGarbage()`: mark roots, trace, reconcile the weak intern table
(*before* sweep), sweep, then set `nextGC = bytesAllocated *
GC_HEAP_GROW_FACTOR`.  The trace fuel bounds the worklist iterations (each
pop is matched by a push, and there are at most `objects.length` pushes). -/
def collectGarbage (h : GCHeap) : Option GCHeap :=
  let ms1 := markRoots { marked := h.marks, gray := [] } h.roots
  let ms := traceReferences h.refs ms1
    (ms1.gray.length + 2 * h.objects.length + 1)
  match tableRemoveWhite h.strHash ms.marked h.strings with
  | none => none
  | some strings2 =>
    let swept := sweep ms.marked h.objects
    let bytes2 := freeBytes h.objSize h.bytesAllocated swept.2
    some { h with
      strings := strings2
      objects := swept.1
      marks := ms.marked.filter (fun o => decide (o ∉ h.objects))
      bytesAllocated := bytes2
      nextGC := bytes2 * 2 % 2 ^ 64
      freed := h.freed ++ swept.2 }

/-- `reallocate(pointer, oldSize, newSize)` (without `DEBUG_STRESS_GC`):
update `bytesAllocated` by `newSize - oldSize` in `size_t` arithmetic; when
`newSize > oldSize` and the new total exceeds `nextGC`, run a full
collection before the allocation proceeds.  Returns whether it collected. -/
def reallocate (h : GCHeap) (oldSize newSize : Nat) :
    Option (GCHeap × Bool) :=
  let bytes := (h.bytesAllocated + newSize + (2 ^ 64 - oldSize % 2 ^ 64))
    % 2 ^ 64
  let h := { h with bytesAllocated := bytes }
  if oldSize < newSize then
    if h.nextGC < h.bytesAllocated then
      (collectGarbage h).map (fun h2 => (h2, true))
    else some (h, false)
  else some (h, false)

/-- Reachability from the root set through `refs`. -/
inductive Reachable (refs : Nat → List LoxValue) (roots : List Nat) :
    Nat → Prop where
  | root {o : Nat} : o ∈ roots → Reachable refs roots o
  | step {o p : Nat} : Reachable refs roots o →
      LoxValue.object p ∈ refs o → Reachable refs roots p

/-- The object pointer of a value, if any. -/
def objPtr : LoxValue → Option Nat
  | .object p => some p
  | _ => none

/-- The values `markRoots` feeds to `markValue`/`markObject`, in order. -/
def rootValueList (r : VMRoots) : List LoxValue :=
  r.stack ++ r.frameClosures.map LoxValue.object
    ++ r.openUpvalues.map LoxValue.object
    ++ r.globals.entries.flatMap (fun e => [optValue e.key, e.value])
    ++ r.compilerFunctions.map optValue ++ [optValue r.initString]

/-- The object identities among the GC roots. -/
def rootObjects (r : VMRoots) : List Nat :=
  (rootValueList r).filterMap objPtr

/-!
### The mark phase computes exactly the reachable set
-/

/-- Effect of marking a list of values: a block `news` of newly marked
objects is pushed onto both the mark set and the gray stack; it covers
every object value of the list not already marked. -/
theorem markValues_spec (vs : List LoxValue) (ms : MarkState) :
    ∃ news : List Nat,
      (markValues ms vs).marked = news ++ ms.marked ∧
      (markValues ms vs).gray = news ++ ms.gray ∧
      news.Nodup ∧
      (∀ x ∈ news, x ∉ ms.marked) ∧
      (∀ x ∈ news, LoxValue.object x ∈ vs) ∧
      (∀ p, LoxValue.object p ∈ vs → p ∈ news ∨ p ∈ ms.marked) := by
  induction vs generalizing ms with
  | nil =>
    refine ⟨[], rfl, rfl, List.nodup_nil, ?_, ?_, ?_⟩ <;> simp
  | cons v vs ih =>
    have hstep : markValues ms (v :: vs) = markValues (markValue ms v) vs := rfl
    cases v with
    | nil =>
      obtain ⟨news, h1, h2, h3, h4, h5, h6⟩ := ih ms
      exact ⟨news, h1, h2, h3, h4,
        fun x hx => List.mem_cons_of_mem _ (h5 x hx),
        fun p hp => h6 p (by
          rcases List.mem_cons.1 hp with h | h
          · exact absurd h (by simp)
          · exact h)⟩
    | boolean b =>
      obtain ⟨news, h1, h2, h3, h4, h5, h6⟩ := ih ms
      exact ⟨news, h1, h2, h3, h4,
        fun x hx => List.mem_cons_of_mem _ (h5 x hx),
        fun p hp => h6 p (by
          rcases List.mem_cons.1 hp with h | h
          · exact absurd h (by simp)
          · exact h)⟩
    | number n =>
      obtain ⟨news, h1, h2, h3, h4, h5, h6⟩ := ih ms
      exact ⟨news, h1, h2, h3, h4,
        fun x hx => List.mem_cons_of_mem _ (h5 x hx),
        fun p hp => h6 p (by
          rcases List.mem_cons.1 hp with h | h
          · exact absurd h (by simp)
          · exact h)⟩
    | object q =>
      by_cases hq : q ∈ ms.marked
      · have hmv : markValue ms (LoxValue.object q) = ms := by
          simp [markValue, markObject, hq]
        rw [hstep, hmv]
        obtain ⟨news, h1, h2, h3, h4, h5, h6⟩ := ih ms
        refine ⟨news, h1, h2, h3, h4,
          fun x hx => List.mem_cons_of_mem _ (h5 x hx), ?_⟩
        intro p hp
        rcases List.mem_cons.1 hp with h | h
        · have : p = q := by injection h
          subst this
          exact Or.inr hq
        · exact h6 p h
      · have hmv : markValue ms (LoxValue.object q)
            = { marked := q :: ms.marked, gray := q :: ms.gray } := by
          simp [markValue, markObject, hq]
        rw [hstep, hmv]
        obtain ⟨news, h1, h2, h3, h4, h5, h6⟩ :=
          ih { marked := q :: ms.marked, gray := q :: ms.gray }
        refine ⟨news ++ [q], ?_, ?_, ?_, ?_, ?_, ?_⟩
        · rw [h1]
          exact List.append_cons news q ms.marked
        · rw [h2]
          exact List.append_cons news q ms.gray
        · rw [List.nodup_append]
          refine ⟨h3, List.nodup_singleton q, ?_⟩
          intro x hx hx2
          have : x = q := by simpa using hx2
          subst this
          exact (h4 x hx) (List.mem_cons_self _ _)
        · intro x hx
          rcases List.mem_append.1 hx with h | h
          · intro hxm
            exact (h4 x h) (List.mem_cons_of_mem _ hxm)
          · have : x = q := by simpa using h
            subst this
            exact hq
        · intro x hx
          rcases List.mem_append.1 hx with h | h
          · exact List.mem_cons_of_mem _ (h5 x h)
          · have : x = q := by simpa using h
            subst this
            exact List.mem_cons_self _ _
        · intro p hp
          rcases List.mem_cons.1 hp with h | h
          · have : p = q := by injection h
            subst this
            left
            simp
          · rcases h6 p h with h2 | h2
            · left
              exact List.mem_append_left _ h2
            · rcases List.mem_cons.1 h2 with h3 | h3
              · subst h3
                left
                simp
              · exact Or.inr h3

theorem markObject_eq_markValue (ms : MarkState) (o : Option Nat) :
    markObject ms o = markValue ms (optValue o) := by
  cases o <;> rfl

theorem markValues_append (ms : MarkState) (vs ws : List LoxValue) :
    markValues ms (vs ++ ws) = markValues (markValues ms vs) ws :=
  List.foldl_append _ _ _ _

theorem foldl_markObject_some (ms : MarkState) (l : List Nat) :
    l.foldl (fun ms c => markObject ms (some c)) ms
      = markValues ms (l.map LoxValue.object) := by
  unfold markValues
  rw [List.foldl_map]
  rfl

theorem foldl_markObject_opt (ms : MarkState) (l : List (Option Nat)) :
    l.foldl markObject ms = markValues ms (l.map optValue) := by
  induction l generalizing ms with
  | nil => rfl
  | cons o rest ih =>
    show rest.foldl markObject (markObject ms o)
      = markValues (markValue ms (optValue o)) (rest.map optValue)
    rw [← markObject_eq_markValue]
    exact ih _

theorem markTable_eq (ms : MarkState) (t : Table) :
    markTable ms t
      = markValues ms
          (t.entries.flatMap (fun e => [optValue e.key, e.value])) := by
  unfold markTable
  generalize t.entries = es
  induction es generalizing ms with
  | nil => rfl
  | cons e rest ih =>
    rw [List.flatMap_cons, List.foldl_cons]
    show List.foldl (fun ms e => markValue (markObject ms e.key) e.value)
        (markValue (markObject ms e.key) e.value) rest
      = markValues (markValue (markValue ms (optValue e.key)) e.value)
          (rest.flatMap (fun e => [optValue e.key, e.value]))
    rw [← markObject_eq_markValue]
    exact ih _

theorem markValues_single_opt (ms : MarkState) (o : Option Nat) :
    markValues ms [optValue o] = markObject ms o := by
  show markValue ms (optValue o) = markObject ms o
  exact (markObject_eq_markValue ms o).symm

/-- `markRoots` is one `markValues` pass over `rootValueList`. -/
theorem markRoots_eq (ms : MarkState) (r : VMRoots) :
    markRoots ms r = markValues ms (rootValueList r) := by
  unfold rootValueList
  rw [markValues_append, markValues_append, markValues_append,
    markValues_append, markValues_append]
  rw [markValues_single_opt, ← markTable_eq, ← foldl_markObject_opt,
    ← foldl_markObject_some, ← foldl_markObject_some]
  rfl

theorem mem_rootObjects_iff (r : VMRoots) (p : Nat) :
    p ∈ rootObjects r ↔ LoxValue.object p ∈ rootValueList r := by
  unfold rootObjects
  rw [List.mem_filterMap]
  constructor
  · rintro ⟨v, hv, hvp⟩
    cases v <;> simp [objPtr] at hvp
    subst hvp
    exact hv
  · intro h
    exact ⟨LoxValue.object p, h, rfl⟩

/-- The invariant of the mark worklist. -/
structure MarkInv (refs : Nat → List LoxValue) (roots U : List Nat)
    (ms : MarkState) : Prop where
  nodup : ms.marked.Nodup
  graysub : ∀ o ∈ ms.gray, o ∈ ms.marked
  graynodup : ms.gray.Nodup
  sub : ∀ o ∈ ms.marked, o ∈ U
  sound : ∀ o ∈ ms.marked, Reachable refs roots o
  rootsIn : ∀ o ∈ roots, o ∈ ms.marked
  black : ∀ o ∈ ms.marked, o ∉ ms.gray →
    ∀ p, LoxValue.object p ∈ refs o → p ∈ ms.marked

/-- The trace loop drains the worklist within its fuel and preserves the
invariant (each iteration pops one gray object; every push marks a new
object of the closed universe `U`). -/
theorem traceReferences_spec (refs : Nat → List LoxValue) (roots U : List Nat)
    (hclosed : ∀ o ∈ U, ∀ p, LoxValue.object p ∈ refs o → p ∈ U) :
    ∀ fuel ms, MarkInv refs roots U ms →
      ms.gray.length + 2 * (U.length - ms.marked.length) < fuel →
      (traceReferences refs ms fuel).gray = [] ∧
      MarkInv refs roots U (traceReferences refs ms fuel) := by
  intro fuel
  induction fuel with
  | zero => intro ms hInv hm; omega
  | succ fuel ih =>
    intro ms hInv hm
    match hg : ms.gray with
    | [] =>
      have : traceReferences refs ms (fuel + 1) = ms := by
        unfold traceReferences
        rw [hg]
      rw [this]
      exact ⟨hg, hInv⟩
    | o :: rest =>
      have hstep : traceReferences refs ms (fuel + 1)
          = traceReferences refs
              (blackenObject refs { marked := ms.marked, gray := rest } o)
              fuel := by
        conv_lhs => rw [traceReferences]
        rw [hg]
      rw [hstep]
      have homark : o ∈ ms.marked := hInv.graysub o (by rw [hg]; simp)
      have hoU : o ∈ U := hInv.sub o homark
      have horeach : Reachable refs roots o := hInv.sound o homark
      obtain ⟨news, h1, h2, h3, h4, h5, h6⟩ :=
        markValues_spec (refs o) { marked := ms.marked, gray := rest }
      have hrestsub : ∀ x ∈ rest, x ∈ ms.marked := by
        intro x hx
        exact hInv.graysub x (by rw [hg]; exact List.mem_cons_of_mem _ hx)
      have hrestnodup : rest.Nodup := by
        have := hInv.graynodup
        rw [hg] at this
        exact this.of_cons
      have honotrest : o ∉ rest := by
        have := hInv.graynodup
        rw [hg] at this
        exact (List.nodup_cons.1 this).1
      have hInv2 : MarkInv refs roots U
          (blackenObject refs { marked := ms.marked, gray := rest } o) := by
        constructor
        · rw [show (blackenObject refs { marked := ms.marked, gray := rest } o).marked
            = news ++ ms.marked from h1]
          rw [List.nodup_append]
          exact ⟨h3, hInv.nodup, fun x hx hx2 => (h4 x hx) hx2⟩
        · intro x hx
          rw [show (blackenObject refs { marked := ms.marked, gray := rest } o).gray
            = news ++ rest from h2] at hx
          rw [show (blackenObject refs { marked := ms.marked, gray := rest } o).marked
            = news ++ ms.marked from h1]
          rcases List.mem_append.1 hx with h | h
          · exact List.mem_append_left _ h
          · exact List.mem_append_right _ (hrestsub x h)
        · rw [show (blackenObject refs { marked := ms.marked, gray := rest } o).gray
            = news ++ rest from h2]
          rw [List.nodup_append]
          exact ⟨h3, hrestnodup,
            fun x hx hx2 => (h4 x hx) (hrestsub x hx2)⟩
        · intro x hx
          rw [show (blackenObject refs { marked := ms.marked, gray := rest } o).marked
            = news ++ ms.marked from h1] at hx
          rcases List.mem_append.1 hx with h | h
          · exact hclosed o hoU x (h5 x h)
          · exact hInv.sub x h
        · intro x hx
          rw [show (blackenObject refs { marked := ms.marked, gray := rest } o).marked
            = news ++ ms.marked from h1] at hx
          rcases List.mem_append.1 hx with h | h
          · exact Reachable.step horeach (h5 x h)
          · exact hInv.sound x h
        · intro x hx
          rw [show (blackenObject refs { marked := ms.marked, gray := rest } o).marked
            = news ++ ms.marked from h1]
          exact List.mem_append_right _ (hInv.rootsIn x hx)
        · intro q hq hqg p hp
          rw [show (blackenObject refs { marked := ms.marked, gray := rest } o).marked
            = news ++ ms.marked from h1] at hq ⊢
          rw [show (blackenObject refs { marked := ms.marked, gray := rest } o).gray
            = news ++ rest from h2] at hqg
          by_cases hqo : q = o
          · subst hqo
            rcases h6 p hp with h | h
            · exact List.mem_append_left _ h
            · exact List.mem_append_right _ h
          · rcases List.mem_append.1 hq with h | h
            · exact absurd (List.mem_append_left rest h) hqg
            · have hqgold : q ∉ ms.gray := by
                rw [hg]
                intro hmem
                rcases List.mem_cons.1 hmem with h2 | h2
                · exact hqo h2
                · exact hqg (List.mem_append_right _ h2)
              have := hInv.black q h hqgold p hp
              exact List.mem_append_right _ this
      refine ih _ hInv2 ?_
      have hlen1 : (blackenObject refs { marked := ms.marked, gray := rest } o).marked.length
          = news.length + ms.marked.length := by
        rw [show (blackenObject refs { marked := ms.marked, gray := rest } o).marked
          = news ++ ms.marked from h1, List.length_append]
      have hlen2 : (blackenObject refs { marked := ms.marked, gray := rest } o).gray.length
          = news.length + rest.length := by
        rw [show (blackenObject refs { marked := ms.marked, gray := rest } o).gray
          = news ++ rest from h2, List.length_append]
      have hmarkedle : news.length + ms.marked.length ≤ U.length := by
        have hnd : (news ++ ms.marked).Nodup := by
          rw [List.nodup_append]
          exact ⟨h3, hInv.nodup, fun x hx hx2 => (h4 x hx) hx2⟩
        have hsub2 : news ++ ms.marked ⊆ U := by
          intro x hx
          rcases List.mem_append.1 hx with h | h
          · exact hclosed o hoU x (h5 x h)
          · exact hInv.sub x h
        have := (List.subperm_of_subset hnd hsub2).length_le
        rw [List.length_append] at this
        exact this
      rw [hlen1, hlen2]
      rw [hg] at hm
      simp only [List.length_cons] at hm
      omega

/-- After the gray stack is drained, the mark set is exactly the reachable
set. -/
theorem marked_iff_reachable (refs : Nat → List LoxValue) (roots U : List Nat)
    (ms : MarkState) (hInv : MarkInv refs roots U ms) (hg : ms.gray = []) :
    ∀ o, o ∈ ms.marked ↔ Reachable refs roots o := by
  intro o
  constructor
  · exact hInv.sound o
  · intro h
    induction h with
    | root hr => exact hInv.rootsIn _ hr
    | step hreach hp ih =>
      exact hInv.black _ ih (by rw [hg]; exact List.not_mem_nil _) _ hp

/-- The complete mark phase, with exactly the fuel `collectGarbage` uses:
starting with no marks, `markRoots` then `traceReferences` drains the
worklist, and the resulting mark set is duplicate-free and holds exactly
the objects reachable from the root set. -/
theorem mark_phase_spec (refs : Nat → List LoxValue) (r : VMRoots)
    (U : List Nat)
    (hroots : ∀ o ∈ rootObjects r, o ∈ U)
    (hclosed : ∀ o ∈ U, ∀ p, LoxValue.object p ∈ refs o → p ∈ U) :
    (traceReferences refs (markRoots { marked := [], gray := [] } r)
        ((markRoots { marked := [], gray := [] } r).gray.length
          + 2 * U.length + 1)).gray = [] ∧
    (traceReferences refs (markRoots { marked := [], gray := [] } r)
        ((markRoots { marked := [], gray := [] } r).gray.length
          + 2 * U.length + 1)).marked.Nodup ∧
    ∀ o, o ∈ (traceReferences refs (markRoots { marked := [], gray := [] } r)
        ((markRoots { marked := [], gray := [] } r).gray.length
          + 2 * U.length + 1)).marked
      ↔ Reachable refs (rootObjects r) o := by
  obtain ⟨news, h1, h2, h3, h4, h5, h6⟩ :=
    markValues_spec (rootValueList r) { marked := [], gray := [] }
  have hm1 : (markRoots { marked := [], gray := [] } r).marked = news := by
    rw [markRoots_eq]
    rw [show (markValues { marked := [], gray := [] } (rootValueList r)).marked
      = news ++ [] from h1, List.append_nil]
  have hg1 : (markRoots { marked := [], gray := [] } r).gray = news := by
    rw [markRoots_eq]
    rw [show (markValues { marked := [], gray := [] } (rootValueList r)).gray
      = news ++ [] from h2, List.append_nil]
  have hInv : MarkInv refs (rootObjects r) U
      (markRoots { marked := [], gray := [] } r) := by
    constructor
    · rw [hm1]
      exact h3
    · intro o ho
      rw [hm1]
      rw [hg1] at ho
      exact ho
    · rw [hg1]
      exact h3
    · intro o ho
      rw [hm1] at ho
      exact hroots o ((mem_rootObjects_iff r o).2 (h5 o ho))
    · intro o ho
      rw [hm1] at ho
      exact Reachable.root ((mem_rootObjects_iff r o).2 (h5 o ho))
    · intro o ho
      rw [hm1]
      rcases h6 o ((mem_rootObjects_iff r o).1 ho) with h | h
      · exact h
      · exact absurd h (List.not_mem_nil o)
    · intro o ho hog
      rw [hm1] at ho
      rw [hg1] at hog
      exact absurd ho hog
  have hfuel : (markRoots { marked := [], gray := [] } r).gray.length
      + 2 * (U.length - (markRoots { marked := [], gray := [] } r).marked.length)
      < (markRoots { marked := [], gray := [] } r).gray.length
          + 2 * U.length + 1 := by
    omega
  obtain ⟨hga, hInv2⟩ :=
    traceReferences_spec refs (rootObjects r) U hclosed _ _ hInv hfuel
  exact ⟨hga, hInv2.nodup, marked_iff_reachable refs _ U _ hInv2 hga⟩

theorem sweep_cons (marked : List Nat) (o : Nat) (rest : List Nat) :
    sweep marked (o :: rest)
      = if o ∈ marked
          then (o :: (sweep marked rest).1, (sweep marked rest).2)
          else ((sweep marked rest).1, o :: (sweep marked rest).2) := rfl

/-- `sweep` keeps exactly the marked objects (in list order) and frees
exactly the unmarked ones. -/
theorem sweep_spec (marked : List Nat) (os : List Nat) :
    (sweep marked os).1 = os.filter (fun o => decide (o ∈ marked)) ∧
    (sweep marked os).2 = os.filter (fun o => decide (o ∉ marked)) := by
  induction os with
  | nil => exact ⟨rfl, rfl⟩
  | cons o rest ih =>
    by_cases h : o ∈ marked
    · rw [sweep_cons, if_pos h]
      constructor
      · show o :: (sweep marked rest).1 = _
        rw [List.filter_cons]
        simp only [h, decide_True, if_true]
        rw [ih.1]
      · show (sweep marked rest).2 = _
        rw [List.filter_cons]
        simp only [h, not_true, decide_False]
        rw [ih.2]
        simp
    · rw [sweep_cons, if_neg h]
      constructor
      · show (sweep marked rest).1 = _
        rw [List.filter_cons]
        simp only [h, decide_False]
        rw [ih.1]
        simp
      · show o :: (sweep marked rest).2 = _
        rw [List.filter_cons]
        simp only [h, not_false_iff, decide_True, if_true]
        rw [ih.2]

theorem countOccupied_pos_of_key (es : List Entry) (j k : Nat)
    (hj : j < es.length) (hkey : (slot es j).key = some k) :
    0 < countOccupied es := by
  have hmem : slot es j ∈ es := slot_mem es j hj
  have hne : ¬ isEmptySlot (slot es j) := by
    intro h
    rw [h.1] at hkey
    exact Option.noConfusion hkey
  have hmem2 : slot es j ∈ es.filter (fun e => !(decide (isEmptySlot e))) :=
    List.mem_filter.2 ⟨hmem, by simp [hne]⟩
  show 0 < (es.filter (fun e => !(decide (isEmptySlot e)))).length
  exact List.length_pos_of_mem hmem2

theorem slot_oob (es : List Entry) (i : Nat) (h : ¬ i < es.length) :
    slot es i = emptyEntry := by
  unfold slot
  rw [List.getD_eq_getElem?_getD, List.getElem?_eq_none (by omega)]
  rfl

/-- `tableDelete` on a key stored at slot `j` tombstones exactly slot `j`
and preserves the invariant. -/
theorem tableDelete_present_eq (hashFn : Nat → Nat) (t : Table) (k j : Nat)
    (hInv : TableInvA hashFn t) (hj : j < t.entries.length)
    (hkey : (slot t.entries j).key = some k) :
    tableDelete hashFn t k
      = some ({ t with entries := t.entries.set j tombstoneEntry }, true) ∧
    TableInvA hashFn { t with entries := t.entries.set j tombstoneEntry } := by
  obtain ⟨K, hK, hpow⟩ := hInv.pow
  have hc : ¬ t.count = 0 := by
    have := countOccupied_pos_of_key t.entries j k hj hkey
    rw [hInv.cnt]
    omega
  have hcap : t.capacity.toNat = 2 ^ K - 1 := by
    rw [hInv.cap, hpow]
    omega
  have hfe : findEntry hashFn t.entries t.capacity.toNat k = some j := by
    rw [hcap]
    exact findEntry_present hashFn t.entries K hpow hInv.inv k j hj hkey
  have htombne : ¬ isEmptySlot tombstoneEntry := by
    intro h
    exact LoxValue.noConfusion h.2
  have hcnt2 : countOccupied (t.entries.set j tombstoneEntry)
      = countOccupied t.entries := by
    have hset := countOccupied_set t.entries j tombstoneEntry hj
    have h1 : ¬ isEmptySlot (slot t.entries j) := by
      intro h
      rw [h.1] at hkey
      exact Option.noConfusion hkey
    rw [if_neg h1, if_neg htombne] at hset
    omega
  refine ⟨?_, ?_⟩
  · rw [tableDelete_found hashFn t k j hc hfe, hkey]
  · refine
      { pow := ⟨K, hK, ?_⟩
        cap := ?_
        cnt := ?_
        load := ?_
        inv := entriesInv_write_tombstone hashFn t.entries hInv.inv j hj }
    · show (t.entries.set j tombstoneEntry).length = 2 ^ K
      rw [List.length_set]
      exact hpow
    · show t.capacity = ((t.entries.set j tombstoneEntry).length : Int) - 1
      rw [List.length_set]
      exact hInv.cap
    · show t.count = countOccupied (t.entries.set j tombstoneEntry)
      rw [hcnt2]
      exact hInv.cnt
    · show 4 * t.count ≤ 3 * (t.entries.set j tombstoneEntry).length
      rw [List.length_set]
      exact hInv.load

/-- One-step unfolding of the `tableRemoveWhite` loop. -/
theorem tableRemoveWhiteLoop_succ (hashFn : Nat → Nat) (marked : List Nat)
    (i fuel : Nat) (t : Table) :
    tableRemoveWhiteLoop hashFn marked i (fuel + 1) t =
      match (slot t.entries i).key with
      | some k =>
        if k ∈ marked then tableRemoveWhiteLoop hashFn marked (i + 1) fuel t
        else
          match tableDelete hashFn t k with
          | none => none
          | some (t2, _) => tableRemoveWhiteLoop hashFn marked (i + 1) fuel t2
      | none => tableRemoveWhiteLoop hashFn marked (i + 1) fuel t := rfl

/-- The `tableRemoveWhite` loop: it succeeds, never introduces keys, leaves
no unmarked key in any processed slot, and keeps marked keys' bindings. -/
theorem tableRemoveWhiteLoop_spec (hashFn : Nat → Nat) (marked : List Nat) :
    ∀ fuel i t, TableOk hashFn t →
      ∃ t2, tableRemoveWhiteLoop hashFn marked i fuel t = some t2 ∧
        TableOk hashFn t2 ∧
        t2.entries.length = t.entries.length ∧
        (∀ j k, (slot t2.entries j).key = some k →
          (slot t.entries j).key = some k) ∧
        (∀ j, i ≤ j → j < i + fuel →
          ∀ k, (slot t2.entries j).key = some k → k ∈ marked) ∧
        (∀ k ∈ marked, absTable t2.entries k = absTable t.entries k) := by
  intro fuel
  induction fuel with
  | zero =>
    intro i t hOk
    exact ⟨t, rfl, hOk, rfl, fun j k h => h,
      fun j h1 h2 => absurd h2 (by omega), fun k _ => rfl⟩
  | succ fuel ih =>
    intro i t hOk
    match hki : (slot t.entries i).key with
    | none =>
      obtain ⟨t2, heq, hOk2, hlen, hanti, hproc, habs⟩ := ih (i + 1) t hOk
      refine ⟨t2, ?_, hOk2, hlen, hanti, ?_, habs⟩
      · rw [tableRemoveWhiteLoop_succ, hki]
        exact heq
      · intro j hij1 hij2 k hk
        by_cases hji : j = i
        · subst hji
          rw [hanti j k hk] at hki
          exact Option.noConfusion hki
        · exact hproc j (by omega) (by omega) k hk
    | some k0 =>
      by_cases hk0 : k0 ∈ marked
      · obtain ⟨t2, heq, hOk2, hlen, hanti, hproc, habs⟩ := ih (i + 1) t hOk
        refine ⟨t2, ?_, hOk2, hlen, hanti, ?_, habs⟩
        · rw [tableRemoveWhiteLoop_succ, hki]
          simp only [hk0, if_true]
          exact heq
        · intro j hij1 hij2 k hk
          by_cases hji : j = i
          · subst hji
            have hkk := hanti j k hk
            rw [hki] at hkk
            injection hkk with hkk2
            rw [← hkk2]
            exact hk0
          · exact hproc j (by omega) (by omega) k hk
      · have hInvA : TableInvA hashFn t := by
          rcases hOk with rfl | hInvA
          · rw [show slot initTable.entries i = emptyEntry from
              slot_oob _ i (by simp [initTable])] at hki
            exact Option.noConfusion hki
          · exact hInvA
        have hi : i < t.entries.length := by
          by_contra hge
          rw [slot_oob t.entries i hge] at hki
          exact Option.noConfusion hki
        obtain ⟨hdel, hInv2⟩ :=
          tableDelete_present_eq hashFn t k0 i hInvA hi hki
        obtain ⟨t2, heq, hOk2, hlen, hanti, hproc, habs⟩ :=
          ih (i + 1) { t with entries := t.entries.set i tombstoneEntry }
            (Or.inr hInv2)
        refine ⟨t2, ?_, hOk2, ?_, ?_, ?_, ?_⟩
        · rw [tableRemoveWhiteLoop_succ, hki]
          simp only [hk0, if_false]
          rw [hdel]
          exact heq
        · rw [hlen]
          exact List.length_set t.entries i tombstoneEntry
        · intro j k hk
          have h1 := hanti j k hk
          by_cases hji : j = i
          · subst hji
            rw [show slot (t.entries.set j tombstoneEntry) j
              = tombstoneEntry from slot_set_eq t.entries j _ hi] at h1
            exact absurd h1 (Option.noConfusion)
          · rwa [show slot (t.entries.set i tombstoneEntry) j
              = slot t.entries j from
              slot_set_ne t.entries i j _ (fun h => hji h.symm)] at h1
        · intro j hij1 hij2 k hk
          by_cases hji : j = i
          · subst hji
            have h1 := hanti j k hk
            rw [show slot (t.entries.set j tombstoneEntry) j
              = tombstoneEntry from slot_set_eq t.entries j _ hi] at h1
            exact absurd h1 (Option.noConfusion)
          · exact hproc j (by omega) (by omega) k hk
        · intro k hk
          rw [habs k hk]
          show absTable (t.entries.set i tombstoneEntry) k
            = absTable t.entries k
          refine absTable_set_other t.entries i tombstoneEntry k ?_ ?_
          · rw [hki]
            intro h
            injection h with hkk
            exact hk0 (hkk ▸ hk)
          · exact fun h => Option.noConfusion h

/-- `tableRemoveWhite`: succeeds on reachable tables; afterwards every
retained key is marked, and every marked key keeps its binding. -/
theorem tableRemoveWhite_spec (hashFn : Nat → Nat) (marked : List Nat)
    (t : Table) (hOk : TableOk hashFn t) :
    ∃ t2, tableRemoveWhite hashFn marked t = some t2 ∧
      TableOk hashFn t2 ∧
      (∀ k, absTable t2.entries k ≠ none → k ∈ marked) ∧
      (∀ k ∈ marked, absTable t2.entries k = absTable t.entries k) := by
  obtain ⟨t2, heq, hOk2, hlen, hanti, hproc, habs⟩ :=
    tableRemoveWhiteLoop_spec hashFn marked t.entries.length 0 t hOk
  refine ⟨t2, heq, hOk2, ?_, habs⟩
  intro k hk
  match hv : absTable t2.entries k with
  | none => exact absurd hv hk
  | some v =>
    obtain ⟨j, hj, hslot⟩ := absTable_some_elim t2.entries k v hv
    refine hproc j (Nat.zero_le j) ?_ k (by rw [hslot])
    rw [hlen] at hj
    omega

/-- Well-formedness of the heap at a GC safe point: no stale marks, a
duplicate-free object list, roots and references staying on the object
list, and a reachable intern-table state. -/
structure HeapWF (h : GCHeap) : Prop where
  marksEmpty : h.marks = []
  objNodup : h.objects.Nodup
  rootsIn : ∀ o ∈ rootObjects h.roots, o ∈ h.objects
  refsClosed : ∀ o ∈ h.objects, ∀ p,
    LoxValue.object p ∈ h.refs o → p ∈ h.objects
  stringsOk : TableOk h.strHash h.strings

theorem reachable_in_objects (refs : Nat → List LoxValue)
    (roots U : List Nat) (hroots : ∀ o ∈ roots, o ∈ U)
    (hclosed : ∀ o ∈ U, ∀ p, LoxValue.object p ∈ refs o → p ∈ U)
    (o : Nat) (h : Reachable refs roots o) : o ∈ U := by
  induction h with
  | root hr => exact hroots _ hr
  | step hreach hp ih => exact hclosed _ ih _ hp

/-- Everything `collectGarbage` does, on a well-formed heap: it succeeds;
the mark set it computes is exactly the reachable set; the object list
keeps exactly the marked objects (in order) and the freed log gains exactly
the unmarked ones; all marks are cleared; the intern table survives as a
reachable table holding only marked keys with unchanged bindings; and
`nextGC` is the new `bytesAllocated` doubled. -/
theorem collectGarbage_spec (h : GCHeap) (hWF : HeapWF h) :
    ∃ (h2 : GCHeap) (marked : List Nat), collectGarbage h = some h2 ∧
      (∀ o, o ∈ marked ↔ Reachable h.refs (rootObjects h.roots) o) ∧
      marked.Nodup ∧
      h2.objects = h.objects.filter (fun o => decide (o ∈ marked)) ∧
      h2.freed = h.freed ++ h.objects.filter (fun o => decide (o ∉ marked)) ∧
      h2.marks = [] ∧
      TableOk h.strHash h2.strings ∧
      (∀ k, absTable h2.strings.entries k ≠ none → k ∈ marked) ∧
      (∀ k ∈ marked,
        absTable h2.strings.entries k = absTable h.strings.entries k) ∧
      h2.nextGC = h2.bytesAllocated * 2 % 2 ^ 64 ∧
      h2.roots = h.roots ∧ h2.strHash = h.strHash ∧ h2.refs = h.refs ∧
      h2.objSize = h.objSize := by
  obtain ⟨hgray, hnodup, hiff⟩ :=
    mark_phase_spec h.refs h.roots h.objects hWF.rootsIn hWF.refsClosed
  obtain ⟨strings2, htrw, hOk2, hkeys, hbind⟩ :=
    tableRemoveWhite_spec h.strHash
      (traceReferences h.refs (markRoots { marked := [], gray := [] } h.roots)
        ((markRoots { marked := [], gray := [] } h.roots).gray.length
          + 2 * h.objects.length + 1)).marked
      h.strings hWF.stringsOk
  have hcg : collectGarbage h =
      match tableRemoveWhite h.strHash
          (traceReferences h.refs
            (markRoots { marked := [], gray := [] } h.roots)
            ((markRoots { marked := [], gray := [] } h.roots).gray.length
              + 2 * h.objects.length + 1)).marked h.strings with
      | none => none
      | some strings2 =>
        some { h with
          strings := strings2
          objects := (sweep (traceReferences h.refs
            (markRoots { marked := [], gray := [] } h.roots)
            ((markRoots { marked := [], gray := [] } h.roots).gray.length
              + 2 * h.objects.length + 1)).marked h.objects).1
          marks := (traceReferences h.refs
            (markRoots { marked := [], gray := [] } h.roots)
            ((markRoots { marked := [], gray := [] } h.roots).gray.length
              + 2 * h.objects.length + 1)).marked.filter
              (fun o => decide (o ∉ h.objects))
          bytesAllocated := freeBytes h.objSize h.bytesAllocated
            (sweep (traceReferences h.refs
              (markRoots { marked := [], gray := [] } h.roots)
              ((markRoots { marked := [], gray := [] } h.roots).gray.length
                + 2 * h.objects.length + 1)).marked h.objects).2
          nextGC := freeBytes h.objSize h.bytesAllocated
            (sweep (traceReferences h.refs
              (markRoots { marked := [], gray := [] } h.roots)
              ((markRoots { marked := [], gray := [] } h.roots).gray.length
                + 2 * h.objects.length + 1)).marked h.objects).2 * 2 % 2 ^ 64
          freed := h.freed ++ (sweep (traceReferences h.refs
            (markRoots { marked := [], gray := [] } h.roots)
            ((markRoots { marked := [], gray := [] } h.roots).gray.length
              + 2 * h.objects.length + 1)).marked h.objects).2 } := by
    unfold collectGarbage
    rw [hWF.marksEmpty]
  rw [hcg]
  rw [htrw]
  refine ⟨_, (traceReferences h.refs
      (markRoots { marked := [], gray := [] } h.roots)
      ((markRoots { marked := [], gray := [] } h.roots).gray.length
        + 2 * h.objects.length + 1)).marked,
    rfl, hiff, hnodup, ?_, ?_, ?_, hOk2, hkeys, hbind, rfl, rfl, rfl, rfl,
    rfl⟩
  · exact (sweep_spec _ h.objects).1
  · show h.freed ++ _ = h.freed ++ _
    rw [(sweep_spec _ h.objects).2]
  · show List.filter _ _ = []
    rw [List.filter_eq_nil]
    intro o ho
    have hreach := (hiff o).1 ho
    have hin := reachable_in_objects h.refs (rootObjects h.roots) h.objects
      hWF.rootsIn hWF.refsClosed o hreach
    simp [hin]

/-- C2: after any run of `collectGarbage` on a well-formed heap, every
object reachable from the GC roots (stack, frame closures, open upvalues,
globals, compiler chain, cached `init` string) is still on the object list
exactly once and is not freed; every unreachable object is off the list
and appears exactly once in the newly freed log; and every mark bit is
clear on exit, hence also on entry to the next collection. -/
theorem C2_collect_reclaims_unreachable (h : GCHeap) (hWF : HeapWF h) :
    ∃ h2, collectGarbage h = some h2 ∧
      (∀ o ∈ h.objects,
        (Reachable h.refs (rootObjects h.roots) o →
          h2.objects.count o = 1 ∧ o ∉ h2.freed.drop h.freed.length) ∧
        (¬ Reachable h.refs (rootObjects h.roots) o →
          o ∉ h2.objects ∧ (h2.freed.drop h.freed.length).count o = 1)) ∧
      h2.marks = [] := by
  obtain ⟨h2, marked, hcg, hiff, hnodup, hobj, hfree, hmarks, _, _, _, _, _,
    _, _, _⟩ := collectGarbage_spec h hWF
  refine ⟨h2, hcg, ?_, hmarks⟩
  have hdrop : h2.freed.drop h.freed.length
      = h.objects.filter (fun o => decide (o ∉ marked)) := by
    rw [hfree, List.drop_left]
  intro o ho
  constructor
  · intro hreach
    have hom : o ∈ marked := (hiff o).2 hreach
    constructor
    · rw [hobj]
      refine List.count_eq_one_of_mem (hWF.objNodup.filter _) ?_
      exact List.mem_filter.2 ⟨ho, by simpa using hom⟩
    · rw [hdrop]
      intro hmem
      have h2f := (List.mem_filter.1 hmem).2
      simp at h2f
      exact h2f hom
  · intro hnr
    have hom : o ∉ marked := fun hm => hnr ((hiff o).1 hm)
    constructor
    · rw [hobj]
      intro hmem
      have h2f := (List.mem_filter.1 hmem).2
      simp at h2f
      exact hom h2f
    · rw [hdrop]
      refine List.count_eq_one_of_mem (hWF.objNodup.filter _) ?_
      exact List.mem_filter.2 ⟨ho, by simpa using hom⟩

/-- C4: `collectGarbage` reconciles the weak intern table after the mark
phase and before the sweep frees anything: every retained intern entry's
key is reachable and is not freed by the following sweep, and every
reachable key keeps its binding. -/
theorem C4_intern_weak_refs (h : GCHeap) (hWF : HeapWF h) :
    ∃ h2, collectGarbage h = some h2 ∧
      (∀ k, absTable h2.strings.entries k ≠ none →
        Reachable h.refs (rootObjects h.roots) k ∧
          k ∉ h2.freed.drop h.freed.length) ∧
      (∀ k, Reachable h.refs (rootObjects h.roots) k →
        absTable h2.strings.entries k = absTable h.strings.entries k) := by
  obtain ⟨h2, marked, hcg, hiff, hnodup, hobj, hfree, hmarks, hok, hkeys,
    hbind, _, _, _, _, _⟩ := collectGarbage_spec h hWF
  refine ⟨h2, hcg, ?_, ?_⟩
  · intro k hk
    have hkm := hkeys k hk
    refine ⟨(hiff k).1 hkm, ?_⟩
    rw [hfree, List.drop_left]
    intro hmem
    have h2f := (List.mem_filter.1 hmem).2
    simp at h2f
    exact h2f hkm
  · intro k hreach
    exact hbind k ((hiff k).2 hreach)

/-- `bytesAllocated += newSize - oldSize` in `size_t` arithmetic. -/
def bumpBytes (h : GCHeap) (oldSize newSize : Nat) : GCHeap :=
  { h with bytesAllocated :=
      (h.bytesAllocated + newSize + (2 ^ 64 - oldSize % 2 ^ 64)) % 2 ^ 64 }

/-- Unfolding `reallocate`'s guards. -/
theorem reallocate_eq (h : GCHeap) (oldSize newSize : Nat) :
    reallocate h oldSize newSize =
      if oldSize < newSize then
        if (bumpBytes h oldSize newSize).nextGC
            < (bumpBytes h oldSize newSize).bytesAllocated then
          (collectGarbage (bumpBytes h oldSize newSize)).map
            (fun h2 => (h2, true))
        else some (bumpBytes h oldSize newSize, false)
      else some (bumpBytes h oldSize newSize, false) := rfl

/-- C5: a collection is entered exactly on the `reallocate` calls where
`newSize > oldSize` and the updated running total `bytesAllocated` exceeds
`nextGC`; it then runs to completion before the call returns, and leaves
`nextGC = bytesAllocated * 2`; on every other call only `bytesAllocated`
changes. -/
theorem C5_gc_trigger (h : GCHeap) (hWF : HeapWF h) (oldSize newSize : Nat) :
    ∃ h2 didCollect, reallocate h oldSize newSize = some (h2, didCollect) ∧
      (didCollect = true ↔ oldSize < newSize ∧
        h.nextGC < (bumpBytes h oldSize newSize).bytesAllocated) ∧
      (didCollect = true → h2.nextGC = h2.bytesAllocated * 2 % 2 ^ 64) ∧
      (didCollect = false → h2 = bumpBytes h oldSize newSize) := by
  by_cases hlt : oldSize < newSize
  · by_cases htrig : (bumpBytes h oldSize newSize).nextGC
        < (bumpBytes h oldSize newSize).bytesAllocated
    · have hWF2 : HeapWF (bumpBytes h oldSize newSize) :=
        ⟨hWF.marksEmpty, hWF.objNodup, hWF.rootsIn, hWF.refsClosed,
          hWF.stringsOk⟩
      obtain ⟨h2, marked, hcg, _, _, _, _, _, _, _, _, hngc, _, _, _, _⟩ :=
        collectGarbage_spec (bumpBytes h oldSize newSize) hWF2
      refine ⟨h2, true, ?_, ?_, fun _ => hngc,
        fun hf => Bool.noConfusion hf⟩
      · rw [reallocate_eq, if_pos hlt, if_pos htrig, hcg]
        rfl
      · exact ⟨fun _ => ⟨hlt, htrig⟩, fun _ => rfl⟩
    · refine ⟨bumpBytes h oldSize newSize, false, ?_, ?_,
        fun hf => Bool.noConfusion hf, fun _ => rfl⟩
      · rw [reallocate_eq, if_pos hlt, if_neg htrig]
      · constructor
        · intro hf
          exact Bool.noConfusion hf
        · rintro ⟨_, ht⟩
          exact absurd ht htrig
  · refine ⟨bumpBytes h oldSize newSize, false, ?_, ?_,
      fun hf => Bool.noConfusion hf, fun _ => rfl⟩
    · rw [reallocate_eq, if_neg hlt]
    · constructor
      · intro hf
        exact Bool.noConfusion hf
      · rintro ⟨hl, _⟩
        exact absurd hl hlt

def c2WitnessRoots : VMRoots where
  stack := [LoxValue.object 1]
  frameClosures := []
  openUpvalues := []
  globals := initTable
  compilerFunctions := []
  initString := none

def c2WitnessHeap : GCHeap where
  roots := c2WitnessRoots
  strings := initTable
  strHash := fun k => k
  objects := [1, 2]
  refs := fun _ => []
  objSize := fun _ => 16
  marks := []
  bytesAllocated := 100
  nextGC := 200
  freed := []

theorem C2_collect_reclaims_unreachable_witness :
    HeapWF c2WitnessHeap ∧
    ∃ h2, collectGarbage c2WitnessHeap = some h2 ∧
      (∀ o ∈ c2WitnessHeap.objects,
        (Reachable c2WitnessHeap.refs (rootObjects c2WitnessHeap.roots) o →
          h2.objects.count o = 1 ∧
            o ∉ h2.freed.drop c2WitnessHeap.freed.length) ∧
        (¬ Reachable c2WitnessHeap.refs (rootObjects c2WitnessHeap.roots) o →
          o ∉ h2.objects ∧
            (h2.freed.drop c2WitnessHeap.freed.length).count o = 1)) ∧
      h2.marks = [] := by
  have hwf : HeapWF c2WitnessHeap := by
    refine ⟨rfl, by decide, by decide, ?_, Or.inl rfl⟩
    intro o ho p hp
    exact absurd hp (List.not_mem_nil _)
  exact ⟨hwf, C2_collect_reclaims_unreachable c2WitnessHeap hwf⟩

def c4WitnessRoots : VMRoots where
  stack := [LoxValue.object 3]
  frameClosures := []
  openUpvalues := []
  globals := initTable
  compilerFunctions := []
  initString := some 3

def c4WitnessHeap : GCHeap where
  roots := c4WitnessRoots
  strings := initTable
  strHash := fun k => k
  objects := [3]
  refs := fun _ => []
  objSize := fun _ => 24
  marks := []
  bytesAllocated := 64
  nextGC := 1024
  freed := []

theorem C4_intern_weak_refs_witness :
    HeapWF c4WitnessHeap ∧
    ∃ h2, collectGarbage c4WitnessHeap = some h2 ∧
      (∀ k, absTable h2.strings.entries k ≠ none →
        Reachable c4WitnessHeap.refs (rootObjects c4WitnessHeap.roots) k ∧
          k ∉ h2.freed.drop c4WitnessHeap.freed.length) ∧
      (∀ k, Reachable c4WitnessHeap.refs (rootObjects c4WitnessHeap.roots) k →
        absTable h2.strings.entries k
          = absTable c4WitnessHeap.strings.entries k) := by
  have hwf : HeapWF c4WitnessHeap := by
    refine ⟨rfl, by decide, by decide, ?_, Or.inl rfl⟩
    intro o ho p hp
    exact absurd hp (List.not_mem_nil _)
  exact ⟨hwf, C4_intern_weak_refs c4WitnessHeap hwf⟩

def c5WitnessHeap : GCHeap where
  roots := c2WitnessRoots
  strings := initTable
  strHash := fun k => k
  objects := [1]
  refs := fun _ => []
  objSize := fun _ => 8
  marks := []
  bytesAllocated := 0
  nextGC := 0
  freed := []

theorem C5_gc_trigger_witness :
    HeapWF c5WitnessHeap ∧
    ∃ h2 didCollect, reallocate c5WitnessHeap 0 1 = some (h2, didCollect) ∧
      (didCollect = true ↔ 0 < 1 ∧
        c5WitnessHeap.nextGC < (bumpBytes c5WitnessHeap 0 1).bytesAllocated) ∧
      (didCollect = true → h2.nextGC = h2.bytesAllocated * 2 % 2 ^ 64) ∧
      (didCollect = false → h2 = bumpBytes c5WitnessHeap 0 1) := by
  have hwf : HeapWF c5WitnessHeap := by
    refine ⟨rfl, by decide, by decide, ?_, Or.inl rfl⟩
    intro o ho p hp
    exact absurd hp (List.not_mem_nil _)
  exact ⟨hwf, C5_gc_trigger c5WitnessHeap hwf 0 1⟩

/-!
### `tableFindString` at the value level
-/

/-- The string probe loop returns a matching stored key when one sits at
offset `D` from the probe start with no truly empty slot before it. -/
theorem tableFindStringLoop_finds (hashFn : Nat → Nat)
    (strChars : Nat → List Nat) (es : List Entry) (K : Nat)
    (hpow : es.length = 2 ^ K) (chars : List Nat) (length hash : Nat)
    (s0 D k : Nat) (hD : D < es.length)
    (hkey : (slot es (probe es.length s0 D)).key = some k)
    (hmatch : (strChars k).length = length ∧ hashFn k = hash ∧
      (strChars k).take length = chars.take length)
    (hpath : ∀ d < D, ¬ isEmptySlot (slot es (probe es.length s0 d))) :
    ∀ fuel m, m ≤ D → D - m < fuel →
      ∃ k2 j, tableFindStringLoop hashFn strChars es (2 ^ K - 1) chars length
          hash (probe es.length s0 m) fuel = some (some k2) ∧
        j < es.length ∧ (slot es j).key = some k2 ∧
        (strChars k2).length = length ∧ hashFn k2 = hash ∧
        (strChars k2).take length = chars.take length := by
  have hlen : 0 < es.length := by rw [hpow]; positivity
  intro fuel
  induction fuel with
  | zero =>
    intro m hm hf
    omega
  | succ fuel ih =>
    intro m hm hf
    rw [tableFindStringLoop_succ]
    rcases Nat.lt_or_ge m D with hlt | hge
    · cases hk : (slot es (probe es.length s0 m)).key with
      | none =>
        have hne := hpath m hlt
        have hv : ¬ (slot es (probe es.length s0 m)).value = LoxValue.nil := by
          intro hv
          exact hne ⟨hk, hv⟩
        simp only [hk, hv, if_false]
        rw [step_mask es K hpow s0 m]
        exact ih (m + 1) (by omega) (by omega)
      | some k2 =>
        by_cases hc : (strChars k2).length = length ∧ hashFn k2 = hash ∧
            (strChars k2).take length = chars.take length
        · refine ⟨k2, probe es.length s0 m, ?_, probe_lt _ _ _ hlen, hk,
            hc.1, hc.2.1, hc.2.2⟩
          simp only [hk]
          rw [if_pos hc]
        · simp only [hk, hc, if_false]
          rw [step_mask es K hpow s0 m]
          exact ih (m + 1) (by omega) (by omega)
    · have hmD : m = D := le_antisymm hm hge
      subst hmD
      refine ⟨k, probe es.length s0 m, ?_, probe_lt _ _ _ hlen, hkey,
        hmatch.1, hmatch.2.1, hmatch.2.2⟩
      simp only [hkey]
      rw [if_pos hmatch]

/-- The string probe loop returns `NULL` at the first truly empty slot
when no stored key matches. -/
theorem tableFindStringLoop_nomatch (hashFn : Nat → Nat)
    (strChars : Nat → List Nat) (es : List Entry) (K : Nat)
    (hpow : es.length = 2 ^ K) (chars : List Nat) (length hash : Nat)
    (s0 E : Nat) (hE : E < es.length)
    (hempty : isEmptySlot (slot es (probe es.length s0 E)))
    (hmin : ∀ d < E, ¬ isEmptySlot (slot es (probe es.length s0 d)))
    (hno : ∀ j < es.length, ∀ k, (slot es j).key = some k →
      ¬ ((strChars k).length = length ∧ hashFn k = hash ∧
        (strChars k).take length = chars.take length)) :
    ∀ fuel m, m ≤ E → E - m < fuel →
      tableFindStringLoop hashFn strChars es (2 ^ K - 1) chars length hash
        (probe es.length s0 m) fuel = some none := by
  have hlen : 0 < es.length := by rw [hpow]; positivity
  intro fuel
  induction fuel with
  | zero =>
    intro m hm hf
    omega
  | succ fuel ih =>
    intro m hm hf
    rw [tableFindStringLoop_succ]
    rcases Nat.lt_or_ge m E with hlt | hge
    · cases hk : (slot es (probe es.length s0 m)).key with
      | none =>
        have hne := hmin m hlt
        have hv : ¬ (slot es (probe es.length s0 m)).value = LoxValue.nil := by
          intro hv
          exact hne ⟨hk, hv⟩
        simp only [hk, hv, if_false]
        rw [step_mask es K hpow s0 m]
        exact ih (m + 1) (by omega) (by omega)
      | some k2 =>
        have hc := hno _ (probe_lt _ _ _ hlen) k2 hk
        simp only [hk, hc, if_false]
        rw [step_mask es K hpow s0 m]
        exact ih (m + 1) (by omega) (by omega)
    · have hmE : m = E := le_antisymm hm hge
      subst hmE
      obtain ⟨hkn, hvn⟩ := hempty
      simp [hkn, hvn]

/-- `tableFindString` finds a stored matching key when one exists. -/
theorem tableFindString_present (hashFn : Nat → Nat)
    (strChars : Nat → List Nat) (t : Table) (chars : List Nat)
    (length hash : Nat) (hInv : TableInvA hashFn t)
    (j0 k0 : Nat) (hj0 : j0 < t.entries.length)
    (hkey0 : (slot t.entries j0).key = some k0)
    (hm0 : (strChars k0).length = length ∧ hashFn k0 = hash ∧
      (strChars k0).take length = chars.take length) :
    ∃ k2 j, tableFindString hashFn strChars t chars length hash
        = some (some k2) ∧
      j < t.entries.length ∧ (slot t.entries j).key = some k2 ∧
      (strChars k2).length = length ∧ hashFn k2 = hash ∧
      (strChars k2).take length = chars.take length := by
  obtain ⟨K, hK, hpow⟩ := hInv.pow
  have hlen : 0 < t.entries.length := by rw [hpow]; positivity
  have hc : ¬ t.count = 0 := by
    have := countOccupied_pos_of_key t.entries j0 k0 hj0 hkey0
    rw [hInv.cnt]
    omega
  have hs0 : hash % t.entries.length < t.entries.length := Nat.mod_lt _ hlen
  have hhome : home hashFn t.entries.length k0 = hash % t.entries.length := by
    unfold home
    rw [hm0.2.1]
  obtain ⟨D, hD, hprobe⟩ := probe_surj t.entries.length
    (home hashFn t.entries.length k0) j0 hj0 (home_lt _ _ _ hlen)
  have hkeyD : (slot t.entries (probe t.entries.length
      (hash % t.entries.length) D)).key = some k0 := by
    rw [← hhome, hprobe]
    exact hkey0
  have hpath : ∀ d < D, ¬ isEmptySlot (slot t.entries
      (probe t.entries.length (hash % t.entries.length) d)) := by
    intro d hd
    rw [← hhome]
    exact hInv.inv.chain k0 D hD (by rw [hhome]; exact hkeyD) d hd
  have hcap : t.capacity.toNat = 2 ^ K - 1 := by
    rw [hInv.cap, hpow]
    omega
  have hstart : hash &&& (2 ^ K - 1)
      = probe t.entries.length (hash % t.entries.length) 0 := by
    rw [and_mask, probe_zero _ _ hs0, hpow]
  obtain ⟨k2, j, heq, hj, hkey2, hm1, hm2, hm3⟩ :=
    tableFindStringLoop_finds hashFn strChars t.entries K hpow chars length
      hash (hash % t.entries.length) D k0 hD hkeyD hm0 hpath
      (t.entries.length + 1) 0 (by omega) (by omega)
  refine ⟨k2, j, ?_, hj, hkey2, hm1, hm2, hm3⟩
  unfold tableFindString
  rw [if_neg hc, hcap, hstart]
  exact heq

/-- `tableFindString` returns `NULL` when no stored key matches. -/
theorem tableFindString_absent (hashFn : Nat → Nat)
    (strChars : Nat → List Nat) (t : Table) (chars : List Nat)
    (length hash : Nat) (hInv : TableInvA hashFn t)
    (hno : ∀ j < t.entries.length, ∀ k, (slot t.entries j).key = some k →
      ¬ ((strChars k).length = length ∧ hashFn k = hash ∧
        (strChars k).take length = chars.take length)) :
    tableFindString hashFn strChars t chars length hash = some none := by
  by_cases hc : t.count = 0
  · unfold tableFindString
    rw [if_pos hc]
  · obtain ⟨K, hK, hpow⟩ := hInv.pow
    have hlen : 0 < t.entries.length := by rw [hpow]; positivity
    have hcount : countOccupied t.entries < t.entries.length := by
      have h1 := hInv.load
      have h2 := hInv.cnt
      omega
    obtain ⟨jE, hjE, hEmpty⟩ :=
      exists_empty_of_countOccupied_lt t.entries hcount
    have hs0 : hash % t.entries.length < t.entries.length := Nat.mod_lt _ hlen
    obtain ⟨Dj, hDj, hprobej⟩ := probe_surj t.entries.length
      (hash % t.entries.length) jE hjE hs0
    have hex : ∃ d, isEmptySlot (slot t.entries
        (probe t.entries.length (hash % t.entries.length) d)) :=
      ⟨Dj, by rw [hprobej]; exact hEmpty⟩
    have hnempty := Nat.find_spec hex
    have hnpath : ∀ d < Nat.find hex, ¬ isEmptySlot (slot t.entries
        (probe t.entries.length (hash % t.entries.length) d)) :=
      fun d hd => Nat.find_min hex hd
    have hnlt : Nat.find hex < t.entries.length :=
      lt_of_le_of_lt (Nat.find_min' hex (by rw [hprobej]; exact hEmpty)) hDj
    have hcap : t.capacity.toNat = 2 ^ K - 1 := by
      rw [hInv.cap, hpow]
      omega
    have hstart : hash &&& (2 ^ K - 1)
        = probe t.entries.length (hash % t.entries.length) 0 := by
      rw [and_mask, probe_zero _ _ hs0, hpow]
    unfold tableFindString
    rw [if_neg hc, hcap, hstart]
    exact tableFindStringLoop_nomatch hashFn strChars t.entries K hpow chars
      length hash (hash % t.entries.length) (Nat.find hex) hnlt hnempty
      hnpath hno (t.entries.length + 1) 0 (by omega) (by omega)

/-!
## String interning: `hashString`, `takeString`, `copyString` (object.c)
-/

/-- `hashString`: FNV-1a over the bytes, in `uint32_t` arithmetic. -/
def hashString (chars : List Nat) : Nat :=
  chars.foldl (fun h c => ((h ^^^ c) * 16777619) % 2 ^ 32) 2166136261

/-- The VM state the interning functions touch: the `vm.strings` table
(keyed by string-object pointers), the `chars` content of every allocated
string object, the allocation counter, and the log of `FREE_ARRAY` calls
on input buffers. -/
structure InternState : Type where
  strings : Table
  strChars : Nat → List Nat
  nextId : Nat
  freedBuffers : List Nat

def initInternState : InternState where
  strings := initTable
  strChars := fun _ => []
  nextId := 0
  freedBuffers := []

/-- The `key->hash` field of string object `k`: set at allocation to the
FNV-1a hash of its content. -/
def hashOf (st : InternState) (k : Nat) : Nat := hashString (st.strChars k)

/-- The state right after `ALLOCATE_OBJECT` fills in the new string's
fields (content = the buffer, hash = FNV-1a of it), before the
`tableSet` interning call. -/
def internMid (st : InternState) (chars : List Nat) : InternState where
  strings := st.strings
  strChars := fun k => if k = st.nextId then chars else st.strChars k
  nextId := st.nextId + 1
  freedBuffers := st.freedBuffers

/-- `allocateString(chars, length, hash)`: a fresh string object takes the
buffer as its content, then is interned via
`tableSet(&vm.strings, string, NIL_VAL)`. -/
def allocateString (st : InternState) (chars : List Nat) :
    Option (InternState × Nat) :=
  match tableSet (hashOf (internMid st chars)) st.strings st.nextId
      LoxValue.nil with
  | none => none
  | some (t2, _) =>
    some ({ internMid st chars with strings := t2 }, st.nextId)

/-- `takeString(chars, length)`: hash, look the content up in `vm.strings`;
on a hit, `FREE_ARRAY` the input buffer and return the interned object; on
a miss the buffer itself becomes the new string's storage. -/
def takeString (st : InternState) (bufId : Nat) (chars : List Nat) :
    Option (InternState × Nat) :=
  match tableFindString (hashOf st) st.strChars st.strings chars chars.length
      (hashString chars) with
  | none => none
  | some (some interned) =>
    some ({ st with freedBuffers := st.freedBuffers ++ [bufId] }, interned)
  | some none => allocateString st chars

/-- `copyString(chars, length)`: like `takeString`, but on a miss the input
is copied into a fresh buffer; the input is never freed. -/
def copyString (st : InternState) (chars : List Nat) :
    Option (InternState × Nat) :=
  match tableFindString (hashOf st) st.strChars st.strings chars chars.length
      (hashString chars) with
  | none => none
  | some (some interned) => some (st, interned)
  | some none => allocateString st chars

/-- A source-level call to one of the two interning constructors. -/
inductive InternOp : Type where
  | take (bufId : Nat) (chars : List Nat)
  | copy (chars : List Nat)

def opChars : InternOp → List Nat
  | .take _ cs => cs
  | .copy cs => cs

def applyInternOp (st : InternState) : InternOp → Option (InternState × Nat)
  | .take b cs => takeString st b cs
  | .copy cs => copyString st cs

/-- Run a sequence of interning calls, logging each call with the object
pointer it returned. -/
def runIntern : InternState → List InternOp →
    Option (InternState × List (InternOp × Nat))
  | st, [] => some (st, [])
  | st, op :: ops =>
    match applyInternOp st op with
    | none => none
    | some (st2, i) =>
      match runIntern st2 ops with
      | none => none
      | some (st3, trace) => some (st3, (op, i) :: trace)

/-- Modelled from the spec (§ interning): the `FREE_ARRAY` calls a call
sequence performs are exactly the input buffers of the `takeString` calls
whose content has been interned before, in call order. -/
def freedSpec (seen : List (List Nat)) : List InternOp → List Nat
  | [] => []
  | .take b cs :: ops =>
    if cs ∈ seen then b :: freedSpec seen ops
    else freedSpec (cs :: seen) ops
  | .copy cs :: ops =>
    if cs ∈ seen then freedSpec seen ops
    else freedSpec (cs :: seen) ops

/-- The interning invariant: the table is reachable under the hash of the
current contents, all keys are allocated ids, and contents are unique
across interned keys. -/
structure InternInv (st : InternState) : Prop where
  ok : TableOk (hashOf st) st.strings
  dom : ∀ k, absTable st.strings.entries k ≠ none → k < st.nextId
  content : ∀ k1, absTable st.strings.entries k1 ≠ none →
    ∀ k2, absTable st.strings.entries k2 ≠ none →
      st.strChars k1 = st.strChars k2 → k1 = k2

theorem stored_iff_abs (es : List Entry) (k : Nat) :
    (∃ j < es.length, (slot es j).key = some k) ↔ absTable es k ≠ none := by
  constructor
  · rintro ⟨j, hj, hkey⟩ habs
    exact (absTable_eq_none_iff es k).1 habs j hj hkey
  · intro habs
    by_contra hno
    push_neg at hno
    exact habs ((absTable_eq_none_iff es k).2 hno)

/-- The chain invariant only depends on the hash of stored keys. -/
theorem entriesInv_congr (hashFn hashFn2 : Nat → Nat) (es : List Entry)
    (hagree : ∀ j < es.length, ∀ k, (slot es j).key = some k →
      hashFn2 k = hashFn k)
    (hEI : EntriesInv hashFn es) : EntriesInv hashFn2 es := by
  refine ⟨?_, hEI.uniq⟩
  intro k d hd hkey e he
  have hlen : 0 < es.length := by omega
  have hk2 : hashFn2 k = hashFn k :=
    hagree _ (probe_lt _ _ _ hlen) k hkey
  have hhome : home hashFn2 es.length k = home hashFn es.length k := by
    unfold home
    rw [hk2]
  rw [hhome] at hkey ⊢
  exact hEI.chain k d hd hkey e he

theorem tableOk_congr (hashFn hashFn2 : Nat → Nat) (t : Table)
    (hagree : ∀ j < t.entries.length, ∀ k, (slot t.entries j).key = some k →
      hashFn2 k = hashFn k)
    (hOk : TableOk hashFn t) : TableOk hashFn2 t := by
  rcases hOk with rfl | hInv
  · exact Or.inl rfl
  · exact Or.inr ⟨hInv.pow, hInv.cap, hInv.cnt, hInv.load,
      entriesInv_congr hashFn hashFn2 t.entries hagree hInv.inv⟩

theorem content_of_cond (strChars : Nat → List Nat) (chars : List Nat)
    (k : Nat) (h1 : (strChars k).length = chars.length)
    (h3 : (strChars k).take chars.length = chars.take chars.length) :
    strChars k = chars := by
  rw [List.take_length] at h3
  rw [← h1, List.take_length] at h3
  exact h3

/-- Classifying the intern lookup: a hit returns an interned object with
exactly the requested content; otherwise it returns `NULL`. -/
theorem lookup_classify (st : InternState) (chars : List Nat)
    (hInv : InternInv st) :
    (∃ k, tableFindString (hashOf st) st.strChars st.strings chars
        chars.length (hashString chars) = some (some k) ∧
      absTable st.strings.entries k ≠ none ∧ st.strChars k = chars) ∨
    (tableFindString (hashOf st) st.strChars st.strings chars chars.length
        (hashString chars) = some none ∧
      ∀ k, absTable st.strings.entries k ≠ none → st.strChars k ≠ chars) := by
  by_cases hex : ∃ k, absTable st.strings.entries k ≠ none ∧
      st.strChars k = chars
  · left
    obtain ⟨k0, habs0, hcs0⟩ := hex
    obtain ⟨j0, hj0, hkey0⟩ := (stored_iff_abs st.strings.entries k0).2 habs0
    have hInvA : TableInvA (hashOf st) st.strings := by
      rcases hInv.ok with hinit | hInvA
      · rw [hinit] at hj0
        simp [initTable] at hj0
      · exact hInvA
    obtain ⟨k2, j, heq, hj, hkey2, hm1, hm2, hm3⟩ :=
      tableFindString_present (hashOf st) st.strChars st.strings chars
        chars.length (hashString chars) hInvA j0 k0 hj0 hkey0
        ⟨by rw [hcs0], by unfold hashOf; rw [hcs0], by rw [hcs0]⟩
    refine ⟨k2, heq, (stored_iff_abs _ _).1 ⟨j, hj, hkey2⟩, ?_⟩
    exact content_of_cond st.strChars chars k2 hm1 hm3
  · right
    push_neg at hex
    refine ⟨?_, hex⟩
    rcases hInv.ok with hinit | hInvA
    · unfold tableFindString
      rw [hinit]
      rfl
    · refine tableFindString_absent (hashOf st) st.strChars st.strings chars
        chars.length (hashString chars) hInvA ?_
      intro j hj k hkey hcond
      have habs := (stored_iff_abs st.strings.entries k).1 ⟨j, hj, hkey⟩
      exact hex k habs (content_of_cond st.strChars chars k hcond.1 hcond.2.2)

/-- `allocateString` on a content absent from the intern table: it returns
the fresh object, interns it, and changes nothing else. -/
theorem allocateString_spec (st : InternState) (chars : List Nat)
    (hInv : InternInv st)
    (hmiss : ∀ k, absTable st.strings.entries k ≠ none →
      st.strChars k ≠ chars) :
    ∃ st2, allocateString st chars = some (st2, st.nextId) ∧
      InternInv st2 ∧
      st2.strChars st.nextId = chars ∧
      absTable st2.strings.entries st.nextId ≠ none ∧
      (∀ k, k ≠ st.nextId → st2.strChars k = st.strChars k) ∧
      (∀ k, k ≠ st.nextId →
        absTable st2.strings.entries k = absTable st.strings.entries k) ∧
      st2.nextId = st.nextId + 1 ∧
      st2.freedBuffers = st.freedBuffers := by
  have hagree : ∀ j < st.strings.entries.length, ∀ k,
      (slot st.strings.entries j).key = some k →
      hashOf (internMid st chars) k = hashOf st k := by
    intro j hj k hkey
    have hklt := hInv.dom k ((stored_iff_abs _ _).1 ⟨j, hj, hkey⟩)
    unfold hashOf
    show hashString (if k = st.nextId then chars else st.strChars k) = _
    rw [if_neg (by omega)]
  have hOk2 : TableOk (hashOf (internMid st chars)) st.strings :=
    tableOk_congr (hashOf st) (hashOf (internMid st chars)) st.strings
      hagree hInv.ok
  obtain ⟨t2, isNew, hset, hInvA2, habsk, habso⟩ :=
    tableSet_spec (hashOf (internMid st chars)) st.strings st.nextId
      LoxValue.nil hOk2
  refine ⟨{ internMid st chars with strings := t2 }, ?_, ?_, ?_, ?_, ?_, ?_,
    rfl, rfl⟩
  · unfold allocateString
    rw [hset]
  · refine ⟨Or.inr hInvA2, ?_, ?_⟩
    · intro k habs
      show k < st.nextId + 1
      by_cases hk : k = st.nextId
      · omega
      · rw [habso k hk] at habs
        have := hInv.dom k habs
        omega
    · intro k1 h1 k2 h2 hcc
      by_cases hk1 : k1 = st.nextId <;> by_cases hk2 : k2 = st.nextId
      · rw [hk1, hk2]
      · exfalso
        rw [habso k2 hk2] at h2
        have hc1 : ({ internMid st chars with strings := t2 }
            : InternState).strChars k1 = chars := by
          show (if k1 = st.nextId then chars else st.strChars k1) = chars
          rw [if_pos hk1]
        have hc2 : ({ internMid st chars with strings := t2 }
            : InternState).strChars k2 = st.strChars k2 := by
          show (if k2 = st.nextId then chars else st.strChars k2) = _
          rw [if_neg hk2]
        rw [hc1, hc2] at hcc
        exact hmiss k2 h2 hcc.symm
      · exfalso
        rw [habso k1 hk1] at h1
        have hc1 : ({ internMid st chars with strings := t2 }
            : InternState).strChars k1 = st.strChars k1 := by
          show (if k1 = st.nextId then chars else st.strChars k1) = _
          rw [if_neg hk1]
        have hc2 : ({ internMid st chars with strings := t2 }
            : InternState).strChars k2 = chars := by
          show (if k2 = st.nextId then chars else st.strChars k2) = chars
          rw [if_pos hk2]
        rw [hc1, hc2] at hcc
        exact hmiss k1 h1 hcc
      · rw [habso k1 hk1] at h1
        rw [habso k2 hk2] at h2
        have hc1 : ({ internMid st chars with strings := t2 }
            : InternState).strChars k1 = st.strChars k1 := by
          show (if k1 = st.nextId then chars else st.strChars k1) = _
          rw [if_neg hk1]
        have hc2 : ({ internMid st chars with strings := t2 }
            : InternState).strChars k2 = st.strChars k2 := by
          show (if k2 = st.nextId then chars else st.strChars k2) = _
          rw [if_neg hk2]
        rw [hc1, hc2] at hcc
        exact hInv.content k1 h1 k2 h2 hcc
  · show (if st.nextId = st.nextId then chars else st.strChars st.nextId)
      = chars
    rw [if_pos rfl]
  · show absTable t2.entries st.nextId ≠ none
    rw [habsk]
    exact fun h => Option.noConfusion h
  · intro k hk
    show (if k = st.nextId then chars else st.strChars k) = _
    rw [if_neg hk]
  · intro k hk
    exact habso k hk

/-- `takeString`: returns an interned object with the requested content,
keeps all other objects and bindings, and frees exactly its input buffer
when (and only when) the content was already interned. -/
theorem takeString_spec (st : InternState) (bufId : Nat) (chars : List Nat)
    (hInv : InternInv st) :
    ∃ st2 i, takeString st bufId chars = some (st2, i) ∧
      InternInv st2 ∧
      st2.strChars i = chars ∧
      absTable st2.strings.entries i ≠ none ∧
      (∀ k, k ≠ i → st2.strChars k = st.strChars k) ∧
      (∀ k, k ≠ i →
        absTable st2.strings.entries k = absTable st.strings.entries k) ∧
      ((∃ k, absTable st.strings.entries k ≠ none ∧ st.strChars k = chars) →
        st2.strings = st.strings ∧ st2.strChars = st.strChars ∧
        st2.freedBuffers = st.freedBuffers ++ [bufId]) ∧
      (¬ (∃ k, absTable st.strings.entries k ≠ none ∧
          st.strChars k = chars) →
        st2.freedBuffers = st.freedBuffers ∧ i = st.nextId ∧
        st2.nextId = st.nextId + 1) := by
  rcases lookup_classify st chars hInv with ⟨k, heq, habs, hcs⟩ | ⟨heq, hno⟩
  · refine ⟨{ st with freedBuffers := st.freedBuffers ++ [bufId] }, k, ?_,
      ⟨hInv.ok, hInv.dom, hInv.content⟩, hcs, habs,
      fun k2 _ => rfl, fun k2 _ => rfl,
      fun _ => ⟨rfl, rfl, rfl⟩, fun hmiss => absurd ⟨k, habs, hcs⟩ hmiss⟩
    unfold takeString
    rw [heq]
  · have hmiss : ¬ ∃ k, absTable st.strings.entries k ≠ none ∧
        st.strChars k = chars := by
      rintro ⟨k, h1, h2⟩
      exact hno k h1 h2
    obtain ⟨st2, halloc, hInv2, hcsi, habsi, hcso, habso, hnext, hfreed⟩ :=
      allocateString_spec st chars hInv hno
    refine ⟨st2, st.nextId, ?_, hInv2, hcsi, habsi, ?_, ?_,
      fun hhit => absurd hhit hmiss, fun _ => ⟨hfreed, rfl, hnext⟩⟩
    · unfold takeString
      rw [heq]
      exact halloc
    · exact hcso
    · exact habso

/-- `copyString`: returns an interned object with the requested content,
keeps all other objects and bindings, and never frees anything. -/
theorem copyString_spec (st : InternState) (chars : List Nat)
    (hInv : InternInv st) :
    ∃ st2 i, copyString st chars = some (st2, i) ∧
      InternInv st2 ∧
      st2.strChars i = chars ∧
      absTable st2.strings.entries i ≠ none ∧
      (∀ k, k ≠ i → st2.strChars k = st.strChars k) ∧
      (∀ k, k ≠ i →
        absTable st2.strings.entries k = absTable st.strings.entries k) ∧
      st2.freedBuffers = st.freedBuffers ∧
      ((∃ k, absTable st.strings.entries k ≠ none ∧ st.strChars k = chars) →
        st2 = st) ∧
      (¬ (∃ k, absTable st.strings.entries k ≠ none ∧
          st.strChars k = chars) →
        i = st.nextId ∧ st2.nextId = st.nextId + 1) := by
  rcases lookup_classify st chars hInv with ⟨k, heq, habs, hcs⟩ | ⟨heq, hno⟩
  · refine ⟨st, k, ?_, hInv, hcs, habs, fun k2 _ => rfl, fun k2 _ => rfl,
      rfl, fun _ => rfl, fun hmiss => absurd ⟨k, habs, hcs⟩ hmiss⟩
    unfold copyString
    rw [heq]
  · have hmiss : ¬ ∃ k, absTable st.strings.entries k ≠ none ∧
        st.strChars k = chars := by
      rintro ⟨k, h1, h2⟩
      exact hno k h1 h2
    obtain ⟨st2, halloc, hInv2, hcsi, habsi, hcso, habso, hnext, hfreed⟩ :=
      allocateString_spec st chars hInv hno
    refine ⟨st2, st.nextId, ?_, hInv2, hcsi, habsi, hcso, habso, hfreed,
      fun hhit => absurd hhit hmiss, fun _ => ⟨rfl, hnext⟩⟩
    unfold copyString
    rw [heq]
    exact halloc

theorem runIntern_cons (st : InternState) (op : InternOp)
    (ops : List InternOp) :
    runIntern st (op :: ops) =
      match applyInternOp st op with
      | none => none
      | some (st2, i) =>
        match runIntern st2 ops with
        | none => none
        | some (st3, trace) => some (st3, (op, i) :: trace) := rfl

theorem freedSpec_take (seen : List (List Nat)) (b : Nat) (cs : List Nat)
    (ops : List InternOp) :
    freedSpec seen (InternOp.take b cs :: ops) =
      if cs ∈ seen then b :: freedSpec seen ops
      else freedSpec (cs :: seen) ops := rfl

theorem freedSpec_copy (seen : List (List Nat)) (cs : List Nat)
    (ops : List InternOp) :
    freedSpec seen (InternOp.copy cs :: ops) =
      if cs ∈ seen then freedSpec seen ops
      else freedSpec (cs :: seen) ops := rfl

/-- Running any interning call sequence: it succeeds, maintains the
interning invariant, frees exactly the buffers `freedSpec` predicts, and
every logged call returned an interned object still holding exactly the
requested bytes. -/
theorem runIntern_go (ops : List InternOp) :
    ∀ st seen, InternInv st →
      (∀ cs, cs ∈ seen ↔ ∃ k, absTable st.strings.entries k ≠ none ∧
        st.strChars k = cs) →
      ∃ st2 trace, runIntern st ops = some (st2, trace) ∧
        InternInv st2 ∧
        st2.freedBuffers = st.freedBuffers ++ freedSpec seen ops ∧
        (∀ e ∈ trace, absTable st2.strings.entries e.2 ≠ none ∧
          st2.strChars e.2 = opChars e.1) ∧
        (∀ k, absTable st.strings.entries k ≠ none →
          absTable st2.strings.entries k = absTable st.strings.entries k ∧
          st2.strChars k = st.strChars k) := by
  induction ops with
  | nil =>
    intro st seen hInv hseen
    exact ⟨st, [], rfl, hInv, by simp [freedSpec], by simp,
      fun k h => ⟨rfl, rfl⟩⟩
  | cons op ops ih =>
    intro st seen hInv hseen
    cases op with
    | take b cs =>
      obtain ⟨st1, i, hcall, hInv1, hcsi, habsi, hcso, habso, hhit, hmiss⟩ :=
        takeString_spec st b cs hInv
      by_cases hseencs : cs ∈ seen
      · obtain ⟨hstr1, hchars1, hfree1⟩ := hhit ((hseen cs).1 hseencs)
        have hseen1 : ∀ cs2, cs2 ∈ seen ↔
            ∃ k, absTable st1.strings.entries k ≠ none ∧
              st1.strChars k = cs2 := by
          intro cs2
          rw [hstr1, hchars1]
          exact hseen cs2
        obtain ⟨st2, trace, hrun, hInv2, hfree2, htrace, hpres⟩ :=
          ih st1 seen hInv1 hseen1
        refine ⟨st2, (InternOp.take b cs, i) :: trace, ?_, hInv2, ?_, ?_, ?_⟩
        · rw [runIntern_cons]
          simp only [applyInternOp, hcall, hrun]
        · rw [hfree2, hfree1, freedSpec_take, if_pos hseencs,
            List.append_assoc]
          rfl
        · intro e he
          rcases List.mem_cons.1 he with rfl | he2
          · obtain ⟨p1, p2⟩ := hpres i habsi
            exact ⟨by rw [p1]; exact habsi, by rw [p2]; exact hcsi⟩
          · exact htrace e he2
        · intro k hk
          have hk1 : absTable st1.strings.entries k ≠ none := by
            rw [hstr1]
            exact hk
          obtain ⟨p1, p2⟩ := hpres k hk1
          exact ⟨by rw [p1, hstr1], by rw [p2, hchars1]⟩
      · have hnoex : ¬ ∃ k, absTable st.strings.entries k ≠ none ∧
            st.strChars k = cs := fun hex => hseencs ((hseen cs).2 hex)
        obtain ⟨hfree1, hieq, hnext1⟩ := hmiss hnoex
        subst hieq
        have hseen1 : ∀ cs2, cs2 ∈ cs :: seen ↔
            ∃ k, absTable st1.strings.entries k ≠ none ∧
              st1.strChars k = cs2 := by
          intro cs2
          constructor
          · intro hmem
            rcases List.mem_cons.1 hmem with rfl | hmem2
            · exact ⟨st.nextId, habsi, hcsi⟩
            · obtain ⟨k, h1, h2⟩ := (hseen cs2).1 hmem2
              have hki : k ≠ st.nextId := by
                have := hInv.dom k h1
                omega
              exact ⟨k, by rw [habso k hki]; exact h1,
                by rw [hcso k hki]; exact h2⟩
          · rintro ⟨k, h1, h2⟩
            by_cases hki : k = st.nextId
            · subst hki
              rw [hcsi] at h2
              rw [← h2]
              exact List.mem_cons_self _ _
            · have h1b : absTable st.strings.entries k ≠ none := by
                rw [← habso k hki]
                exact h1
              have h2b : st.strChars k = cs2 := by
                rw [← hcso k hki]
                exact h2
              exact List.mem_cons_of_mem _ ((hseen cs2).2 ⟨k, h1b, h2b⟩)
        obtain ⟨st2, trace, hrun, hInv2, hfree2, htrace, hpres⟩ :=
          ih st1 (cs :: seen) hInv1 hseen1
        refine ⟨st2, (InternOp.take b cs, st.nextId) :: trace, ?_, hInv2,
          ?_, ?_, ?_⟩
        · rw [runIntern_cons]
          simp only [applyInternOp, hcall, hrun]
        · rw [hfree2, hfree1, freedSpec_take, if_neg hseencs]
        · intro e he
          rcases List.mem_cons.1 he with rfl | he2
          · obtain ⟨p1, p2⟩ := hpres st.nextId habsi
            exact ⟨by rw [p1]; exact habsi, by rw [p2]; exact hcsi⟩
          · exact htrace e he2
        · intro k hk
          have hki : k ≠ st.nextId := by
            have := hInv.dom k hk
            omega
          have hk1 : absTable st1.strings.entries k ≠ none := by
            rw [habso k hki]
            exact hk
          obtain ⟨p1, p2⟩ := hpres k hk1
          exact ⟨by rw [p1, habso k hki], by rw [p2, hcso k hki]⟩
    | copy cs =>
      obtain ⟨st1, i, hcall, hInv1, hcsi, habsi, hcso, habso, hfree1,
        hhit, hmiss⟩ := copyString_spec st cs hInv
      by_cases hseencs : cs ∈ seen
      · have hsteq : st1 = st := hhit ((hseen cs).1 hseencs)
        subst hsteq
        obtain ⟨st2, trace, hrun, hInv2, hfree2, htrace, hpres⟩ :=
          ih st1 seen hInv1 hseen
        refine ⟨st2, (InternOp.copy cs, i) :: trace, ?_, hInv2, ?_, ?_, ?_⟩
        · rw [runIntern_cons]
          simp only [applyInternOp, hcall, hrun]
        · rw [hfree2, freedSpec_copy, if_pos hseencs]
        · intro e he
          rcases List.mem_cons.1 he with rfl | he2
          · obtain ⟨p1, p2⟩ := hpres i habsi
            exact ⟨by rw [p1]; exact habsi, by rw [p2]; exact hcsi⟩
          · exact htrace e he2
        · exact hpres
      · have hnoex : ¬ ∃ k, absTable st.strings.entries k ≠ none ∧
            st.strChars k = cs := fun hex => hseencs ((hseen cs).2 hex)
        obtain ⟨hieq, hnext1⟩ := hmiss hnoex
        subst hieq
        have hseen1 : ∀ cs2, cs2 ∈ cs :: seen ↔
            ∃ k, absTable st1.strings.entries k ≠ none ∧
              st1.strChars k = cs2 := by
          intro cs2
          constructor
          · intro hmem
            rcases List.mem_cons.1 hmem with rfl | hmem2
            · exact ⟨st.nextId, habsi, hcsi⟩
            · obtain ⟨k, h1, h2⟩ := (hseen cs2).1 hmem2
              have hki : k ≠ st.nextId := by
                have := hInv.dom k h1
                omega
              exact ⟨k, by rw [habso k hki]; exact h1,
                by rw [hcso k hki]; exact h2⟩
          · rintro ⟨k, h1, h2⟩
            by_cases hki : k = st.nextId
            · subst hki
              rw [hcsi] at h2
              rw [← h2]
              exact List.mem_cons_self _ _
            · have h1b : absTable st.strings.entries k ≠ none := by
                rw [← habso k hki]
                exact h1
              have h2b : st.strChars k = cs2 := by
                rw [← hcso k hki]
                exact h2
              exact List.mem_cons_of_mem _ ((hseen cs2).2 ⟨k, h1b, h2b⟩)
        obtain ⟨st2, trace, hrun, hInv2, hfree2, htrace, hpres⟩ :=
          ih st1 (cs :: seen) hInv1 hseen1
        refine ⟨st2, (InternOp.copy cs, st.nextId) :: trace, ?_, hInv2,
          ?_, ?_, ?_⟩
        · rw [runIntern_cons]
          simp only [applyInternOp, hcall, hrun]
        · rw [hfree2, hfree1, freedSpec_copy, if_neg hseencs]
        · intro e he
          rcases List.mem_cons.1 he with rfl | he2
          · obtain ⟨p1, p2⟩ := hpres st.nextId habsi
            exact ⟨by rw [p1]; exact habsi, by rw [p2]; exact hcsi⟩
          · exact htrace e he2
        · intro k hk
          have hki : k ≠ st.nextId := by
            have := hInv.dom k hk
            omega
          have hk1 : absTable st1.strings.entries k ≠ none := by
            rw [habso k hki]
            exact hk
          obtain ⟨p1, p2⟩ := hpres k hk1
          exact ⟨by rw [p1, habso k hki], by rw [p2, hcso k hki]⟩

/-- C6: `copyString` and `takeString` canonicalize strings — any two calls,
to either function in either order, with byte-equal contents return the
same object pointer, and that object holds exactly those bytes; moreover
the buffers freed are exactly the inputs of the `takeString` calls whose
content was already interned (an intern hit frees `takeString`'s input;
`copyString` never frees its input). -/
theorem C6_string_interning (ops : List InternOp) :
    ∃ st trace, runIntern initInternState ops = some (st, trace) ∧
      (∀ e1 ∈ trace, ∀ e2 ∈ trace,
        opChars e1.1 = opChars e2.1 → e1.2 = e2.2) ∧
      (∀ e ∈ trace, st.strChars e.2 = opChars e.1) ∧
      st.freedBuffers = freedSpec [] ops := by
  have hInv0 : InternInv initInternState := by
    refine ⟨Or.inl rfl, ?_, ?_⟩
    · intro k habs
      exact absurd rfl habs
    · intro k1 h1
      exact absurd rfl h1
  have hseen0 : ∀ cs, cs ∈ ([] : List (List Nat)) ↔
      ∃ k, absTable initInternState.strings.entries k ≠ none ∧
        initInternState.strChars k = cs := by
    intro cs
    constructor
    · intro h
      exact absurd h (List.not_mem_nil _)
    · rintro ⟨k, h1, _⟩
      exact absurd rfl h1
  obtain ⟨st2, trace, hrun, hInv2, hfree2, htrace, hpres⟩ :=
    runIntern_go ops initInternState [] hInv0 hseen0
  refine ⟨st2, trace, hrun, ?_, fun e he => (htrace e he).2, ?_⟩
  · intro e1 he1 e2 he2 hcc
    obtain ⟨ha1, hc1⟩ := htrace e1 he1
    obtain ⟨ha2, hc2⟩ := htrace e2 he2
    exact hInv2.content e1.2 ha1 e2.2 ha2 (by rw [hc1, hc2, hcc])
  · rw [hfree2]
    rfl

theorem C6_string_interning_witness :
    ∃ st trace,
      runIntern initInternState
        [InternOp.copy [104, 105], InternOp.take 7 [104, 105]]
        = some (st, trace) ∧
      (∀ e1 ∈ trace, ∀ e2 ∈ trace,
        opChars e1.1 = opChars e2.1 → e1.2 = e2.2) ∧
      (∀ e ∈ trace, st.strChars e.2 = opChars e.1) ∧
      st.freedBuffers
        = freedSpec [] [InternOp.copy [104, 105], InternOp.take 7 [104, 105]]
    :=
  C6_string_interning [InternOp.copy [104, 105], InternOp.take 7 [104, 105]]

end CoreLox
